import Mathlib

/-!
# Run-length codec of `src/RLE.cpp`: embedding and verification

The C++ functions `do_encoding`, `RLE::encode`, `do_decoding`, `RLE::decode` and
`RLE::get_blob_size` are translated to Lean functions over lists of bytes.

Conventions of the embedding:

* a byte (`uint8_t`) is a `Nat`; a cast to `uint8_t` is `% 256`;
* `size_t` is 8 bytes wide; an unsigned subtraction is `subSize` (wraps modulo `2^64`);
* a buffer known by pointer and length is a `List Nat`; the blob length handed to
  `do_encoding` is the length of the list;
* an access outside a buffer or outside a variable is undefined behaviour in C++; the
  embedding stops with a `Fault` at the first such access. A result `.ok` is a run
  without any such access; a result `.error` says where the run leaves defined
  behaviour, and nothing is stated about what an executable does from there on;
* `do_encoding` converts the *value* `blobSize` to a pointer and reads eight bytes
  through it; those reads see the address space of the process, which is the
  parameter `mem` (`none` for an address that cannot be read);
* the lambda of `RLE::decode` captures a name `blob` that the function does not
  declare; the only byte pointer in scope is the parameter `encoded`, and the
  embedding reads from it;
* the output buffer of the decoder is a list of cells, `none` for a cell that was
  allocated and never written;
* the function-local `static size_t pos` of `blobAppendByte` lives across calls, so
  it is an explicit argument and result of `decode`.
-/

namespace RLE

/-- Ways in which a run leaves defined behaviour (or the budget of a loop of the model). -/
inductive Fault where
  /-- A read at an index outside the buffer it goes through. -/
  | outOfBoundsRead
  /-- A write outside the object it goes through: at an index outside the allocated
  output buffer, or at an address outside the variable `val` of the size loop. -/
  | outOfBoundsWrite
  /-- A read through a raw address that is not readable. -/
  | unreadableAddress
  /-- A run cursor that does not point into the run list. -/
  | badCursor
  /-- The iteration budget given to a loop of the model is used up. -/
  | loopBudget
  deriving DecidableEq, Repr

instance instDecidableEqResult {α : Type} [DecidableEq α] : DecidableEq (Except Fault α) :=
  fun a b =>
    match a, b with
    | .ok x, .ok y =>
        if h : x = y then isTrue (by rw [h]) else isFalse (fun e => h (Except.ok.inj e))
    | .error x, .error y =>
        if h : x = y then isTrue (by rw [h]) else isFalse (fun e => h (Except.error.inj e))
    | .ok _, .error _ => isFalse (fun e => Except.noConfusion e)
    | .error _, .ok _ => isFalse (fun e => Except.noConfusion e)

/-- Number of values of `size_t`, which is 8 bytes wide. -/
def SIZE_RANGE : Nat := 18446744073709551616

/-- The constant `sizeof(size_t)`. -/
def SIZEOF_SIZE_T : Nat := 8

/-- The constant `std::string::npos`, the largest `size_t`. -/
def npos : Nat := SIZE_RANGE - 1

/-- The constant `UINT8_MAX`. -/
def UINT8_MAX : Nat := 255

/-- Subtraction of two `size_t` values: it wraps modulo `2^64`. -/
def subSize (a b : Nat) : Nat := (a + SIZE_RANGE - b % SIZE_RANGE) % SIZE_RANGE

/-- The `Chunk` typedef: `std::pair<size_t, size_t>`, first and last index of a run. -/
abbrev Chunk := Nat × Nat

/-- Indexing `buf[i]` of a byte buffer of known extent. -/
def readByte (buf : List Nat) (i : Nat) : Except Fault Nat :=
  match buf[i]? with
  | some b => .ok b
  | none => .error .outOfBoundsRead

/-! ## `do_encoding`: recording the homogeneous chunks -/

/-- Local variables of the block "record all homogeneous chunks". -/
structure ScanState where
  insideHomogeneousChunk : Bool
  leftBorder : Nat
  rightBorder : Nat
  homogeneousChunks : List Chunk
  deriving DecidableEq, Repr

/-- Body of the pair-scan loop at index `i` (lines 21-55). -/
def scanStep (blob : List Nat) (blobSize i : Nat) (st : ScanState) : Except Fault ScanState := do
  let currByte ← readByte blob i
  let nextByte ← readByte blob (i + 1)
  let areBytesSame : Bool := currByte == nextByte
  let onSecondLastByte : Bool := i == subSize blobSize 2
  if st.insideHomogeneousChunk then
    if onSecondLastByte && areBytesSame then
      pure { st with
        rightBorder := i + 1
        homogeneousChunks := st.homogeneousChunks ++ [(st.leftBorder, i + 1)]
        insideHomogeneousChunk := false }
    else if !areBytesSame then
      pure { st with
        rightBorder := i
        homogeneousChunks := st.homogeneousChunks ++ [(st.leftBorder, i)]
        insideHomogeneousChunk := false }
    else
      pure st
  else
    if onSecondLastByte && areBytesSame then
      pure { leftBorder := i
             rightBorder := i + 1
             insideHomogeneousChunk := true
             homogeneousChunks := st.homogeneousChunks ++ [(i, i + 1)] }
    else if areBytesSame then
      pure { st with leftBorder := i, insideHomogeneousChunk := true }
    else
      pure st

/-- The loop `for (size_t i = 0; i < blobSize - 1; ++i)`, entered at index `i` with
`remaining` iterations still to run. -/
def scanLoop (blob : List Nat) (blobSize : Nat) : Nat → Nat → ScanState → Except Fault ScanState
  | 0, _, st => pure st
  | remaining + 1, i, st => do
      let st' ← scanStep blob blobSize i st
      scanLoop blob blobSize remaining (i + 1) st'

/-- The block "record all homogeneous chunks" (lines 14-57). The trip count of the loop
is the `size_t` value `blobSize - 1`. -/
def recordChunks (blob : List Nat) (blobSize : Nat) : Except Fault (List Chunk) := do
  let st ← scanLoop blob blobSize (subSize blobSize 1) 0
    { insideHomogeneousChunk := false, leftBorder := npos, rightBorder := npos,
      homogeneousChunks := [] }
  pure st.homogeneousChunks

/-! ## `do_encoding`: breaking up long chunks -/

/-- The loop "break up any homogenous chunks longer than UINT8_MAX" (lines 60-76),
entered at index `i`. The vector grows while the loop runs, so the model carries an
iteration budget. -/
def breakUpLoop : Nat → Nat → List Chunk → Except Fault (List Chunk)
  | 0, i, chunks => if i < chunks.length then .error .loopBudget else .ok chunks
  | budget + 1, i, chunks =>
      match chunks[i]? with
      | none => .ok chunks
      | some chunk =>
          let chunkLen := (subSize chunk.2 chunk.1 + 1) % SIZE_RANGE
          if chunkLen > UINT8_MAX then
            let newChunk : Chunk := (chunk.1, chunk.1 + UINT8_MAX - 1)
            let chunks1 := chunks.set i (chunk.1 + UINT8_MAX, chunk.2)
            breakUpLoop budget (i + 1) (chunks1.take i ++ newChunk :: chunks1.drop i)
          else
            breakUpLoop budget (i + 1) chunks

/-! ## `do_encoding`: the size bytes -/

/-- A read of one byte through a raw machine address. -/
def readAddress (mem : Nat → Option Nat) (addr : Nat) : Except Fault Nat :=
  match mem addr with
  | some b => .ok b
  | none => .error .unreadableAddress

/-- The loop of lines 85-87: `blobSizeBytes` is the *value* `blobSize` converted to a
pointer, so byte `i` written is the byte stored at address `blobSize + i`. -/
def writeSizeBytes (mem : Nat → Option Nat) (blobSize : Nat) : Nat → Nat → Except Fault (List Nat)
  | 0, _ => pure []
  | remaining + 1, i => do
      let b ← readAddress mem (blobSize + i)
      let rest ← writeSizeBytes mem blobSize remaining (i + 1)
      pure (b :: rest)

/-! ## `do_encoding`: writing the records -/

/-- The loop of lines 132-134: the literal bytes `blob[pos + i]` of a heterogeneous chunk. -/
def writeLiteral (blob : List Nat) (pos : Nat) : Nat → Nat → Except Fault (List Nat)
  | 0, _ => pure []
  | remaining + 1, i => do
      let b ← readByte blob (pos + i)
      let rest ← writeLiteral blob pos remaining (i + 1)
      pure (b :: rest)

/-- The loop `while (pos < blobSize)` of lines 97-138. The cursor `nextHomogChunk` is
an index into the run list, `none` for `nullptr`. The result is the list of bytes handed
to `writeByte`, in order. -/
def emitLoop (blob : List Nat) (blobSize : Nat) (homogeneousChunks : List Chunk) :
    Nat → Nat → Option Nat → Except Fault (List Nat)
  | 0, pos, _ => if pos < blobSize then .error .loopBudget else .ok []
  | budget + 1, pos, nextHomogChunk =>
      if pos < blobSize then do
        let nextChunk : Option Chunk ←
          match nextHomogChunk with
          | none => pure none
          | some k =>
              match homogeneousChunks[k]? with
              | some c => pure (some c)
              | none => .error .badCursor
        let distToNextHomogChunk : Nat :=
          match nextChunk with
          | none => npos
          | some c => subSize c.1 pos
        if distToNextHomogChunk == 0 then
          match nextChunk, nextHomogChunk with
          | some c, some k => do
              let count := (subSize c.2 c.1 + 1) % SIZE_RANGE
              let value ← readByte blob pos
              let noMoreHomogChunksLeft : Bool := k + 1 == homogeneousChunks.length
              let rest ← emitLoop blob blobSize homogeneousChunks budget (pos + count)
                (if noMoreHomogChunksLeft then none else some (k + 1))
              pure (count % 256 :: value :: rest)
          | _, _ => .error .badCursor
        else do
          let bytesRemaining := blobSize - pos
          let length := min (min distToNextHomogChunk bytesRemaining) UINT8_MAX
          let literal ← writeLiteral blob pos length 0
          let rest ← emitLoop blob blobSize homogeneousChunks budget (pos + length)
            nextHomogChunk
          pure (0 :: length % 256 :: (literal ++ rest))
      else
        pure []

/-- The function `do_encoding` with the byte sink of `RLE::encode`: the result is the
sequence of bytes passed to `writeByte`. Both budgeted loops run at most `blobSize`
times. -/
def do_encoding (mem : Nat → Option Nat) (blob : List Nat) (blobSize : Nat) :
    Except Fault (List Nat) := do
  let recorded ← recordChunks blob blobSize
  let homogeneousChunks ← breakUpLoop blobSize 0 recorded
  let sizeBytes ← writeSizeBytes mem blobSize SIZEOF_SIZE_T 0
  let nextHomogChunk : Option Nat := if homogeneousChunks.isEmpty then none else some 0
  let records ← emitLoop blob blobSize homogeneousChunks blobSize 0 nextHomogChunk
  pure (sizeBytes ++ records)

/-- The function `RLE::encode`. -/
def encode (mem : Nat → Option Nat) (blob : List Nat) : Except Fault (List Nat) :=
  do_encoding mem blob blob.length

/-! ## `do_decoding`, `RLE::decode`, `RLE::get_blob_size` -/

/-- The lambda `readBlobByte`: returns the byte at `pos` and the advanced `pos`. -/
def readBlobByte (encoded : List Nat) (pos : Nat) : Except Fault (Nat × Nat) := do
  let b ← readByte encoded pos
  pure (b, pos + 1)

/-- A `memcpy` of one byte to the address `byteOffset` bytes above the start of the
8-byte little-endian variable holding `val`. A store inside the variable replaces that
byte. A store at `sizeof(val)` bytes or more above its start is a write outside the
variable. -/
def storeByte (val byteOffset byte : Nat) : Except Fault Nat :=
  if byteOffset < SIZEOF_SIZE_T then
    .ok (val - (val / 256 ^ byteOffset % 256) * 256 ^ byteOffset
      + (byte % 256) * 256 ^ byteOffset)
  else .error .outOfBoundsWrite

/-- The loop `for (size_t i = 0; i <= sizeof(val); ++i)` of lines 147-150, entered at
index `i` with `remaining` iterations still to run. The destination `(&val) + i` is `i`
objects of type `size_t` above `val`, which is `sizeof(size_t) * i` bytes. -/
def readSizeLoop (encoded : List Nat) : Nat → Nat → Nat → Nat → Except Fault (Nat × Nat)
  | 0, _, pos, val => pure (val, pos)
  | remaining + 1, i, pos, val => do
      let (byte, pos') ← readBlobByte encoded pos
      let val' ← storeByte val (SIZEOF_SIZE_T * i) byte
      readSizeLoop encoded remaining (i + 1) pos' val'

/-- The lambda `blobAppendByte`: `blob[pos++] = byte` on its static `pos`. -/
def blobAppendByte (blob : List (Option Nat)) (staticPos : Nat) (byte : Nat) :
    Except Fault (List (Option Nat) × Nat) :=
  if staticPos < blob.length then .ok (blob.set staticPos (some byte), staticPos + 1)
  else .error .outOfBoundsWrite

/-- The loop of lines 167-170: `len` literal bytes are read and appended. -/
def heteroLoop (encoded : List Nat) :
    Nat → Nat → List (Option Nat) → Nat → Except Fault (Nat × List (Option Nat) × Nat)
  | 0, pos, blob, staticPos => pure (pos, blob, staticPos)
  | remaining + 1, pos, blob, staticPos => do
      let (byte, pos') ← readBlobByte encoded pos
      let (blob', staticPos') ← blobAppendByte blob staticPos byte
      heteroLoop encoded remaining pos' blob' staticPos'

/-- The loop of lines 173-175: `data` is appended `count` times. -/
def homogLoop (data : Nat) :
    Nat → List (Option Nat) → Nat → Except Fault (List (Option Nat) × Nat)
  | 0, blob, staticPos => pure (blob, staticPos)
  | remaining + 1, blob, staticPos => do
      let (blob', staticPos') ← blobAppendByte blob staticPos data
      homogLoop data remaining blob' staticPos'

/-- The loop `while (pos < blobSize)` of lines 162-177; `pos` is the read position in
the encoded stream. -/
def decodeLoop (encoded : List Nat) (blobSize : Nat) :
    Nat → Nat → List (Option Nat) → Nat → Except Fault (List (Option Nat) × Nat)
  | 0, pos, blob, staticPos =>
      if pos < blobSize then .error .loopBudget else .ok (blob, staticPos)
  | budget + 1, pos, blob, staticPos =>
      if pos < blobSize then do
        let (count, pos1) ← readBlobByte encoded pos
        if count == 0 then do
          let (len, pos2) ← readBlobByte encoded pos1
          let (pos3, blob', staticPos') ← heteroLoop encoded len pos2 blob staticPos
          decodeLoop encoded blobSize budget pos3 blob' staticPos'
        else do
          let (data, pos2) ← readBlobByte encoded pos1
          let (blob', staticPos') ← homogLoop data count blob staticPos
          decodeLoop encoded blobSize budget pos2 blob' staticPos'
      else
        pure (blob, staticPos)

/-- Lines 154-179 of `do_decoding`, entered with the size `blobSize` and the read
position `pos` that the size loop left: the buffer of `blobSize` bytes is allocated,
the record loop runs, and the buffer is returned. The result is the content of the
returned buffer and the value the static append position is left at. Every iteration
of the record loop advances `pos`, so `blobSize` iterations suffice. -/
def decodeRecords (encoded : List Nat) (blobSize pos staticPos : Nat) :
    Except Fault (List (Option Nat) × Nat) :=
  let blob : List (Option Nat) := List.replicate blobSize none
  decodeLoop encoded blobSize blobSize pos blob staticPos

/-- The function `do_decoding` with the byte source of `RLE::decode`: the size loop
(its trip count is `sizeof(val) + 1`, from the bound `i <= sizeof(val)`), then the
allocation and the record loop. -/
def do_decoding (encoded : List Nat) (staticPos : Nat) :
    Except Fault (List (Option Nat) × Nat) := do
  let (blobSize, pos) ← readSizeLoop encoded (SIZEOF_SIZE_T + 1) 0 0 0
  decodeRecords encoded blobSize pos staticPos

/-- The function `RLE::decode`; `encodedSize` is not used by the source. -/
def decode (encoded : List Nat) (staticPos : Nat) : Except Fault (List (Option Nat) × Nat) :=
  do_decoding encoded staticPos

/-- The copy `std::memcpy(&size, blob, sizeof(size_t))` into a little-endian variable. -/
def copySize (blob : List Nat) : Nat → Nat → Except Fault Nat
  | 0, _ => pure 0
  | remaining + 1, i => do
      let b ← readByte blob i
      let high ← copySize blob remaining (i + 1)
      pure (b % 256 + 256 * high)

/-- The function `RLE::get_blob_size`. -/
def get_blob_size (blob : List Nat) : Except Fault Nat :=
  copySize blob SIZEOF_SIZE_T 0

/-! ## Reference notions used to state the properties -/

/-- The pair-scan loop as a recursion over the part of the blob not yet visited: `off`
is the index of the head of the list, `inside` and `left` are the flag and the left
border of the scan state, and the result lists the chunks recorded from there on. The
second-last test `i == blobSize - 2` is "exactly two bytes are left". -/
def runsFrom : Nat → Bool → Nat → List Nat → List Chunk
  | _, _, _, [] => []
  | _, _, _, [_] => []
  | off, inside, left, x :: y :: rest =>
      if inside then
        if rest.isEmpty && x == y then
          (left, off + 1) :: runsFrom (off + 1) false left (y :: rest)
        else if !(x == y) then
          (left, off) :: runsFrom (off + 1) false left (y :: rest)
        else
          runsFrom (off + 1) true left (y :: rest)
      else
        if rest.isEmpty && x == y then
          (off, off + 1) :: runsFrom (off + 1) true off (y :: rest)
        else if x == y then
          runsFrom (off + 1) true off (y :: rest)
        else
          runsFrom (off + 1) false left (y :: rest)

/-- The pieces of a run `[first, last]` that follow `full` leading pieces of 255 bytes. -/
def tilesAux : Nat → Nat → Nat → List Chunk
  | 0, first, last => [(first, last)]
  | full + 1, first, last => (first, first + 254) :: tilesAux full (first + 255) last

/-- The pieces the splitting loop leaves in place of one run: pieces of 255 bytes in
increasing offset order, the last one holding what remains (1 to 255 bytes). -/
def tiles (c : Chunk) : List Chunk := tilesAux ((c.2 - c.1) / 255) c.1 c.2

/-- All pieces of a run list, in order. -/
def tilesAll : List Chunk → List Chunk
  | [] => []
  | c :: cs => tiles c ++ tilesAll cs

/-- A run list that is ordered and disjoint from index `lo` on, inside the blob, with
every run made of one repeated byte. -/
def ChunksOK (blob : List Nat) : Nat → List Chunk → Prop
  | _, [] => True
  | lo, c :: cs =>
      lo ≤ c.1 ∧ c.1 ≤ c.2 ∧ c.2 < blob.length ∧
        (∀ j, c.1 ≤ j → j ≤ c.2 → blob[j]? = blob[c.1]?) ∧ ChunksOK blob (c.2 + 1) cs

/-- No run of the list is longer than 255 bytes. -/
def ChunksShort (cs : List Chunk) : Prop := ∀ c ∈ cs, c.2 < c.1 + 255

/-- A record of the wire format described at the top of `RLE.hpp`. -/
inductive Record where
  /-- The record `[count][value]`: `count` repetitions of `value`. -/
  | homog (count value : Nat)
  /-- The record `[0][length][literal bytes]`. -/
  | hetero (literal : List Nat)
  deriving DecidableEq, Repr

/-- The bytes of a record on the wire. -/
def Record.wire : Record → List Nat
  | .homog count value => [count, value]
  | .hetero literal => 0 :: literal.length :: literal

/-- The blob bytes a record stands for. -/
def Record.payload : Record → List Nat
  | .homog count value => List.replicate count value
  | .hetero literal => literal

/-- The count byte of a homogeneous record and the length byte of a heterogeneous
record are in `1..255`. -/
def Record.WellFormed : Record → Prop
  | .homog count _ => 1 ≤ count ∧ count ≤ 255
  | .hetero literal => 1 ≤ literal.length ∧ literal.length ≤ 255

/-- The wire bytes of a sequence of records. -/
def wireBytes : List Record → List Nat
  | [] => []
  | r :: rs => r.wire ++ wireBytes rs

/-- The concatenation of the payloads of a sequence of records. -/
def payloads : List Record → List Nat
  | [] => []
  | r :: rs => r.payload ++ payloads rs

/-- Reading a byte sequence as records of the wire format, left to right. A first byte
`0` announces a heterogeneous record, whose length byte must be in `1..255` and must be
followed by that many bytes; a first byte in `1..255` is a count and is followed by the
value. The result is `none` when the bytes are not a sequence of whole records. The
first argument bounds the number of records. -/
def parseRecords : Nat → List Nat → Option (List Record)
  | _, [] => some []
  | 0, _ :: _ => none
  | _ + 1, [_] => none
  | budget + 1, c :: b :: rest =>
      if c = 0 then
        if 1 ≤ b ∧ b ≤ 255 ∧ b ≤ rest.length then
          (parseRecords budget (rest.drop b)).map (fun rs => Record.hetero (rest.take b) :: rs)
        else none
      else if c ≤ 255 then
        (parseRecords budget rest).map (fun rs => Record.homog c b :: rs)
      else none

/-- The expected homogeneous records of a run of `n` copies of `v`: as many records
`[255, v]` as fit, then the record of the remaining `n mod 255` copies when there are
any. -/
def runRecords (n v : Nat) : List Record :=
  List.replicate (n / 255) (Record.homog 255 v) ++
    (if n % 255 = 0 then [] else [Record.homog (n % 255) v])

/-- The expected heterogeneous records of a blob without a run: one record for each
full piece of 255 bytes, in order, then one record with the remaining
`length mod 255` bytes when there are any. -/
def literalRecords (blob : List Nat) : List Record :=
  (List.range (blob.length / 255)).map
      (fun j => Record.hetero ((blob.drop (255 * j)).take 255)) ++
    (if blob.length % 255 = 0 then []
     else [Record.hetero (blob.drop (255 * (blob.length / 255)))])

/-- No two adjacent bytes of the list are equal. -/
def noAdjacentEqual : List Nat → Bool
  | [] => true
  | [_] => true
  | x :: y :: rest => x != y && noAdjacentEqual (y :: rest)

/-- A blob of 300 bytes in which no two adjacent bytes are equal: the bytes
`0, 1, ..., 255, 0, 1, ..., 43`. -/
def countingBlob : List Nat := (List.range 300).map (fun i => i % 256)

/-- The run `x` either equals the run `y` or stops at a read outside its buffer. -/
def SameOrReadsPastEnd {α : Type} (x y : Except Fault α) : Prop :=
  x = y ∨ x = .error .outOfBoundsRead

/-- A memory that reads as `0` at every address. -/
def zeroMemory : Nat → Option Nat := fun _ => some 0

/-- The eight little-endian bytes of a `size_t` value. -/
def sizeBytesOf (n : Nat) : List Nat :=
  (List.range 8).map (fun i => n / 256 ^ i % 256)

/-- A memory in which no address below 4096, the lowest page, can be read, and every
other address reads as `0`. -/
def unmappedLowPage : Nat → Option Nat := fun a => if a < 4096 then none else some 0

/-- The record part of `do_decoding` (lines 154-179) entered twice in one process, first
for the stream `s1` with size `n1`, then for the stream `s2` with size `n2`, each time
with the read position 8 that follows the size bytes: the buffer returned the second
time. The static append position of `blobAppendByte` is 0 when the process starts and
is carried from the first run to the second. -/
def decodeRecordsAfter (s1 : List Nat) (n1 : Nat) (s2 : List Nat) (n2 : Nat) :
    Except Fault (List (Option Nat)) := do
  let (_, staticPos) ← decodeRecords s1 n1 8 0
  let (blob, _) ← decodeRecords s2 n2 8 staticPos
  pure blob

/-- The record part of `do_decoding` entered once in a fresh process for the stream `s`
with size `n` and read position 8: the returned buffer. -/
def decodeRecordsFirst (s : List Nat) (n : Nat) : Except Fault (List (Option Nat)) := do
  let (blob, _) ← decodeRecords s n 8 0
  pure blob

/-- Position `p` of the blob lies in a maximal region of equal bytes of length at least 2:
the byte at `p` equals the byte after it or the byte before it. -/
def inRepeatedRegion (blob : List Nat) (p : Nat) : Prop :=
  (p + 1 < blob.length ∧ blob[p]? = blob[p + 1]?) ∨
    (0 < p ∧ p < blob.length ∧ blob[p - 1]? = blob[p]?)

/-- One iteration of the loop `while (pos < blobSize)` of lines 97-138, entered with
`pos < blobSize`: the bytes handed to `writeByte`, the new `pos` and the new cursor. -/
def emitStep (blob : List Nat) (blobSize : Nat) (homogeneousChunks : List Chunk)
    (pos : Nat) (nextHomogChunk : Option Nat) :
    Except Fault (List Nat × Nat × Option Nat) := do
  let nextChunk : Option Chunk ←
    match nextHomogChunk with
    | none => pure none
    | some k =>
        match homogeneousChunks[k]? with
        | some c => pure (some c)
        | none => .error .badCursor
  let distToNextHomogChunk : Nat :=
    match nextChunk with
    | none => npos
    | some c => subSize c.1 pos
  if distToNextHomogChunk == 0 then
    match nextChunk, nextHomogChunk with
    | some c, some k => do
        let count := (subSize c.2 c.1 + 1) % SIZE_RANGE
        let value ← readByte blob pos
        let noMoreHomogChunksLeft : Bool := k + 1 == homogeneousChunks.length
        pure ([count % 256, value], pos + count,
          if noMoreHomogChunksLeft then none else some (k + 1))
    | _, _ => .error .badCursor
  else do
    let bytesRemaining := blobSize - pos
    let length := min (min distToNextHomogChunk bytesRemaining) UINT8_MAX
    let literal ← writeLiteral blob pos length 0
    pure (0 :: length % 256 :: literal, pos + length, nextHomogChunk)

/-- The states `(pos, nextHomogChunk)` in which the loop `while (pos < blobSize)` tests
its condition: the state before the loop, and the state after an iteration that was
entered with `pos < blobSize`. -/
inductive EmitReach (blob : List Nat) (blobSize : Nat) (homogeneousChunks : List Chunk) :
    Nat → Option Nat → Prop where
  | start : EmitReach blob blobSize homogeneousChunks 0
      (if homogeneousChunks.isEmpty then none else some 0)
  | step {pos pos' : Nat} {cur cur' : Option Nat} {bytes : List Nat} :
      EmitReach blob blobSize homogeneousChunks pos cur → pos < blobSize →
      emitStep blob blobSize homogeneousChunks pos cur = .ok (bytes, pos', cur') →
      EmitReach blob blobSize homogeneousChunks pos' cur'

/-- The loop `while (pos < blobSize)` run from a state: the number of iterations it
executes and the value of `pos` when it ends. -/
def emitIterations (blob : List Nat) (blobSize : Nat) (homogeneousChunks : List Chunk) :
    Nat → Nat → Option Nat → Except Fault (Nat × Nat)
  | 0, pos, _ => if pos < blobSize then .error .loopBudget else .ok (0, pos)
  | budget + 1, pos, nextHomogChunk =>
      if pos < blobSize then do
        let (_, pos', nextHomogChunk') ←
          emitStep blob blobSize homogeneousChunks pos nextHomogChunk
        let (iterations, final) ←
          emitIterations blob blobSize homogeneousChunks budget pos' nextHomogChunk'
        pure (iterations + 1, final)
      else
        pure (0, pos)

/-- The loop invariant of the record loop: the runs before the cursor end before `pos`,
the runs from the cursor on are ordered, homogeneous, at most 255 bytes long and start
at `pos` or later, and the cursor is null exactly when no run is left. -/
def EmitInv (blob : List Nat) (homogeneousChunks : List Chunk) (pos : Nat)
    (nextHomogChunk : Option Nat) : Prop :=
  ∃ done todo : List Chunk, homogeneousChunks = done ++ todo ∧
    nextHomogChunk = (if todo.isEmpty then none else some done.length) ∧
    (∀ c ∈ done, c.2 < pos) ∧ ChunksOK blob pos todo ∧ ChunksShort todo ∧
    pos ≤ blob.length

/-- Every run of the list has at least two bytes or starts exactly where the run before
it ended (at `start` for the first run). -/
def ChunksTight : Nat → List Chunk → Prop
  | _, [] => True
  | start, c :: cs => (c.1 < c.2 ∨ c.1 = start) ∧ ChunksTight (c.2 + 1) cs

/-! ## Basic facts -/

theorem subSize_eq (a b : Nat) (hba : b ≤ a) (ha : a < SIZE_RANGE) : subSize a b = a - b := by
  unfold subSize
  unfold SIZE_RANGE at *
  omega

theorem readByte_eq (buf : List Nat) (i : Nat) (h : i < buf.length) :
    readByte buf i = .ok buf[i] := by
  unfold readByte
  rw [List.getElem?_eq_getElem h]

theorem readByte_append_right (pre suf : List Nat) (x : Nat) (k : Nat)
    (h : suf[k]? = some x) : readByte (pre ++ suf) (pre.length + k) = .ok x := by
  unfold readByte
  rw [List.getElem?_append_right (by omega)]
  simp [h]

/-! ## The scan loop and its list form -/

theorem scanStep_eq (pre rest : List Nat) (x y : Nat) (st : ScanState)
    (hsz : (pre ++ x :: y :: rest).length < SIZE_RANGE) :
    ∃ st', scanStep (pre ++ x :: y :: rest) (pre ++ x :: y :: rest).length pre.length st
        = .ok st' ∧
      st.homogeneousChunks ++ runsFrom pre.length st.insideHomogeneousChunk st.leftBorder
          (x :: y :: rest)
        = st'.homogeneousChunks ++ runsFrom (pre.length + 1) st'.insideHomogeneousChunk
          st'.leftBorder (y :: rest) := by
  have hx : readByte (pre ++ x :: y :: rest) pre.length = .ok x := by
    have := readByte_append_right pre (x :: y :: rest) x 0 (by simp)
    simpa using this
  have hy : readByte (pre ++ x :: y :: rest) (pre.length + 1) = .ok y := by
    exact readByte_append_right pre (x :: y :: rest) y 1 (by simp)
  have hlast : (pre.length == subSize (pre ++ x :: y :: rest).length 2) = rest.isEmpty := by
    rw [subSize_eq _ _ (by simp only [List.length_append, List.length_cons]; omega) hsz]
    cases rest with
    | nil => simp
    | cons z zs => simp; omega
  unfold scanStep
  rw [hx, hy]
  simp only [bind, Except.bind, hlast]
  rw [runsFrom]
  cases hin : st.insideHomogeneousChunk <;> cases hl : rest.isEmpty <;> cases hxy : (x == y) <;>
    simp [pure, Except.pure, hin]

theorem scanLoop_eq (remaining : Nat) : ∀ (pre suf : List Nat) (st : ScanState),
    suf.length = remaining + 1 → (pre ++ suf).length < SIZE_RANGE →
    ∃ st', scanLoop (pre ++ suf) (pre ++ suf).length remaining pre.length st = .ok st' ∧
      st'.homogeneousChunks = st.homogeneousChunks ++
        runsFrom pre.length st.insideHomogeneousChunk st.leftBorder suf := by
  induction remaining with
  | zero =>
      intro pre suf st hlen _
      match suf, hlen with
      | [x], _ => exact ⟨st, rfl, by simp [runsFrom]⟩
  | succ k ih =>
      intro pre suf st hlen hsz
      match suf, hlen with
      | x :: y :: rest, hlen =>
          obtain ⟨st1, h1, h2⟩ := scanStep_eq pre rest x y st hsz
          have hsplit : pre ++ x :: y :: rest = (pre ++ [x]) ++ (y :: rest) := by simp
          have hlen' : (y :: rest).length = k + 1 := by simpa using hlen
          obtain ⟨st2, h3, h4⟩ := ih (pre ++ [x]) (y :: rest) st1 hlen' (by rw [← hsplit]; exact hsz)
          refine ⟨st2, ?_, ?_⟩
          · rw [scanLoop, h1]
            simp only [bind, Except.bind]
            rw [hsplit]
            simpa using h3
          · rw [h4, h2]
            simp

theorem recordChunks_eq (blob : List Nat) (hne : blob ≠ []) (hsz : blob.length < SIZE_RANGE) :
    recordChunks blob blob.length = .ok (runsFrom 0 false npos blob) := by
  have hpos : 0 < blob.length := List.length_pos.mpr hne
  obtain ⟨st', h1, h2⟩ := scanLoop_eq (blob.length - 1) [] blob
    { insideHomogeneousChunk := false, leftBorder := npos, rightBorder := npos,
      homogeneousChunks := [] } (by omega) (by simpa using hsz)
  unfold recordChunks
  rw [subSize_eq _ _ (by omega) hsz]
  simp only [List.nil_append, List.length_nil] at h1 h2
  rw [h1]
  simp [bind, Except.bind, pure, Except.pure, h2]

theorem recordChunks_empty : recordChunks [] 0 = .error .outOfBoundsRead := by
  decide

/-! ## The recorded runs are ordered, in bounds and homogeneous -/

theorem ChunksOK_mono (blob : List Nat) (lo lo' : Nat) (cs : List Chunk) (h : lo' ≤ lo)
    (hok : ChunksOK blob lo cs) : ChunksOK blob lo' cs := by
  cases cs with
  | nil => trivial
  | cons c cs =>
      obtain ⟨h1, h2⟩ := hok
      exact ⟨by omega, h2⟩

theorem runsFrom_ok (blob : List Nat) : ∀ (suf pre : List Nat) (inside : Bool) (left : Nat),
    pre ++ suf = blob →
    (inside = true → left ≤ pre.length ∧
      ∀ j, left ≤ j → j ≤ pre.length → blob[j]? = blob[left]?) →
    ChunksOK blob (if inside then left else pre.length) (runsFrom pre.length inside left suf) := by
  intro suf
  induction suf with
  | nil => intro pre inside left _ _; simp [runsFrom, ChunksOK]
  | cons x tail ih =>
      intro pre inside left hblob hin
      cases tail with
      | nil => simp [runsFrom, ChunksOK]
      | cons y rest =>
          have hx : blob[pre.length]? = some x := by
            rw [← hblob, List.getElem?_append_right (by omega)]; simp
          have hy : blob[pre.length + 1]? = some y := by
            rw [← hblob, List.getElem?_append_right (by omega)]; simp
          have hlen : pre.length + 1 < blob.length := by
            rw [← hblob]; simp
          have hsplit : (pre ++ [x]) ++ (y :: rest) = blob := by rw [← hblob]; simp
          have hl1 : (pre ++ [x]).length = pre.length + 1 := by simp
          rw [runsFrom]
          cases inside with
          | true =>
              obtain ⟨hle, hhom⟩ := hin rfl
              have hleft : blob[left]? = some x := by rw [← hhom pre.length hle (le_refl _), hx]
              simp only [if_true]
              by_cases hxy : x = y
              · subst hxy
                cases rest with
                | nil =>
                    simp only [List.isEmpty_nil, beq_self_eq_true, Bool.and_self, if_true, runsFrom,
                      ChunksOK, and_true]
                    refine ⟨le_refl _, by omega, hlen, ?_⟩
                    intro j hj1 hj2
                    by_cases hj : j ≤ pre.length
                    · exact hhom j hj1 hj
                    · have : j = pre.length + 1 := by omega
                      rw [this, hy, hleft]
                | cons z zs =>
                    simp only [List.isEmpty_cons, Bool.false_and, beq_self_eq_true, Bool.not_true,
                      if_false, Bool.false_eq_true]
                    have := ih (pre ++ [x]) true left hsplit (by
                      intro _
                      rw [hl1]
                      refine ⟨by omega, ?_⟩
                      intro j hj1 hj2
                      by_cases hj : j ≤ pre.length
                      · exact hhom j hj1 hj
                      · have : j = pre.length + 1 := by omega
                        rw [this, hy, hleft])
                    rw [hl1] at this
                    simpa using this
              · have hne : (x == y) = false := by simpa using hxy
                simp only [hne, Bool.and_false, Bool.not_false, if_true, if_false,
                  Bool.false_eq_true, ChunksOK]
                refine ⟨le_refl _, hle, by omega, hhom, ?_⟩
                have := ih (pre ++ [x]) false left hsplit (by simp)
                rw [hl1] at this
                simpa using this
          | false =>
              simp only [Bool.false_eq_true, if_false]
              by_cases hxy : x = y
              · subst hxy
                cases rest with
                | nil =>
                    simp only [List.isEmpty_nil, beq_self_eq_true, Bool.and_self, if_true, runsFrom,
                      ChunksOK, and_true]
                    refine ⟨le_refl _, by omega, hlen, ?_⟩
                    intro j hj1 hj2
                    by_cases hj : j = pre.length
                    · rw [hj]
                    · have : j = pre.length + 1 := by omega
                      rw [this, hy, hx]
                | cons z zs =>
                    simp only [List.isEmpty_cons, Bool.false_and, beq_self_eq_true,
                      if_false, if_true, Bool.false_eq_true]
                    have := ih (pre ++ [x]) true pre.length hsplit (by
                      intro _
                      rw [hl1]
                      refine ⟨by omega, ?_⟩
                      intro j hj1 hj2
                      by_cases hj : j = pre.length
                      · rw [hj]
                      · have : j = pre.length + 1 := by omega
                        rw [this, hy, hx])
                    rw [hl1] at this
                    simpa using this
              · have hne : (x == y) = false := by simpa using hxy
                simp only [hne, Bool.and_false, if_false, Bool.false_eq_true]
                have := ih (pre ++ [x]) false left hsplit (by simp)
                rw [hl1] at this
                exact ChunksOK_mono blob (pre.length + 1) pre.length _ (by omega) (by simpa using this)

/-! ## The recorded runs of particular blobs -/

theorem runsFrom_replicate_inside (v : Nat) : ∀ (k off left : Nat),
    runsFrom off true left (List.replicate (k + 2) v) = [(left, off + k + 1)] := by
  intro k
  induction k with
  | zero => intro off left; simp [List.replicate, runsFrom]
  | succ k ih =>
      intro off left
      have h : List.replicate (k + 1 + 2) v = v :: v :: List.replicate (k + 1) v := rfl
      have h2 : v :: List.replicate (k + 1) v = List.replicate (k + 2) v := rfl
      have h3 : (List.replicate (k + 1) v).isEmpty = false := rfl
      rw [h, runsFrom]
      simp only [h3, if_true, Bool.false_and, Bool.false_eq_true, if_false, beq_self_eq_true,
        Bool.not_true]
      rw [h2, ih, show off + 1 + k + 1 = off + (k + 1) + 1 by omega]

theorem runsFrom_replicate (v : Nat) (k off left : Nat) :
    runsFrom off false left (List.replicate (k + 2) v) = [(off, off + k + 1)] := by
  cases k with
  | zero => simp [List.replicate, runsFrom]
  | succ k =>
      have h : List.replicate (k + 1 + 2) v = v :: v :: List.replicate (k + 1) v := rfl
      have h2 : v :: List.replicate (k + 1) v = List.replicate (k + 2) v := rfl
      have h3 : (List.replicate (k + 1) v).isEmpty = false := rfl
      rw [h, runsFrom]
      simp only [h3, if_true, Bool.false_and, Bool.false_eq_true, if_false, beq_self_eq_true]
      rw [h2, runsFrom_replicate_inside, show off + 1 + k + 1 = off + (k + 1) + 1 by omega]

theorem runsFrom_run_inside (a b : Nat) (hab : a ≠ b) (rest : List Nat) :
    ∀ (k off left : Nat),
    runsFrom off true left (List.replicate (k + 1) a ++ b :: rest)
      = (left, off + k) :: runsFrom (off + k + 1) false left (b :: rest) := by
  intro k
  have hne : (a == b) = false := by simpa using hab
  induction k with
  | zero => intro off left; simp [List.replicate, runsFrom, hne]
  | succ k ih =>
      intro off left
      have h : List.replicate (k + 1 + 1) a ++ b :: rest
          = a :: a :: (List.replicate k a ++ b :: rest) := rfl
      have h2 : a :: (List.replicate k a ++ b :: rest)
          = List.replicate (k + 1) a ++ b :: rest := rfl
      have h3 : (List.replicate k a ++ b :: rest).isEmpty = false := by
        cases k <;> rfl
      rw [h, runsFrom]
      simp only [h3, if_true, Bool.false_and, Bool.false_eq_true, if_false, beq_self_eq_true,
        Bool.not_true]
      rw [h2, ih, show off + 1 + k = off + (k + 1) by omega]

theorem runsFrom_run (a b : Nat) (hab : a ≠ b) (rest : List Nat) (k off left : Nat) :
    runsFrom off false left (List.replicate (k + 2) a ++ b :: rest)
      = (off, off + k + 1) :: runsFrom (off + k + 2) false off (b :: rest) := by
  have h : List.replicate (k + 2) a ++ b :: rest
      = a :: a :: (List.replicate k a ++ b :: rest) := rfl
  have h2 : a :: (List.replicate k a ++ b :: rest)
      = List.replicate (k + 1) a ++ b :: rest := rfl
  have h3 : (List.replicate k a ++ b :: rest).isEmpty = false := by
    cases k <;> rfl
  rw [h, runsFrom]
  simp only [h3, Bool.false_and, Bool.false_eq_true, if_false, beq_self_eq_true, if_true]
  rw [h2, runsFrom_run_inside a b hab, show off + 1 + k = off + k + 1 by omega,
    show off + k + 1 + 1 = off + k + 2 by omega]

theorem runsFrom_chain : ∀ (l : List Nat) (off left : Nat),
    noAdjacentEqual l = true → runsFrom off false left l = [] := by
  intro l
  induction l with
  | nil => intro off left _; simp [runsFrom]
  | cons x tail ih =>
      intro off left hch
      cases tail with
      | nil => simp [runsFrom]
      | cons y rest =>
          simp only [noAdjacentEqual, Bool.and_eq_true, bne_iff_ne, ne_eq] at hch
          have hne : (x == y) = false := by simpa using hch.1
          rw [runsFrom]
          simp [hne, ih (off + 1) left hch.2]

/-! ## The splitting loop -/

theorem tilesAux_length : ∀ (q first last : Nat), (tilesAux q first last).length = q + 1 := by
  intro q
  induction q with
  | zero => intro first last; rfl
  | succ q ih => intro first last; simp [tilesAux, ih]

theorem tiles_short (c : Chunk) (h : c.2 < c.1 + 255) : tiles c = [c] := by
  unfold tiles
  have : (c.2 - c.1) / 255 = 0 := by omega
  rw [this]
  rfl

theorem tiles_long (first last : Nat) (h : first + 255 ≤ last) :
    tiles (first, last) = (first, first + 254) :: tiles (first + 255, last) := by
  unfold tiles
  have : (last - first) / 255 = (last - (first + 255)) / 255 + 1 := by omega
  simp only [this]
  rfl

theorem chunkLen_eq (c : Chunk) (h1 : c.1 ≤ c.2) (h2 : c.2 + 1 < SIZE_RANGE) :
    (subSize c.2 c.1 + 1) % SIZE_RANGE = c.2 - c.1 + 1 := by
  rw [subSize_eq _ _ h1 (by omega)]
  unfold SIZE_RANGE at *
  omega

theorem tilesAll_append (xs ys : List Chunk) : tilesAll (xs ++ ys) = tilesAll xs ++ tilesAll ys := by
  induction xs with
  | nil => rfl
  | cons c cs ih => simp [tilesAll, ih]

theorem breakUpLoop_eq (budget : Nat) : ∀ (done todo : List Chunk),
    (∀ c ∈ todo, c.1 ≤ c.2 ∧ c.2 + 1 < SIZE_RANGE) →
    (tilesAll todo).length ≤ budget →
    breakUpLoop budget done.length (done ++ todo) = .ok (done ++ tilesAll todo) := by
  induction budget with
  | zero =>
      intro done todo _ hb
      cases todo with
      | nil => simp [breakUpLoop, tilesAll]
      | cons c cs =>
          exfalso
          have : 0 < (tiles c).length := by unfold tiles; rw [tilesAux_length]; omega
          rw [tilesAll, List.length_append] at hb
          omega
  | succ budget ih =>
      intro done todo hv hb
      cases todo with
      | nil => simp [breakUpLoop, tilesAll]
      | cons c cs =>
          obtain ⟨f, s⟩ := c
          have hc := hv (f, s) (by simp)
          simp only at hc
          have hget : (done ++ (f, s) :: cs)[done.length]? = some (f, s) := by
            rw [List.getElem?_append_right (le_refl _)]; simp
          rw [breakUpLoop, hget]
          simp only [chunkLen_eq (f, s) hc.1 hc.2]
          by_cases hlong : s - f + 1 > UINT8_MAX
          · unfold UINT8_MAX at hlong
            rw [if_pos (by unfold UINT8_MAX; exact hlong)]
            have hset : (done ++ (f, s) :: cs).set done.length (f + UINT8_MAX, s)
                = done ++ (f + UINT8_MAX, s) :: cs := by
              rw [List.set_append_right _ _ (le_refl _)]; simp
            rw [hset, List.take_left, List.drop_left]
            have hre : done ++ (f, f + UINT8_MAX - 1) :: (f + UINT8_MAX, s) :: cs
                = (done ++ [(f, f + 254)]) ++ (f + 255, s) :: cs := by
              simp [UINT8_MAX]
            have hl : done.length + 1 = (done ++ [(f, f + 254)]).length := by simp
            rw [hre, hl, ih]
            · simp [tilesAll, tiles_long f s (by omega)]
            · intro c hcm
              rcases List.mem_cons.mp hcm with h | h
              · subst h; simp only; omega
              · exact hv c (by simp [h])
            · rw [tilesAll, tiles_long f s (by omega)] at hb
              simp [tilesAll] at hb ⊢
              omega
          · unfold UINT8_MAX at hlong
            rw [if_neg (by unfold UINT8_MAX; exact hlong)]
            have hre : done ++ (f, s) :: cs = (done ++ [(f, s)]) ++ cs := by simp
            have hl : done.length + 1 = (done ++ [(f, s)]).length := by simp
            rw [hre, hl, ih]
            · simp [tilesAll, tiles_short (f, s) (by simp only; omega)]
            · intro c hcm
              exact hv c (by simp [hcm])
            · rw [tilesAll, tiles_short (f, s) (by simp only; omega)] at hb
              simp at hb
              omega

theorem ChunksOK_mem (blob : List Nat) : ∀ (cs : List Chunk) (lo : Nat), ChunksOK blob lo cs →
    ∀ c ∈ cs, c.1 ≤ c.2 ∧ c.2 < blob.length := by
  intro cs
  induction cs with
  | nil => intro lo _ c hc; simp at hc
  | cons d ds ih =>
      intro lo hok c hc
      obtain ⟨_, h2, h3, _, h5⟩ := hok
      rcases List.mem_cons.mp hc with h | h
      · subst h; exact ⟨h2, h3⟩
      · exact ih _ h5 c h

theorem tilesAux_ok (blob : List Nat) (last : Nat) (rest : List Chunk)
    (hlast : last < blob.length) (hrest : ChunksOK blob (last + 1) rest) :
    ∀ (q first lo : Nat), lo ≤ first → first + 255 * q ≤ last → last < first + 255 * (q + 1) →
      (∀ j, first ≤ j → j ≤ last → blob[j]? = blob[first]?) →
      ChunksOK blob lo (tilesAux q first last ++ rest) := by
  intro q
  induction q with
  | zero =>
      intro first lo h1 h2 h3 hhom
      exact ⟨h1, by simpa using h2, hlast, hhom, hrest⟩
  | succ q ih =>
      intro first lo h1 h2 h3 hhom
      refine ⟨h1, by simp, by simp only; omega, ?_, ?_⟩
      · intro j hj1 hj2
        exact hhom j hj1 (by simp only at hj2; omega)
      · apply ih (first + 255) (first + 254 + 1) (by omega) (by omega) (by omega)
        intro j hj1 hj2
        rw [hhom j (by omega) hj2, hhom (first + 255) (by omega) (by omega)]

theorem tilesAux_short (last : Nat) : ∀ (q first : Nat), last < first + 255 * (q + 1) →
    ChunksShort (tilesAux q first last) := by
  intro q
  induction q with
  | zero =>
      intro first h c hc
      simp [tilesAux] at hc
      subst hc
      simp only
      omega
  | succ q ih =>
      intro first h c hc
      simp only [tilesAux, List.mem_cons] at hc
      rcases hc with hc | hc
      · subst hc; simp only; omega
      · exact ih (first + 255) (by omega) c hc

theorem tilesAll_ok (blob : List Nat) : ∀ (cs : List Chunk) (lo : Nat), lo ≤ blob.length →
    ChunksOK blob lo cs →
    ChunksOK blob lo (tilesAll cs) ∧ ChunksShort (tilesAll cs) ∧
      (tilesAll cs).length + lo ≤ blob.length := by
  intro cs
  induction cs with
  | nil =>
      intro lo hlo _
      exact ⟨trivial, by intro c hc; simp [tilesAll] at hc, by simpa [tilesAll] using hlo⟩
  | cons c cs ih =>
      intro lo _ hok
      obtain ⟨h1, h2, h3, h4, h5⟩ := hok
      obtain ⟨i1, i2, i3⟩ := ih _ (by omega) h5
      have hq1 : c.1 + 255 * ((c.2 - c.1) / 255) ≤ c.2 := by omega
      have hq2 : c.2 < c.1 + 255 * ((c.2 - c.1) / 255 + 1) := by omega
      refine ⟨?_, ?_, ?_⟩
      · exact tilesAux_ok blob c.2 (tilesAll cs) h3 i1 _ c.1 lo h1 hq1 hq2 h4
      · intro d hd
        simp only [tilesAll, List.mem_append] at hd
        rcases hd with hd | hd
        · exact tilesAux_short c.2 _ c.1 hq2 d hd
        · exact i2 d hd
      · simp only [tilesAll, List.length_append, tiles, tilesAux_length]
        omega

/-! ## The record loop of the encoder, one iteration at a time -/

theorem drop_eq_cons_of_getElem? (l : List Nat) (i v : Nat) (h : l[i]? = some v) :
    l.drop i = v :: l.drop (i + 1) := by
  obtain ⟨hlt, hv⟩ := List.getElem?_eq_some.mp h
  rw [List.drop_eq_getElem_cons hlt, hv]

theorem writeLiteral_eq (blob : List Nat) (pos : Nat) : ∀ (remaining i : Nat),
    pos + i + remaining ≤ blob.length →
    writeLiteral blob pos remaining i = .ok ((blob.drop (pos + i)).take remaining) := by
  intro remaining
  induction remaining with
  | zero => intro i _; simp [writeLiteral, pure, Except.pure]
  | succ n ih =>
      intro i h
      have hlt : pos + i < blob.length := by omega
      rw [writeLiteral, readByte_eq blob (pos + i) hlt, ih (i + 1) (by omega)]
      simp only [bind, Except.bind, pure, Except.pure]
      rw [List.drop_eq_getElem_cons hlt, List.take_succ_cons]
      rfl

theorem emitLoop_done (blob : List Nat) (chunks : List Chunk) (budget pos : Nat)
    (cur : Option Nat) (h : blob.length ≤ pos) :
    emitLoop blob blob.length chunks budget pos cur = .ok [] := by
  cases budget with
  | zero => simp [emitLoop, Nat.not_lt.mpr h]
  | succ b => simp [emitLoop, Nat.not_lt.mpr h, pure, Except.pure]

theorem emitLoop_homog (blob : List Nat) (chunks : List Chunk) (budget pos k v : Nat)
    (c : Chunk) (rest : List Nat)
    (hpos : blob[pos]? = some v) (hk : chunks[k]? = some c) (hc1 : c.1 = pos)
    (hc2 : c.1 ≤ c.2) (hsz : c.2 + 1 < SIZE_RANGE)
    (hrest : emitLoop blob blob.length chunks budget (c.2 + 1)
      (if k + 1 == chunks.length then none else some (k + 1)) = .ok rest) :
    emitLoop blob blob.length chunks (budget + 1) pos (some k)
      = .ok ((c.2 - c.1 + 1) % 256 :: v :: rest) := by
  obtain ⟨hlt, hv⟩ := List.getElem?_eq_some.mp hpos
  have hd : subSize c.1 pos = 0 := by
    rw [subSize_eq _ _ (by omega) (by omega)]; omega
  have hnext : pos + (c.2 - c.1 + 1) = c.2 + 1 := by omega
  rw [emitLoop, if_pos hlt]
  simp only [hk, bind, Except.bind, pure, Except.pure, hd, beq_self_eq_true, if_true,
    chunkLen_eq c hc2 hsz, readByte_eq blob pos hlt, hv, hnext, hrest]

theorem emitLoop_hetero_none (blob : List Nat) (chunks : List Chunk) (budget pos : Nat)
    (rest : List Nat) (hlt : pos < blob.length)
    (hrest : emitLoop blob blob.length chunks budget (pos + min (blob.length - pos) 255) none
      = .ok rest) :
    emitLoop blob blob.length chunks (budget + 1) pos none
      = .ok (0 :: min (blob.length - pos) 255 ::
          ((blob.drop pos).take (min (blob.length - pos) 255) ++ rest)) := by
  have hmin : min (min npos (blob.length - pos)) UINT8_MAX = min (blob.length - pos) 255 := by
    unfold npos UINT8_MAX SIZE_RANGE; omega
  have hmod : min (blob.length - pos) 255 % 256 = min (blob.length - pos) 255 := by omega
  have hnz : (npos == 0) = false := by decide
  have hw := writeLiteral_eq blob pos (min (blob.length - pos) 255) 0 (by omega)
  rw [Nat.add_zero] at hw
  rw [emitLoop, if_pos hlt]
  simp only [bind, Except.bind, pure, Except.pure, hnz, Bool.false_eq_true, if_false, hmin,
    hw, hrest, hmod]

theorem emitLoop_hetero_some (blob : List Nat) (chunks : List Chunk) (budget pos k : Nat)
    (c : Chunk) (rest : List Nat) (hlt : pos < blob.length) (hsz : blob.length < SIZE_RANGE)
    (hk : chunks[k]? = some c) (hc1 : pos < c.1) (hc2 : c.1 < blob.length)
    (hrest : emitLoop blob blob.length chunks budget (pos + min (c.1 - pos) 255) (some k)
      = .ok rest) :
    emitLoop blob blob.length chunks (budget + 1) pos (some k)
      = .ok (0 :: min (c.1 - pos) 255 ::
          ((blob.drop pos).take (min (c.1 - pos) 255) ++ rest)) := by
  have hd : subSize c.1 pos = c.1 - pos := subSize_eq _ _ (by omega) (by omega)
  have hmin : min (min (c.1 - pos) (blob.length - pos)) UINT8_MAX = min (c.1 - pos) 255 := by
    unfold UINT8_MAX; omega
  have hmod : min (c.1 - pos) 255 % 256 = min (c.1 - pos) 255 := by omega
  have hnz : (c.1 - pos == 0) = false := by
    simp only [beq_eq_false_iff_ne, ne_eq]; omega
  have hw := writeLiteral_eq blob pos (min (c.1 - pos) 255) 0 (by omega)
  rw [Nat.add_zero] at hw
  rw [emitLoop, if_pos hlt]
  simp only [hk, bind, Except.bind, pure, Except.pure, hd, hnz, Bool.false_eq_true, if_false,
    hmin, hw, hrest, hmod]

/-! ## Every blob: the records written cover the blob exactly -/

theorem drop_eq_replicate_append (blob : List Nat) (v : Nat) : ∀ (n first : Nat),
    (∀ j, first ≤ j → j < first + n → blob[j]? = some v) →
    blob.drop first = List.replicate n v ++ blob.drop (first + n) := by
  intro n
  induction n with
  | zero => intro first _; simp
  | succ n ih =>
      intro first h
      rw [drop_eq_cons_of_getElem? blob first v (h first (le_refl _) (by omega)),
        ih (first + 1) (fun j h1 h2 => h j (by omega) (by omega)), List.replicate_succ,
        show first + 1 + n = first + (n + 1) by omega]
      rfl

theorem emitLoop_covers (blob : List Nat) (chunks : List Chunk)
    (hsz : blob.length < SIZE_RANGE) (budget : Nat) :
    ∀ (pos : Nat) (done todo : List Chunk), chunks = done ++ todo →
      ChunksOK blob pos todo → ChunksShort todo → pos ≤ blob.length →
      blob.length - pos ≤ budget →
      ∃ recs : List Record,
        emitLoop blob blob.length chunks budget pos
            (if todo.isEmpty then none else some done.length) = .ok (wireBytes recs) ∧
          (∀ r ∈ recs, r.WellFormed) ∧ payloads recs = blob.drop pos := by
  induction budget with
  | zero =>
      intro pos done todo _ _ _ hpos hb
      refine ⟨[], emitLoop_done blob chunks 0 pos _ (by omega), by simp, ?_⟩
      rw [List.drop_eq_nil_of_le (by omega)]
      rfl
  | succ budget ih =>
      intro pos done todo hch hok hshort hpos hb
      by_cases hend : blob.length ≤ pos
      · refine ⟨[], emitLoop_done blob chunks _ pos _ hend, by simp, ?_⟩
        rw [List.drop_eq_nil_of_le hend]
        rfl
      · have hlt : pos < blob.length := by omega
        cases todo with
        | nil =>
            obtain ⟨recs, h1, h2, h3⟩ := ih (pos + min (blob.length - pos) 255) done [] hch
              trivial hshort (by omega) (by omega)
            simp only [List.isEmpty_nil, if_true] at h1 ⊢
            refine ⟨Record.hetero ((blob.drop pos).take (min (blob.length - pos) 255)) :: recs,
              ?_, ?_, ?_⟩
            · rw [emitLoop_hetero_none blob chunks budget pos _ hlt h1]
              simp [wireBytes, Record.wire]
            · intro r hr
              rcases List.mem_cons.mp hr with h | h
              · subst h
                simp only [Record.WellFormed, List.length_take, List.length_drop]
                omega
              · exact h2 r h
            · simp only [payloads, Record.payload, h3]
              rw [← List.drop_drop, List.take_append_drop]
        | cons c cs =>
            obtain ⟨hc1, hc2, hc3, hc4, hc5⟩ := hok
            have hk : chunks[done.length]? = some c := by
              rw [hch, List.getElem?_append_right (le_refl _)]; simp
            have hcs : c.2 < c.1 + 255 := hshort c (by simp)
            simp only [List.isEmpty_cons, Bool.false_eq_true, if_false]
            by_cases hat : c.1 = pos
            · have hcur : (if done.length + 1 == chunks.length then none
                  else some (done.length + 1))
                  = (if cs.isEmpty then none else some (done ++ [c]).length) := by
                rw [hch]
                cases cs <;> simp
              obtain ⟨recs, h1, h2, h3⟩ := ih (c.2 + 1) (done ++ [c]) cs (by simp [hch]) hc5
                (fun d hd => hshort d (by simp [hd])) (by omega) (by omega)
              obtain ⟨v, hv⟩ : ∃ v, blob[pos]? = some v :=
                ⟨blob[pos], List.getElem?_eq_getElem hlt⟩
              rw [← hcur] at h1
              refine ⟨Record.homog (c.2 - c.1 + 1) v :: recs, ?_, ?_, ?_⟩
              · rw [emitLoop_homog blob chunks budget pos done.length v c _ hv hk hat hc2
                  (by omega) h1]
                simp only [wireBytes, Record.wire, List.cons_append, List.nil_append]
                rw [Nat.mod_eq_of_lt (by omega)]
              · intro r hr
                rcases List.mem_cons.mp hr with h | h
                · subst h
                  simp only [Record.WellFormed]
                  omega
                · exact h2 r h
              · simp only [payloads, Record.payload, h3]
                rw [← hat, drop_eq_replicate_append blob v (c.2 - c.1 + 1) c.1 (by
                  intro j hj1 hj2
                  rw [hc4 j hj1 (by omega), hat, hv]),
                  show c.1 + (c.2 - c.1 + 1) = c.2 + 1 by omega]
            · have hbefore : pos < c.1 := by omega
              obtain ⟨recs, h1, h2, h3⟩ := ih (pos + min (c.1 - pos) 255) done (c :: cs) hch
                ⟨by omega, hc2, hc3, hc4, hc5⟩ hshort (by omega) (by omega)
              simp only [List.isEmpty_cons, Bool.false_eq_true, if_false] at h1
              refine ⟨Record.hetero ((blob.drop pos).take (min (c.1 - pos) 255)) :: recs,
                ?_, ?_, ?_⟩
              · rw [emitLoop_hetero_some blob chunks budget pos done.length c _ hlt hsz hk
                  hbefore (by omega) h1]
                simp [wireBytes, Record.wire]
                omega
              · intro r hr
                rcases List.mem_cons.mp hr with h | h
                · subst h
                  simp only [Record.WellFormed, List.length_take, List.length_drop]
                  omega
                · exact h2 r h
              · simp only [payloads, Record.payload, h3]
                rw [← List.drop_drop, List.take_append_drop]

/-! ## The whole encoder -/

theorem writeSizeBytes_length (mem : Nat → Option Nat) (blobSize : Nat) :
    ∀ (remaining i : Nat) (out : List Nat),
      writeSizeBytes mem blobSize remaining i = .ok out → out.length = remaining := by
  intro remaining
  induction remaining with
  | zero =>
      intro i out h
      simp only [writeSizeBytes, pure, Except.pure, Except.ok.injEq] at h
      rw [← h]; rfl
  | succ n ih =>
      intro i out h
      rw [writeSizeBytes] at h
      cases h1 : readAddress mem (blobSize + i) with
      | error e => rw [h1] at h; simp [bind, Except.bind] at h
      | ok b =>
          cases h2 : writeSizeBytes mem blobSize n (i + 1) with
          | error e => rw [h1, h2] at h; simp [bind, Except.bind] at h
          | ok rest =>
              rw [h1, h2] at h
              simp only [bind, Except.bind, pure, Except.pure, Except.ok.injEq] at h
              rw [← h, List.length_cons, ih (i + 1) rest h2]

/-- For a non-empty blob the encoder runs the record loop on the pieces of the recorded
runs, after the eight size bytes. -/
theorem encode_eq (mem : Nat → Option Nat) (blob : List Nat) (hne : blob ≠ [])
    (hsz : blob.length < SIZE_RANGE) :
    encode mem blob =
      (do
        let sizeBytes ← writeSizeBytes mem blob.length SIZEOF_SIZE_T 0
        let records ← emitLoop blob blob.length (tilesAll (runsFrom 0 false npos blob))
          blob.length 0
          (if (tilesAll (runsFrom 0 false npos blob)).isEmpty then none else some 0)
        pure (sizeBytes ++ records)) := by
  have hok : ChunksOK blob 0 (runsFrom 0 false npos blob) := by
    have := runsFrom_ok blob blob [] false npos (by simp) (by simp)
    simpa using this
  have hsplit := breakUpLoop_eq blob.length [] (runsFrom 0 false npos blob)
    (fun c hc => by
      have := ChunksOK_mem blob _ 0 hok c hc
      exact ⟨this.1, by omega⟩)
    (by have := (tilesAll_ok blob _ 0 (by omega) hok).2.2; omega)
  simp only [List.length_nil, List.nil_append] at hsplit
  unfold encode do_encoding
  rw [recordChunks_eq blob hne hsz]
  simp only [bind, Except.bind, hsplit]

/-- For a non-empty blob the output is the size bytes followed by well-formed records
whose payloads, concatenated, are the blob. -/
theorem encode_covers (mem : Nat → Option Nat) (blob : List Nat) (hne : blob ≠ [])
    (hsz : blob.length < SIZE_RANGE) :
    ∃ recs : List Record, (∀ r ∈ recs, r.WellFormed) ∧ payloads recs = blob ∧
      encode mem blob = (writeSizeBytes mem blob.length SIZEOF_SIZE_T 0).map
        (fun sizeBytes => sizeBytes ++ wireBytes recs) := by
  have hok : ChunksOK blob 0 (runsFrom 0 false npos blob) := by
    have := runsFrom_ok blob blob [] false npos (by simp) (by simp)
    simpa using this
  obtain ⟨t1, t2, _⟩ := tilesAll_ok blob _ 0 (by omega) hok
  obtain ⟨recs, h1, h2, h3⟩ := emitLoop_covers blob (tilesAll (runsFrom 0 false npos blob)) hsz
    blob.length 0 [] _ (by simp) t1 t2 (by omega) (by omega)
  refine ⟨recs, h2, by simpa using h3, ?_⟩
  rw [encode_eq mem blob hne hsz]
  simp only [List.length_nil] at h1
  rw [h1]
  cases writeSizeBytes mem blob.length SIZEOF_SIZE_T 0 <;>
    simp [bind, Except.bind, Except.map, pure, Except.pure]

theorem encode_empty (mem : Nat → Option Nat) : encode mem [] = .error .outOfBoundsRead := by
  unfold encode do_encoding
  simp only [List.length_nil, recordChunks_empty, bind, Except.bind]

/-! ## Reading the output back as records -/

theorem parseRecords_wireBytes : ∀ (recs : List Record) (budget : Nat),
    (∀ r ∈ recs, r.WellFormed) → recs.length ≤ budget →
    parseRecords budget (wireBytes recs) = some recs := by
  intro recs
  induction recs with
  | nil => intro budget _ _; cases budget <;> simp [wireBytes, parseRecords]
  | cons r rs ih =>
      intro budget hwf hb
      cases budget with
      | zero => simp at hb
      | succ budget =>
          have hrs := ih budget (fun r hr => hwf r (by simp [hr])) (by simpa using hb)
          have hr := hwf r (by simp)
          cases r with
          | homog count value =>
              simp only [Record.WellFormed] at hr
              simp only [wireBytes, Record.wire, List.cons_append, List.nil_append]
              rw [parseRecords, if_neg (by omega), if_pos (by omega), hrs]
              rfl
          | hetero literal =>
              simp only [Record.WellFormed] at hr
              simp only [wireBytes, Record.wire, List.cons_append]
              rw [parseRecords, if_pos rfl, if_pos ⟨hr.1, hr.2, by simp⟩]
              simp [hrs]

theorem wireBytes_length_ge : ∀ (recs : List Record), recs.length ≤ (wireBytes recs).length := by
  intro recs
  induction recs with
  | nil => simp
  | cons r rs ih =>
      cases r <;> simp [wireBytes, Record.wire] <;> omega

/-! ## Runs of one byte -/

theorem emitLoop_tiles (v n : Nat) (hsz : n < SIZE_RANGE) : ∀ (q first budget : Nat)
    (done : List Chunk),
    first + 255 * q ≤ n - 1 → n - 1 < first + 255 * (q + 1) → 1 ≤ n → q + 1 ≤ budget →
    emitLoop (List.replicate n v) (List.replicate n v).length
        (done ++ tilesAux q first (n - 1)) budget first (some done.length)
      = .ok (wireBytes (List.replicate q (Record.homog 255 v) ++
          [Record.homog (n - first - 255 * q) v])) := by
  intro q
  induction q with
  | zero =>
      intro first budget done h1 h2 h3 hb
      obtain ⟨b, rfl⟩ : ∃ b, budget = b + 1 := ⟨budget - 1, by omega⟩
      have hk : (done ++ tilesAux 0 first (n - 1))[done.length]? = some (first, n - 1) := by
        rw [List.getElem?_append_right (le_refl _)]; simp [tilesAux]
      rw [emitLoop_homog (List.replicate n v) _ b first done.length v (first, n - 1) []
        (by rw [List.getElem?_replicate]; simp; omega) hk rfl (by simpa using h1)
        (by simp only; omega)
        (by
          simp only [tilesAux, List.length_append, List.length_cons, List.length_nil,
            beq_self_eq_true, if_true]
          exact emitLoop_done _ _ _ _ _ (by simp; omega))]
      simp only [List.replicate, List.nil_append, wireBytes, Record.wire, List.append_nil]
      rw [Nat.mod_eq_of_lt (by omega)]
      congr 2
      omega
  | succ q ih =>
      intro first budget done h1 h2 h3 hb
      obtain ⟨b, rfl⟩ : ∃ b, budget = b + 1 := ⟨budget - 1, by omega⟩
      have hk : (done ++ tilesAux (q + 1) first (n - 1))[done.length]?
          = some (first, first + 254) := by
        rw [List.getElem?_append_right (le_refl _)]; simp [tilesAux]
      have hre : done ++ tilesAux (q + 1) first (n - 1)
          = (done ++ [(first, first + 254)]) ++ tilesAux q (first + 255) (n - 1) := by
        simp [tilesAux]
      have hnext := ih (first + 255) b (done ++ [(first, first + 254)]) (by omega) (by omega)
        h3 (by omega)
      rw [← hre] at hnext
      rw [emitLoop_homog (List.replicate n v) _ b first done.length v (first, first + 254) _
        (by rw [List.getElem?_replicate]; simp; omega) hk rfl (by simp)
        (by simp only; omega)
        (by
          have hlen : (done ++ tilesAux (q + 1) first (n - 1)).length ≠ done.length + 1 := by
            simp [tilesAux, tilesAux_length]
          rw [show first + 254 + 1 = first + 255 by omega]
          simp only [beq_iff_eq, List.length_append, List.length_singleton] at hnext ⊢
          rw [if_neg (by
            intro h
            apply hlen
            rw [List.length_append]
            exact h.symm)]
          exact hnext)]
      simp only [List.replicate_succ, List.cons_append, wireBytes, Record.wire,
        List.nil_append]
      rw [show n - (first + 255) - 255 * q = n - first - 255 * (q + 1) by omega,
        show (first + 254 - first + 1) % 256 = 255 by omega]
      rfl

theorem runRecords_eq (n v : Nat) (hn : 1 ≤ n) :
    List.replicate ((n - 1) / 255) (Record.homog 255 v) ++
        [Record.homog (n - 0 - 255 * ((n - 1) / 255)) v]
      = runRecords n v := by
  unfold runRecords
  by_cases h : n % 255 = 0
  · rw [if_pos h, List.append_nil]
    have h1 : n / 255 = (n - 1) / 255 + 1 := by omega
    have h2 : n - 0 - 255 * ((n - 1) / 255) = 255 := by omega
    rw [h1, h2, List.replicate_succ']
  · rw [if_neg h]
    have h1 : (n - 1) / 255 = n / 255 := by omega
    have h2 : n - 0 - 255 * (n / 255) = n % 255 := by omega
    rw [h1, h2]

theorem payloads_append (xs ys : List Record) : payloads (xs ++ ys) = payloads xs ++ payloads ys := by
  induction xs with
  | nil => rfl
  | cons r rs ih => simp [payloads, ih]

theorem payloads_replicate_homog (v c : Nat) : ∀ q : Nat,
    payloads (List.replicate q (Record.homog c v)) = List.replicate (c * q) v := by
  intro q
  induction q with
  | zero => rfl
  | succ q ih =>
      rw [List.replicate_succ, payloads, ih, Record.payload, Nat.mul_succ, Nat.add_comm,
        List.replicate_add]

theorem encode_replicate (mem : Nat → Option Nat) (v n : Nat) (hn : 2 ≤ n)
    (hsz : n < SIZE_RANGE) :
    encode mem (List.replicate n v) = (writeSizeBytes mem n SIZEOF_SIZE_T 0).map
      (fun sizeBytes => sizeBytes ++ wireBytes (runRecords n v)) := by
  have hne : List.replicate n v ≠ [] := by
    intro h
    have := congrArg List.length h
    simp at this
    omega
  have hruns : runsFrom 0 false npos (List.replicate n v) = [(0, n - 1)] := by
    obtain ⟨k, rfl⟩ : ∃ k, n = k + 2 := ⟨n - 2, by omega⟩
    rw [runsFrom_replicate]
    simp
  have hemit := emitLoop_tiles v n hsz ((n - 1) / 255) 0 n [] (by omega) (by omega) (by omega)
    (by omega)
  rw [runRecords_eq n v (by omega)] at hemit
  simp only [List.nil_append, List.length_nil, List.length_replicate] at hemit
  rw [encode_eq mem _ hne (by simpa using hsz), hruns]
  simp only [List.length_replicate, tilesAll, tiles, List.append_nil, Nat.sub_zero]
  have hempty : (tilesAux ((n - 1) / 255) 0 (n - 1)).isEmpty = false := by
    cases h : (n - 1) / 255 <;> rfl
  rw [hempty]
  simp only [Bool.false_eq_true, if_false, hemit]
  cases writeSizeBytes mem n SIZEOF_SIZE_T 0 <;>
    simp [bind, Except.bind, Except.map, pure, Except.pure]

/-! ## Two runs side by side, and a run followed by one byte -/

theorem map_sizeBytes_eq (x : Except Fault (List Nat)) (records : List Nat) :
    (do
      let sizeBytes ← x
      let recs ← (Except.ok records : Except Fault (List Nat))
      pure (sizeBytes ++ recs)) = x.map (fun sizeBytes => sizeBytes ++ records) := by
  cases x <;> simp [bind, Except.bind, Except.map, pure, Except.pure]

theorem encode_two_runs (mem : Nat → Option Nat) (a b m n : Nat) (hab : a ≠ b)
    (hm : 2 ≤ m) (hm' : m ≤ 255) (hn : 2 ≤ n) (hn' : n ≤ 255) :
    encode mem (List.replicate m a ++ List.replicate n b)
      = (writeSizeBytes mem (m + n) SIZEOF_SIZE_T 0).map
          (fun sizeBytes => sizeBytes ++ [m, a, n, b]) := by
  obtain ⟨k, rfl⟩ : ∃ k, m = k + 2 := ⟨m - 2, by omega⟩
  obtain ⟨j, rfl⟩ : ∃ j, n = j + 2 := ⟨n - 2, by omega⟩
  have hlen : (List.replicate (k + 2) a ++ List.replicate (j + 2) b).length = k + 2 + (j + 2) := by
    simp
  have hne : List.replicate (k + 2) a ++ List.replicate (j + 2) b ≠ [] := by
    intro h
    have := congrArg List.length h
    rw [hlen] at this
    simp at this
  have hruns : runsFrom 0 false npos (List.replicate (k + 2) a ++ List.replicate (j + 2) b)
      = [(0, k + 1), (k + 2, k + 2 + j + 1)] := by
    have h1 : List.replicate (j + 2) b = b :: List.replicate (j + 1) b := rfl
    rw [h1, runsFrom_run a b hab, ← h1, runsFrom_replicate]
    simp
  have htiles : tilesAll [(0, k + 1), (k + 2, k + 2 + j + 1)]
      = [(0, k + 1), (k + 2, k + 2 + j + 1)] := by
    simp only [tilesAll]
    rw [tiles_short _ (by simp only; omega), tiles_short _ (by simp only; omega)]
    rfl
  have ha : (List.replicate (k + 2) a ++ List.replicate (j + 2) b)[0]? = some a := by
    simp [List.replicate]
  have hb : (List.replicate (k + 2) a ++ List.replicate (j + 2) b)[k + 2]? = some b := by
    rw [List.getElem?_append_right (by simp)]
    simp [List.replicate]
  have hemit : emitLoop (List.replicate (k + 2) a ++ List.replicate (j + 2) b)
      (List.replicate (k + 2) a ++ List.replicate (j + 2) b).length
      [(0, k + 1), (k + 2, k + 2 + j + 1)] (k + 2 + (j + 2)) 0 (some 0)
      = .ok [k + 2, a, j + 2, b] := by
    rw [show k + 2 + (j + 2) = (k + j + 2) + 1 + 1 by omega,
      emitLoop_homog _ _ (k + j + 2 + 1) 0 0 a (0, k + 1) [j + 2, b] ha rfl rfl (by simp)
        (by simp only; unfold SIZE_RANGE; omega)
        (by
          simp only [List.length_cons, List.length_nil]
          rw [if_neg (by decide),
            emitLoop_homog _ _ (k + j + 2) (k + 1 + 1) 1 b (k + 2, k + 2 + j + 1) [] hb rfl rfl
              (by simp only; omega) (by simp only; unfold SIZE_RANGE; omega)
              (emitLoop_done _ _ _ _ _ (by rw [hlen]; simp only; omega))]
          simp only [Except.ok.injEq, List.cons.injEq, and_true]
          omega)]
    simp only [Except.ok.injEq, List.cons.injEq, and_true, true_and]
    omega
  rw [encode_eq mem _ hne (by rw [hlen]; unfold SIZE_RANGE; omega), hruns, htiles]
  simp only [List.isEmpty_cons, Bool.false_eq_true, if_false]
  rw [hlen] at hemit ⊢
  rw [hemit]
  exact map_sizeBytes_eq _ _

theorem encode_run_then_byte (mem : Nat → Option Nat) (v w m : Nat) (hvw : v ≠ w)
    (hm : 2 ≤ m) (hm' : m ≤ 255) :
    encode mem (List.replicate m v ++ [w])
      = (writeSizeBytes mem (m + 1) SIZEOF_SIZE_T 0).map
          (fun sizeBytes => sizeBytes ++ [m, v, 0, 1, w]) := by
  obtain ⟨k, rfl⟩ : ∃ k, m = k + 2 := ⟨m - 2, by omega⟩
  have hlen : (List.replicate (k + 2) v ++ [w]).length = k + 2 + 1 := by simp
  have hne : List.replicate (k + 2) v ++ [w] ≠ [] := by simp
  have hruns : runsFrom 0 false npos (List.replicate (k + 2) v ++ [w]) = [(0, k + 1)] := by
    rw [runsFrom_run v w hvw]
    simp [runsFrom]
  have htiles : tilesAll [(0, k + 1)] = [(0, k + 1)] := by
    simp only [tilesAll]
    rw [tiles_short _ (by simp only; omega)]
    rfl
  have hv : (List.replicate (k + 2) v ++ [w])[0]? = some v := by
    simp [List.replicate]
  have hdrop : (List.replicate (k + 2) v ++ [w]).drop (k + 2) = [w] := by
    rw [List.drop_append_of_le_length (by simp)]
    simp
  have hemit : emitLoop (List.replicate (k + 2) v ++ [w]) (List.replicate (k + 2) v ++ [w]).length
      [(0, k + 1)] (k + 2 + 1) 0 (some 0) = .ok [k + 2, v, 0, 1, w] := by
    have hlast := emitLoop_hetero_none (List.replicate (k + 2) v ++ [w]) [(0, k + 1)] (k + 1) (k + 2) []
      (by rw [hlen]; omega) (emitLoop_done _ _ _ _ _ (by rw [hlen]; omega))
    rw [hlen, show min (k + 2 + 1 - (k + 2)) 255 = 1 by omega, hdrop] at hlast
    rw [show k + 2 + 1 = (k + 1) + 1 + 1 by omega,
      emitLoop_homog _ _ (k + 1 + 1) 0 0 v (0, k + 1) [0, 1, w] hv rfl rfl (by simp)
        (by simp only; unfold SIZE_RANGE; omega)
        (by
          simp only [List.length_cons, List.length_nil]
          rw [if_pos (by decide)]
          rw [hlen]
          simpa using hlast)]
    simp only [Except.ok.injEq, List.cons.injEq, and_true, true_and]
    omega
  rw [encode_eq mem _ hne (by rw [hlen]; unfold SIZE_RANGE; omega), hruns, htiles]
  simp only [List.isEmpty_cons, Bool.false_eq_true, if_false]
  rw [hlen] at hemit ⊢
  rw [hemit]
  exact map_sizeBytes_eq _ _

/-! ## Blobs without a run -/

theorem emitLoop_literal (blob : List Nat) : ∀ (d j budget : Nat),
    j + d = blob.length / 255 → d + 1 ≤ budget →
    emitLoop blob blob.length [] budget (255 * j) none
      = .ok (wireBytes ((List.range' j d).map
            (fun i => Record.hetero ((blob.drop (255 * i)).take 255)) ++
          (if blob.length % 255 = 0 then []
           else [Record.hetero (blob.drop (255 * (blob.length / 255)))]))) := by
  intro d
  induction d with
  | zero =>
      intro j budget hj hb
      rw [Nat.add_zero] at hj
      subst hj
      by_cases h0 : blob.length % 255 = 0
      · rw [if_pos h0]
        exact emitLoop_done _ _ _ _ _ (by omega)
      · rw [if_neg h0]
        obtain ⟨b, rfl⟩ : ∃ b, budget = b + 1 := ⟨budget - 1, by omega⟩
        have hmin : min (blob.length - 255 * (blob.length / 255)) 255
            = blob.length - 255 * (blob.length / 255) := by omega
        rw [emitLoop_hetero_none blob [] b _ [] (by omega)
          (emitLoop_done _ _ _ _ _ (by omega)), hmin,
          List.take_of_length_le (by simp)]
        simp [wireBytes, Record.wire]
  | succ d ih =>
      intro j budget hj hb
      obtain ⟨b, rfl⟩ : ∃ b, budget = b + 1 := ⟨budget - 1, by omega⟩
      have hmin : min (blob.length - 255 * j) 255 = 255 := by omega
      have hnext := ih (j + 1) b (by omega) (by omega)
      rw [show 255 * (j + 1) = 255 * j + 255 by omega] at hnext
      rw [emitLoop_hetero_none blob [] b _ _ (by omega) (by rw [hmin]; exact hnext), hmin]
      simp only [List.range'_succ, List.map_cons, List.cons_append, wireBytes, Record.wire,
        List.length_take, List.length_drop, List.append_assoc]
      rw [show min 255 (blob.length - 255 * j) = 255 by omega]
      rfl

theorem encode_literal (mem : Nat → Option Nat) (blob : List Nat)
    (hch : noAdjacentEqual blob = true) (hne : 1 ≤ blob.length)
    (hsz : blob.length < SIZE_RANGE) :
    encode mem blob = (writeSizeBytes mem blob.length SIZEOF_SIZE_T 0).map
      (fun sizeBytes => sizeBytes ++ wireBytes (literalRecords blob)) := by
  have hne' : blob ≠ [] := by
    intro h; rw [h] at hne; simp at hne
  have hemit := emitLoop_literal blob (blob.length / 255) 0 blob.length (by omega) (by omega)
  rw [← List.range_eq_range'] at hemit
  rw [encode_eq mem blob hne' hsz, runsFrom_chain blob 0 npos hch]
  simp only [tilesAll, List.isEmpty_nil, if_true]
  rw [Nat.mul_zero] at hemit
  rw [hemit]
  exact map_sizeBytes_eq _ _

/-! ## The size bytes -/

theorem writeSizeBytes_getElem (mem : Nat → Option Nat) (blobSize : Nat) :
    ∀ (remaining i : Nat) (out : List Nat),
      writeSizeBytes mem blobSize remaining i = .ok out →
      ∀ k, k < remaining → mem (blobSize + i + k) = out[k]? := by
  intro remaining
  induction remaining with
  | zero => intro i out _ k hk; omega
  | succ n ih =>
      intro i out h k hk
      rw [writeSizeBytes] at h
      cases h1 : mem (blobSize + i) with
      | none => simp [readAddress, h1, bind, Except.bind] at h
      | some b =>
          cases h2 : writeSizeBytes mem blobSize n (i + 1) with
          | error e => simp [readAddress, h1, h2, bind, Except.bind] at h
          | ok rest =>
              simp only [readAddress, h1, h2, bind, Except.bind, pure, Except.pure,
                Except.ok.injEq] at h
              subst h
              cases k with
              | zero => simpa using h1
              | succ k =>
                  have := ih (i + 1) rest h2 k (by omega)
                  rw [show blobSize + i + (k + 1) = blobSize + (i + 1) + k by omega, this]
                  simp

theorem writeSizeBytes_zeroMemory (n : Nat) :
    writeSizeBytes zeroMemory n SIZEOF_SIZE_T 0 = .ok [0, 0, 0, 0, 0, 0, 0, 0] := rfl

theorem get_blob_size_low (b0 b1 : Nat) (rest : List Nat) (n : Nat)
    (h : get_blob_size (b0 :: b1 :: rest) = .ok n) :
    b0 % 256 = n % 256 ∧ b1 % 256 = n / 256 % 256 := by
  unfold get_blob_size SIZEOF_SIZE_T at h
  rw [copySize, copySize] at h
  simp only [readByte, List.getElem?_cons_zero, List.getElem?_cons_succ, bind, Except.bind,
    pure, Except.pure, Nat.zero_add] at h
  cases h2 : copySize (b0 :: b1 :: rest) 6 (1 + 1) with
  | error e => rw [h2] at h; simp at h
  | ok high =>
      rw [h2] at h
      simp only [Except.ok.injEq] at h
      omega

theorem map_ok_inv (x : Except Fault (List Nat)) (f : List Nat → List Nat) (out : List Nat)
    (h : x.map f = .ok out) : ∃ sizeBytes, x = .ok sizeBytes ∧ out = f sizeBytes := by
  cases x with
  | error e => simp [Except.map] at h
  | ok a => exact ⟨a, rfl, by simpa [Except.map] using h.symm⟩

theorem sizeBytes_head (mem : Nat → Option Nat) (n : Nat) (sizeBytes : List Nat)
    (h : writeSizeBytes mem n SIZEOF_SIZE_T 0 = .ok sizeBytes) :
    ∃ b0 b1 tl, sizeBytes = b0 :: b1 :: tl ∧ mem n = some b0 ∧ mem (n + 1) = some b1 := by
  have hlen := writeSizeBytes_length mem n _ _ _ h
  have h0 := writeSizeBytes_getElem mem n _ _ _ h 0 (by decide)
  have h1 := writeSizeBytes_getElem mem n _ _ _ h 1 (by decide)
  match sizeBytes, hlen with
  | b0 :: b1 :: tl, _ => exact ⟨b0, b1, tl, rfl, by simpa using h0, by simpa using h1⟩

theorem drop_sizeBytes (mem : Nat → Option Nat) (n : Nat) (records out : List Nat)
    (h : (writeSizeBytes mem n SIZEOF_SIZE_T 0).map (fun sizeBytes => sizeBytes ++ records)
      = .ok out) :
    out.take 8 ++ records = out ∧ out.drop 8 = records := by
  obtain ⟨s, hs, rfl⟩ := map_ok_inv _ _ _ h
  have hlen : s.length = 8 := writeSizeBytes_length mem _ _ _ _ hs
  constructor
  · rw [List.take_append_of_le_length (by rw [hlen]), List.take_of_length_le (by rw [hlen])]
  · rw [List.drop_append_of_le_length (by rw [hlen]), List.drop_of_length_le (by rw [hlen])]
    rfl

/-! ## The size write: readable and unreadable addresses -/

theorem writeSizeBytes_unreadable (mem : Nat → Option Nat) (blobSize : Nat) :
    ∀ (remaining i : Nat), (∃ k, k < remaining ∧ mem (blobSize + i + k) = none) →
      writeSizeBytes mem blobSize remaining i = .error .unreadableAddress := by
  intro remaining
  induction remaining with
  | zero => rintro i ⟨k, hk, _⟩; omega
  | succ n ih =>
      rintro i ⟨k, hk, hmem⟩
      rw [writeSizeBytes]
      cases h1 : mem (blobSize + i) with
      | none => simp [readAddress, h1, bind, Except.bind]
      | some b =>
          cases k with
          | zero => rw [Nat.add_zero, h1] at hmem; exact Option.noConfusion hmem
          | succ k =>
              have := ih (i + 1) ⟨k, by omega, by
                rw [show blobSize + (i + 1) + k = blobSize + i + (k + 1) by omega]; exact hmem⟩
              simp [readAddress, h1, this, bind, Except.bind]

theorem writeSizeBytes_readable (mem : Nat → Option Nat) (blobSize : Nat) :
    ∀ (remaining i : Nat), (∀ k, k < remaining → mem (blobSize + i + k) ≠ none) →
      ∃ out, writeSizeBytes mem blobSize remaining i = .ok out := by
  intro remaining
  induction remaining with
  | zero => intro i _; exact ⟨[], rfl⟩
  | succ n ih =>
      intro i hmem
      rw [writeSizeBytes]
      cases h1 : mem (blobSize + i) with
      | none => exact absurd h1 (by simpa using hmem 0 (by omega))
      | some b =>
          obtain ⟨rest, hrest⟩ := ih (i + 1) (fun k hk => by
            rw [show blobSize + (i + 1) + k = blobSize + i + (k + 1) by omega]
            exact hmem (k + 1) (by omega))
          exact ⟨b :: rest, by simp [readAddress, h1, hrest, bind, Except.bind, pure, Except.pure]⟩

/-- The output of a run of the encoder that reaches the size write with the records
`records` still to come: when one of the eight addresses `n, .., n + 7` cannot be read
the run stops there and returns nothing; when all of them can, the output is the eight
bytes stored there followed by the records. -/
theorem sizeBytes_cases (mem : Nat → Option Nat) (n : Nat) (records : List Nat)
    (x : Except Fault (List Nat))
    (hx : x = (writeSizeBytes mem n SIZEOF_SIZE_T 0).map
      (fun sizeBytes => sizeBytes ++ records)) :
    ((∃ k, k < 8 ∧ mem (n + k) = none) → x = .error .unreadableAddress) ∧
      ((∀ k, k < 8 → mem (n + k) ≠ none) →
        ∃ sizeBytes : List Nat, sizeBytes.length = 8 ∧
          (∀ k, k < 8 → sizeBytes[k]? = mem (n + k)) ∧ x = .ok (sizeBytes ++ records)) := by
  subst hx
  constructor
  · rintro ⟨k, hk, hmem⟩
    rw [writeSizeBytes_unreadable mem n SIZEOF_SIZE_T 0 ⟨k, hk, by simpa using hmem⟩]
    rfl
  · intro hmem
    obtain ⟨s, hs⟩ := writeSizeBytes_readable mem n SIZEOF_SIZE_T 0
      (fun k hk => by simpa using hmem k hk)
    refine ⟨s, writeSizeBytes_length mem n _ _ _ hs, ?_, by rw [hs]; rfl⟩
    intro k hk
    have := writeSizeBytes_getElem mem n _ _ _ hs k hk
    simpa using this.symm

/-! ## The claims about the encoder -/

/-- C2 (exact coverage), at the empty blob: the scan loop runs `blobSize - 1` times in
`size_t` arithmetic, which for `blobSize = 0` is `2^64 - 1` times, and its first
iteration reads `blob[0]` outside the blob. The encoder produces no stream there, so no
records cover the empty blob. (For every non-empty blob the coverage holds:
`encode_covers`.) -/
theorem exact_coverage_empty_blob (mem : Nat → Option Nat) :
    encode mem [] = .error .outOfBoundsRead ∧
      ¬ ∃ out recs, encode mem [] = .ok out ∧ out.drop 8 = wireBytes recs ∧ payloads recs = [] := by
  refine ⟨encode_empty mem, ?_⟩
  rintro ⟨out, recs, h, _⟩
  rw [encode_empty] at h
  exact Except.noConfusion h

/-- C3 (size recovery): whatever the memory holds, `get_blob_size` does not give back
the length of both the one-byte blob `[7]` and the two-byte blob `[7, 8]`: the size
bytes of the first are read from addresses 1 to 8 and those of the second from addresses
2 to 9, so the byte at address 2 would have to be both `0` and `2`. -/
theorem size_recovery_fails (mem : Nat → Option Nat) :
    ¬ ((∃ enc, encode mem [7] = .ok enc ∧ get_blob_size enc = .ok 1) ∧
       (∃ enc, encode mem [7, 8] = .ok enc ∧ get_blob_size enc = .ok 2)) := by
  rintro ⟨⟨e1, h1, g1⟩, ⟨e2, h2, g2⟩⟩
  rw [encode_literal mem [7] rfl (by simp) (by decide)] at h1
  rw [encode_literal mem [7, 8] rfl (by simp) (by decide)] at h2
  obtain ⟨s1, hs1, rfl⟩ := map_ok_inv _ _ _ h1
  obtain ⟨s2, hs2, rfl⟩ := map_ok_inv _ _ _ h2
  obtain ⟨a0, a1, atl, rfl, _, ha1⟩ := sizeBytes_head mem 1 s1 hs1
  obtain ⟨c0, c1, ctl, rfl, hc0, _⟩ := sizeBytes_head mem 2 s2 hs2
  have k1 := get_blob_size_low a0 a1 _ 1 g1
  have k2 := get_blob_size_low c0 c1 _ 2 g2
  have ha1' : mem 2 = some a1 := ha1
  rw [hc0] at ha1'
  have : c0 = a1 := Option.some.inj ha1'
  omega

/-- C5 (record well-formedness): for every blob, what `encode` writes after the eight
size bytes reads back as records of the wire format whose count byte (homogeneous) or
length byte (heterogeneous, followed by exactly that many literal bytes) is in `1..255`;
and for a non-empty blob `encode` does return once the eight size bytes could be read. -/
theorem encode_records_wellFormed (mem : Nat → Option Nat) (blob : List Nat)
    (hsz : blob.length < SIZE_RANGE) :
    (∀ out, encode mem blob = .ok out →
      ∃ recs, parseRecords out.length (out.drop 8) = some recs ∧ wireBytes recs = out.drop 8 ∧
        ∀ r ∈ recs, r.WellFormed) ∧
    (blob ≠ [] → ∀ sizeBytes, writeSizeBytes mem blob.length SIZEOF_SIZE_T 0 = .ok sizeBytes →
      ∃ out, encode mem blob = .ok out) := by
  by_cases hne : blob = []
  · subst hne
    refine ⟨?_, fun h => absurd rfl h⟩
    intro out h
    rw [encode_empty] at h
    exact Except.noConfusion h
  · obtain ⟨recs, hwf, _, henc⟩ := encode_covers mem blob hne hsz
    refine ⟨?_, ?_⟩
    · intro out h
      rw [henc] at h
      obtain ⟨s, hs, rfl⟩ := map_ok_inv _ _ _ h
      have hlen := writeSizeBytes_length mem _ _ _ _ hs
      have hdrop : (s ++ wireBytes recs).drop 8 = wireBytes recs := by
        rw [List.drop_append_of_le_length (by rw [hlen]; decide),
          List.drop_of_length_le (by rw [hlen]; decide)]
        rfl
      refine ⟨recs, ?_, hdrop.symm, hwf⟩
      rw [hdrop]
      apply parseRecords_wireBytes recs _ hwf
      have := wireBytes_length_ge recs
      simp only [List.length_append]
      omega
    · intro _ s hs
      exact ⟨s ++ wireBytes recs, by rw [henc, hs]; rfl⟩

theorem encode_records_wellFormed_witness :
    [1, 5, 5, 2, 2, 2, 3, 4, 4].length < SIZE_RANGE ∧
    ((∀ out, encode zeroMemory [1, 5, 5, 2, 2, 2, 3, 4, 4] = .ok out →
      ∃ recs, parseRecords out.length (out.drop 8) = some recs ∧ wireBytes recs = out.drop 8 ∧
        ∀ r ∈ recs, r.WellFormed) ∧
    ([1, 5, 5, 2, 2, 2, 3, 4, 4] ≠ [] → ∀ sizeBytes,
      writeSizeBytes zeroMemory [1, 5, 5, 2, 2, 2, 3, 4, 4].length SIZEOF_SIZE_T 0
        = .ok sizeBytes →
      ∃ out, encode zeroMemory [1, 5, 5, 2, 2, 2, 3, 4, 4] = .ok out)) :=
  ⟨by decide, encode_records_wellFormed zeroMemory [1, 5, 5, 2, 2, 2, 3, 4, 4] (by decide)⟩

/-- C6 (run splitting in the output): the encoder takes its eight size bytes from the
addresses `n, .., n + 7` of the process, because the size write converts the value
`blobSize` to a pointer. For `n ≥ 2` copies of a byte `v`: when one of these addresses
cannot be read, the run stops at the size write and produces no record; when all can be
read, the output is the eight bytes stored there followed by exactly the records
`runRecords n v`. These records are `n / 255` records `[255, v]`, then `[n mod 255, v]`
when `n mod 255 ≠ 0`: `ceil(n / 255)` homogeneous records with value `v`, each count in
`1..255`, and their expansion is the run. -/
theorem run_splitting_size_read (mem : Nat → Option Nat) (v n : Nat) (hn : 2 ≤ n)
    (hsz : n < SIZE_RANGE) :
    ((∃ k, k < 8 ∧ mem (n + k) = none) →
        encode mem (List.replicate n v) = .error .unreadableAddress) ∧
      ((∀ k, k < 8 → mem (n + k) ≠ none) →
        ∃ sizeBytes : List Nat, sizeBytes.length = 8 ∧
          (∀ k, k < 8 → sizeBytes[k]? = mem (n + k)) ∧
          encode mem (List.replicate n v) = .ok (sizeBytes ++ wireBytes (runRecords n v))) ∧
      (runRecords n v).length = (n + 254) / 255 ∧
      (∀ r ∈ runRecords n v, ∃ c, r = Record.homog c v ∧ 1 ≤ c ∧ c ≤ 255) ∧
      payloads (runRecords n v) = List.replicate n v := by
  have hcases := sizeBytes_cases mem n (wireBytes (runRecords n v)) _
    (encode_replicate mem v n hn hsz)
  refine ⟨hcases.1, hcases.2, ?_, ?_, ?_⟩
  · unfold runRecords
    by_cases h : n % 255 = 0
    · rw [if_pos h]; simp; omega
    · rw [if_neg h]; simp; omega
  · intro r hr
    unfold runRecords at hr
    rcases List.mem_append.mp hr with h | h
    · exact ⟨255, (List.mem_replicate.mp h).2, by omega, by omega⟩
    · by_cases h0 : n % 255 = 0
      · rw [if_pos h0] at h; simp at h
      · rw [if_neg h0] at h
        exact ⟨n % 255, by simpa using h, by omega, by omega⟩
  · unfold runRecords
    rw [payloads_append, payloads_replicate_homog]
    by_cases h : n % 255 = 0
    · rw [if_pos h]
      simp only [payloads, List.append_nil]
      congr 1
      omega
    · rw [if_neg h]
      simp only [payloads, Record.payload, List.append_nil, ← List.replicate_add]
      congr 1
      omega

theorem run_splitting_size_read_witness :
    2 ≤ 600 ∧ 600 < SIZE_RANGE ∧ unmappedLowPage (600 + 0) = none ∧
      encode unmappedLowPage (List.replicate 600 7) = .error .unreadableAddress ∧
      encode zeroMemory (List.replicate 600 7)
        = .ok ([0, 0, 0, 0, 0, 0, 0, 0] ++ [255, 7, 255, 7, 90, 7]) ∧
      (runRecords 600 7).length = 3 :=
  ⟨by decide, by decide, by decide,
    (run_splitting_size_read unmappedLowPage 7 600 (by decide) (by decide)).1
      ⟨0, by decide, by decide⟩,
    (encode_replicate zeroMemory 7 600 (by decide) (by decide)).trans (by decide),
    (run_splitting_size_read zeroMemory 7 600 (by decide) (by decide)).2.2.1.trans (by decide)⟩

/-- C7 (no merge across a run boundary): for bytes `a ≠ b` and `2 ≤ m, n ≤ 255`, on the
blob of `m` copies of `a` followed by `n` copies of `b` the encoder takes its eight size
bytes from the addresses `m + n, .., m + n + 7` of the process. When one of them cannot
be read, the run stops at the size write and produces no record; when all can be read,
the output is the eight bytes stored there followed by exactly the four bytes
`[m, a, n, b]`, which are the two homogeneous records `[m, a]` and `[n, b]`. -/
theorem no_merge_size_read (mem : Nat → Option Nat) (a b m n : Nat) (hab : a ≠ b)
    (hm : 2 ≤ m) (hm' : m ≤ 255) (hn : 2 ≤ n) (hn' : n ≤ 255) :
    ((∃ k, k < 8 ∧ mem (m + n + k) = none) →
        encode mem (List.replicate m a ++ List.replicate n b) = .error .unreadableAddress) ∧
      ((∀ k, k < 8 → mem (m + n + k) ≠ none) →
        ∃ sizeBytes : List Nat, sizeBytes.length = 8 ∧
          (∀ k, k < 8 → sizeBytes[k]? = mem (m + n + k)) ∧
          encode mem (List.replicate m a ++ List.replicate n b)
            = .ok (sizeBytes ++ [m, a, n, b])) ∧
      parseRecords 2 [m, a, n, b] = some [Record.homog m a, Record.homog n b] := by
  have hcases := sizeBytes_cases mem (m + n) [m, a, n, b] _
    (encode_two_runs mem a b m n hab hm hm' hn hn')
  refine ⟨hcases.1, hcases.2, ?_⟩
  have := parseRecords_wireBytes [Record.homog m a, Record.homog n b] 2 (by
    intro r hr
    simp only [List.mem_cons, List.mem_singleton, List.not_mem_nil, or_false] at hr
    rcases hr with h | h <;> subst h <;> simp only [Record.WellFormed] <;> omega) (by simp)
  simpa [wireBytes, Record.wire] using this

theorem no_merge_size_read_witness :
    (170 : Nat) ≠ 187 ∧ 2 ≤ 3 ∧ 3 ≤ 255 ∧ 2 ≤ 2 ∧ 2 ≤ 255 ∧
      unmappedLowPage (3 + 2 + 0) = none ∧
      encode unmappedLowPage [170, 170, 170, 187, 187] = .error .unreadableAddress ∧
      encode zeroMemory [170, 170, 170, 187, 187]
        = .ok ([0, 0, 0, 0, 0, 0, 0, 0] ++ [3, 170, 2, 187]) :=
  ⟨by decide, by decide, by decide, by decide, by decide, by decide,
    (no_merge_size_read unmappedLowPage 170 187 3 2 (by decide) (by decide) (by decide)
      (by decide) (by decide)).1 ⟨0, by decide, by decide⟩,
    (encode_two_runs zeroMemory 170 187 3 2 (by decide) (by decide) (by decide) (by decide)
      (by decide)).trans (by decide)⟩

/-- C8 (heterogeneous cap): for a blob of `n ≥ 1` bytes without two equal adjacent
bytes the encoder takes its eight size bytes from the addresses `n, .., n + 7` of the
process. When one of them cannot be read, the run stops at the size write and produces
no record; when all can be read, the output is the eight bytes stored there followed by
exactly the heterogeneous records `literalRecords blob`: for each `j < n / 255` the
record `[0, 255]` with the 255 bytes from offset `255 * j`, then, when `n mod 255 ≠ 0`,
the record `[0, n mod 255]` with the remaining bytes. -/
theorem heterogeneous_cap_size_read (mem : Nat → Option Nat) (blob : List Nat)
    (hch : noAdjacentEqual blob = true) (hne : 1 ≤ blob.length)
    (hsz : blob.length < SIZE_RANGE) :
    ((∃ k, k < 8 ∧ mem (blob.length + k) = none) →
        encode mem blob = .error .unreadableAddress) ∧
      ((∀ k, k < 8 → mem (blob.length + k) ≠ none) →
        ∃ sizeBytes : List Nat, sizeBytes.length = 8 ∧
          (∀ k, k < 8 → sizeBytes[k]? = mem (blob.length + k)) ∧
          encode mem blob = .ok (sizeBytes ++ wireBytes (literalRecords blob))) ∧
      (∀ j, j < blob.length / 255 → ((blob.drop (255 * j)).take 255).length = 255) ∧
      (blob.drop (255 * (blob.length / 255))).length = blob.length % 255 := by
  have hcases := sizeBytes_cases mem blob.length (wireBytes (literalRecords blob)) _
    (encode_literal mem blob hch hne hsz)
  refine ⟨hcases.1, hcases.2, ?_, ?_⟩
  · intro j hj
    rw [List.length_take, List.length_drop]
    omega
  · rw [List.length_drop]
    omega

set_option maxRecDepth 100000 in
theorem heterogeneous_cap_size_read_witness :
    noAdjacentEqual countingBlob = true ∧ 1 ≤ countingBlob.length ∧
      countingBlob.length < SIZE_RANGE ∧
      unmappedLowPage (countingBlob.length + 0) = none ∧
      encode unmappedLowPage countingBlob = .error .unreadableAddress ∧
      encode zeroMemory countingBlob
        = .ok ([0, 0, 0, 0, 0, 0, 0, 0] ++ (0 :: 255 :: countingBlob.take 255) ++
            (0 :: 45 :: countingBlob.drop 255)) :=
  ⟨by decide, by decide, by decide, by decide,
    (heterogeneous_cap_size_read unmappedLowPage countingBlob (by decide) (by decide)
      (by decide)).1 ⟨0, by decide, by decide⟩,
    (encode_literal zeroMemory countingBlob (by decide) (by decide) (by decide)).trans
      (by decide)⟩

/-- C9 (concrete mixed scenario), the size bytes: whatever the memory holds, the
outputs for `[5, 5, 9]` and for `[5, 5, 5, 9]` cannot both start with the eight bytes of
their blob lengths 3 and 4: the first takes its size bytes from addresses 3 to 10 and
the second from addresses 4 to 11, so the byte at address 4 would have to be both `0`
and `4`. (The records after the size bytes are as the claim says:
`encode_run_then_byte`.) -/
theorem encode_scenario_size_bytes (mem : Nat → Option Nat) :
    ¬ (encode mem [5, 5, 9] = .ok (sizeBytesOf 3 ++ [2, 5] ++ [0, 1, 9]) ∧
       encode mem [5, 5, 5, 9] = .ok (sizeBytesOf 4 ++ [3, 5] ++ [0, 1, 9])) := by
  rintro ⟨h1, h2⟩
  have e1 := encode_run_then_byte mem 5 9 2 (by decide) (by decide) (by decide)
  have e2 := encode_run_then_byte mem 5 9 3 (by decide) (by decide) (by decide)
  have l1 : List.replicate 2 5 ++ [9] = [5, 5, 9] := rfl
  have l2 : List.replicate 3 5 ++ [9] = [5, 5, 5, 9] := rfl
  rw [l1, h1] at e1
  rw [l2, h2] at e2
  obtain ⟨s1, hs1, k1⟩ := map_ok_inv _ _ _ e1.symm
  obtain ⟨s2, hs2, k2⟩ := map_ok_inv _ _ _ e2.symm
  obtain ⟨a0, a1, atl, rfl, _, ha1⟩ := sizeBytes_head mem 3 s1 hs1
  obtain ⟨c0, c1, ctl, rfl, hc0, _⟩ := sizeBytes_head mem 4 s2 hs2
  have ha1' : mem 4 = some a1 := ha1
  rw [hc0] at ha1'
  have hc : c0 = a1 := Option.some.inj ha1'
  have v1 : a1 = 0 := by
    have := congrArg (fun l => l[1]?) k1
    simpa [sizeBytesOf] using this.symm
  have v2 : c0 = 4 := by
    have := congrArg (fun l => l[0]?) k2
    simpa [sizeBytesOf] using this.symm
  omega

/-! ## The decoder on a stream and on the stream without its last bytes -/

theorem SameOrReadsPastEnd.bind {α β : Type} {x y : Except Fault α}
    {f g : α → Except Fault β} (h : SameOrReadsPastEnd x y)
    (hf : ∀ a, SameOrReadsPastEnd (f a) (g a)) :
    SameOrReadsPastEnd (x >>= f) (y >>= g) := by
  rcases h with h | h
  · subst h
    cases x with
    | error e => left; rfl
    | ok a =>
        rcases hf a with h2 | h2
        · left; exact h2
        · right; exact h2
  · right; rw [h]; rfl

theorem readBlobByte_take (encoded : List Nat) (k pos : Nat) :
    SameOrReadsPastEnd (readBlobByte (encoded.take k) pos) (readBlobByte encoded pos) := by
  unfold readBlobByte readByte
  by_cases h : pos < k
  · left
    rw [List.getElem?_take_of_lt h]
  · right
    rw [List.getElem?_eq_none (by rw [List.length_take]; omega)]
    rfl

theorem readSizeLoop_take (encoded : List Nat) (k : Nat) : ∀ (remaining i pos val : Nat),
    SameOrReadsPastEnd (readSizeLoop (encoded.take k) remaining i pos val)
      (readSizeLoop encoded remaining i pos val) := by
  intro remaining
  induction remaining with
  | zero => intro i pos val; left; rfl
  | succ n ih =>
      intro i pos val
      rw [readSizeLoop, readSizeLoop]
      refine SameOrReadsPastEnd.bind (readBlobByte_take encoded k pos) (fun a => ?_)
      exact SameOrReadsPastEnd.bind (Or.inl rfl) (fun v => ih _ _ _)

theorem heteroLoop_take (encoded : List Nat) (k : Nat) : ∀ (remaining pos : Nat)
    (blob : List (Option Nat)) (staticPos : Nat),
    SameOrReadsPastEnd (heteroLoop (encoded.take k) remaining pos blob staticPos)
      (heteroLoop encoded remaining pos blob staticPos) := by
  intro remaining
  induction remaining with
  | zero => intro pos blob staticPos; left; rfl
  | succ n ih =>
      intro pos blob staticPos
      rw [heteroLoop, heteroLoop]
      refine SameOrReadsPastEnd.bind (readBlobByte_take encoded k pos) (fun a => ?_)
      exact SameOrReadsPastEnd.bind (Or.inl rfl) (fun b => ih _ _ _)

theorem decodeLoop_take (encoded : List Nat) (k blobSize : Nat) : ∀ (budget pos : Nat)
    (blob : List (Option Nat)) (staticPos : Nat),
    SameOrReadsPastEnd (decodeLoop (encoded.take k) blobSize budget pos blob staticPos)
      (decodeLoop encoded blobSize budget pos blob staticPos) := by
  intro budget
  induction budget with
  | zero => intro pos blob staticPos; left; rfl
  | succ n ih =>
      intro pos blob staticPos
      rw [decodeLoop, decodeLoop]
      by_cases hlt : pos < blobSize
      · rw [if_pos hlt, if_pos hlt]
        refine SameOrReadsPastEnd.bind (readBlobByte_take encoded k pos) (fun a => ?_)
        by_cases h0 : (a.1 == 0) = true
        · simp only [h0, if_true]
          refine SameOrReadsPastEnd.bind (readBlobByte_take encoded k _) (fun b => ?_)
          exact SameOrReadsPastEnd.bind (heteroLoop_take encoded k _ _ _ _) (fun c => ih _ _ _)
        · simp only [h0, if_false, Bool.false_eq_true]
          refine SameOrReadsPastEnd.bind (readBlobByte_take encoded k _) (fun b => ?_)
          exact SameOrReadsPastEnd.bind (Or.inl rfl) (fun c => ih _ _ _)
      · rw [if_neg hlt, if_neg hlt]
        left; rfl

/-- The record part of `do_decoding` has no check of the stream against its length: on
the first `k` bytes of a stream it does what it does on the whole stream, or it reads
past the end of the shortened stream. -/
theorem decodeRecords_take (encoded : List Nat) (k blobSize pos staticPos : Nat) :
    SameOrReadsPastEnd (decodeRecords (encoded.take k) blobSize pos staticPos)
      (decodeRecords encoded blobSize pos staticPos) :=
  decodeLoop_take encoded k _ _ _ _ _

theorem decode_take (encoded : List Nat) (k staticPos : Nat) :
    SameOrReadsPastEnd (decode (encoded.take k) staticPos) (decode encoded staticPos) := by
  unfold decode do_decoding
  exact SameOrReadsPastEnd.bind (readSizeLoop_take encoded k _ _ _ _)
    (fun a => decodeRecords_take encoded k _ _ _)

/-! ## The record loop of the decoder keeps the size of the buffer -/

theorem blobAppendByte_length (blob blob' : List (Option Nat)) (staticPos staticPos' byte : Nat)
    (h : blobAppendByte blob staticPos byte = .ok (blob', staticPos')) :
    blob'.length = blob.length := by
  unfold blobAppendByte at h
  by_cases hlt : staticPos < blob.length
  · rw [if_pos hlt] at h
    simp only [Except.ok.injEq, Prod.mk.injEq] at h
    rw [← h.1, List.length_set]
  · rw [if_neg hlt] at h
    exact Except.noConfusion h

theorem heteroLoop_length (encoded : List Nat) : ∀ (remaining pos : Nat)
    (blob : List (Option Nat)) (staticPos : Nat) (r : Nat × List (Option Nat) × Nat),
    heteroLoop encoded remaining pos blob staticPos = .ok r → r.2.1.length = blob.length := by
  intro remaining
  induction remaining with
  | zero =>
      intro pos blob staticPos r h
      simp only [heteroLoop, pure, Except.pure, Except.ok.injEq] at h
      rw [← h]
  | succ n ih =>
      intro pos blob staticPos r h
      rw [heteroLoop] at h
      cases h1 : readBlobByte encoded pos with
      | error e => rw [h1] at h; exact Except.noConfusion h
      | ok a =>
          cases h2 : blobAppendByte blob staticPos a.1 with
          | error e =>
              rw [h1] at h
              simp only [bind, Except.bind, h2] at h
              exact Except.noConfusion h
          | ok b =>
              rw [h1] at h
              simp only [bind, Except.bind, h2] at h
              rw [ih _ _ _ _ h, blobAppendByte_length _ _ _ _ _ h2]

theorem homogLoop_length (data : Nat) : ∀ (remaining : Nat)
    (blob : List (Option Nat)) (staticPos : Nat) (r : List (Option Nat) × Nat),
    homogLoop data remaining blob staticPos = .ok r → r.1.length = blob.length := by
  intro remaining
  induction remaining with
  | zero =>
      intro blob staticPos r h
      simp only [homogLoop, pure, Except.pure, Except.ok.injEq] at h
      rw [← h]
  | succ n ih =>
      intro blob staticPos r h
      rw [homogLoop] at h
      cases h2 : blobAppendByte blob staticPos data with
      | error e =>
          simp only [bind, Except.bind, h2] at h
          exact Except.noConfusion h
      | ok b =>
          simp only [bind, Except.bind, h2] at h
          rw [ih _ _ _ h, blobAppendByte_length _ _ _ _ _ h2]

theorem decodeLoop_length (encoded : List Nat) (blobSize : Nat) : ∀ (budget pos : Nat)
    (blob : List (Option Nat)) (staticPos : Nat) (r : List (Option Nat) × Nat),
    decodeLoop encoded blobSize budget pos blob staticPos = .ok r → r.1.length = blob.length := by
  intro budget
  induction budget with
  | zero =>
      intro pos blob staticPos r h
      rw [decodeLoop] at h
      by_cases hlt : pos < blobSize
      · rw [if_pos hlt] at h; exact Except.noConfusion h
      · rw [if_neg hlt] at h
        simp only [Except.ok.injEq] at h
        rw [← h]
  | succ n ih =>
      intro pos blob staticPos r h
      rw [decodeLoop] at h
      by_cases hlt : pos < blobSize
      · rw [if_pos hlt] at h
        cases h1 : readBlobByte encoded pos with
        | error e => rw [h1] at h; exact Except.noConfusion h
        | ok a =>
            rw [h1] at h
            simp only [bind, Except.bind] at h
            cases h2 : readBlobByte encoded a.2 with
            | error e => by_cases h0 : (a.1 == 0) = true <;> simp [h0, h2] at h
            | ok b =>
                by_cases h0 : (a.1 == 0) = true
                · simp only [h0, if_true, h2] at h
                  cases h3 : heteroLoop encoded b.1 b.2 blob staticPos with
                  | error e => simp only [h3] at h; exact Except.noConfusion h
                  | ok c =>
                      simp only [h3] at h
                      rw [ih _ _ _ _ h, heteroLoop_length _ _ _ _ _ _ h3]
                · simp only [h0, if_false, Bool.false_eq_true, h2] at h
                  cases h3 : homogLoop b.1 a.1 blob staticPos with
                  | error e => simp only [h3] at h; exact Except.noConfusion h
                  | ok c =>
                      simp only [h3] at h
                      rw [ih _ _ _ _ h, homogLoop_length _ _ _ _ _ h3]
      · rw [if_neg hlt] at h
        simp only [pure, Except.pure, Except.ok.injEq] at h
        rw [← h]

/-! ## The outcomes of the record loop of the decoder -/

theorem readBlobByte_ok (encoded : List Nat) (pos : Nat) (r : Nat × Nat)
    (h : readBlobByte encoded pos = .ok r) : r.2 = pos + 1 := by
  unfold readBlobByte at h
  cases h1 : readByte encoded pos with
  | error e => rw [h1] at h; exact Except.noConfusion h
  | ok b =>
      rw [h1] at h
      simp only [bind, Except.bind, pure, Except.pure, Except.ok.injEq] at h
      rw [← h]

theorem readBlobByte_error (encoded : List Nat) (pos : Nat) (e : Fault)
    (h : readBlobByte encoded pos = .error e) : e = .outOfBoundsRead := by
  unfold readBlobByte readByte at h
  cases h1 : encoded[pos]? with
  | none =>
      rw [h1] at h
      simp only [bind, Except.bind, Except.error.injEq] at h
      exact h.symm
  | some b =>
      rw [h1] at h
      exact Except.noConfusion h

theorem blobAppendByte_error (blob : List (Option Nat)) (staticPos byte : Nat) (e : Fault)
    (h : blobAppendByte blob staticPos byte = .error e) : e = .outOfBoundsWrite := by
  unfold blobAppendByte at h
  by_cases hlt : staticPos < blob.length
  · rw [if_pos hlt] at h; exact Except.noConfusion h
  · rw [if_neg hlt] at h
    simp only [Except.error.injEq] at h
    exact h.symm

theorem heteroLoop_outcome (encoded : List Nat) : ∀ (remaining pos : Nat)
    (blob : List (Option Nat)) (staticPos : Nat),
    (∃ r, heteroLoop encoded remaining pos blob staticPos = .ok r ∧ r.1 = pos + remaining) ∨
      heteroLoop encoded remaining pos blob staticPos = .error .outOfBoundsRead ∨
      heteroLoop encoded remaining pos blob staticPos = .error .outOfBoundsWrite := by
  intro remaining
  induction remaining with
  | zero => intro pos blob staticPos; left; exact ⟨_, rfl, rfl⟩
  | succ n ih =>
      intro pos blob staticPos
      rw [heteroLoop]
      cases h1 : readBlobByte encoded pos with
      | error e =>
          right; left
          rw [readBlobByte_error _ _ _ h1]; rfl
      | ok a =>
          cases h2 : blobAppendByte blob staticPos a.1 with
          | error e =>
              have he := blobAppendByte_error _ _ _ _ h2
              subst he
              right; right
              simp only [bind, Except.bind, h2]
          | ok b =>
              simp only [bind, Except.bind, h2]
              rcases ih a.2 b.1 b.2 with ⟨r, hr, hpos⟩ | h | h
              · left
                refine ⟨r, hr, ?_⟩
                rw [hpos, readBlobByte_ok _ _ _ h1]
                omega
              · right; left; exact h
              · right; right; exact h

theorem homogLoop_outcome (data : Nat) : ∀ (remaining : Nat)
    (blob : List (Option Nat)) (staticPos : Nat),
    (∃ r, homogLoop data remaining blob staticPos = .ok r) ∨
      homogLoop data remaining blob staticPos = .error .outOfBoundsWrite := by
  intro remaining
  induction remaining with
  | zero => intro blob staticPos; left; exact ⟨_, rfl⟩
  | succ n ih =>
      intro blob staticPos
      rw [homogLoop]
      cases h2 : blobAppendByte blob staticPos data with
      | error e =>
          right
          simp only [bind, Except.bind]
          rw [blobAppendByte_error _ _ _ _ h2]
      | ok b =>
          simp only [bind, Except.bind]
          exact ih b.1 b.2

/-- With a budget of at least `blobSize - pos` iterations the record loop of the decoder
returns a buffer, or stops at an access outside a buffer; it never uses up the budget. -/
theorem decodeLoop_outcome (encoded : List Nat) (blobSize : Nat) : ∀ (budget pos : Nat)
    (blob : List (Option Nat)) (staticPos : Nat), blobSize ≤ pos + budget →
    (∃ r, decodeLoop encoded blobSize budget pos blob staticPos = .ok r) ∨
      decodeLoop encoded blobSize budget pos blob staticPos = .error .outOfBoundsRead ∨
      decodeLoop encoded blobSize budget pos blob staticPos = .error .outOfBoundsWrite := by
  intro budget
  induction budget with
  | zero =>
      intro pos blob staticPos hb
      left
      rw [decodeLoop, if_neg (by omega)]
      exact ⟨_, rfl⟩
  | succ n ih =>
      intro pos blob staticPos hb
      rw [decodeLoop]
      by_cases hlt : pos < blobSize
      · rw [if_pos hlt]
        cases h1 : readBlobByte encoded pos with
        | error e => right; left; rw [readBlobByte_error _ _ _ h1]; rfl
        | ok a =>
            have ha := readBlobByte_ok _ _ _ h1
            simp only [bind, Except.bind]
            cases h2 : readBlobByte encoded a.2 with
            | error e =>
                right; left
                rw [readBlobByte_error _ _ _ h2]
                by_cases h0 : (a.1 == 0) = true <;> simp [h0]
            | ok b =>
                have hb2 := readBlobByte_ok _ _ _ h2
                by_cases h0 : (a.1 == 0) = true
                · simp only [h0, if_true]
                  rcases heteroLoop_outcome encoded b.1 b.2 blob staticPos with
                    ⟨r, hr, hpos⟩ | h | h
                  · simp only [hr]
                    exact ih r.1 r.2.1 r.2.2 (by omega)
                  · right; left; simp only [h]
                  · right; right; simp only [h]
                · simp only [h0, if_false, Bool.false_eq_true]
                  rcases homogLoop_outcome b.1 a.1 blob staticPos with ⟨r, hr⟩ | h
                  · simp only [hr]
                    exact ih b.2 r.1 r.2 (by omega)
                  · right; right; simp only [h]
      · rw [if_neg hlt]
        left
        exact ⟨_, rfl⟩

/-- The record part of `do_decoding` returns a buffer or stops at an access outside a
buffer; it never uses up the budget of the model. -/
theorem decodeRecords_outcome (encoded : List Nat) (blobSize pos staticPos : Nat) :
    (∃ r, decodeRecords encoded blobSize pos staticPos = .ok r) ∨
      decodeRecords encoded blobSize pos staticPos = .error .outOfBoundsRead ∨
      decodeRecords encoded blobSize pos staticPos = .error .outOfBoundsWrite :=
  decodeLoop_outcome encoded blobSize blobSize pos _ staticPos (by omega)

theorem decodeLoop_stop (encoded : List Nat) (blobSize budget pos : Nat)
    (blob : List (Option Nat)) (staticPos : Nat) (h : blobSize ≤ pos) :
    decodeLoop encoded blobSize budget pos blob staticPos = .ok (blob, staticPos) := by
  cases budget with
  | zero => rw [decodeLoop, if_neg (by omega)]
  | succ b => rw [decodeLoop, if_neg (by omega)]; rfl

/-- Entered with a read position that is not below the size, the record part of
`do_decoding` processes no record: it returns the buffer with no byte written. -/
theorem decodeRecords_stop (encoded : List Nat) (blobSize pos staticPos : Nat)
    (h : blobSize ≤ pos) :
    decodeRecords encoded blobSize pos staticPos
      = .ok (List.replicate blobSize none, staticPos) :=
  decodeLoop_stop _ _ _ _ _ _ h

/-! ## The static append position is never reset -/

theorem blobAppendByte_below (blob blob' : List (Option Nat)) (staticPos staticPos' byte : Nat)
    (h : blobAppendByte blob staticPos byte = .ok (blob', staticPos')) :
    staticPos' = staticPos + 1 ∧ ∀ j, j < staticPos → blob'[j]? = blob[j]? := by
  unfold blobAppendByte at h
  by_cases hlt : staticPos < blob.length
  · rw [if_pos hlt] at h
    simp only [Except.ok.injEq, Prod.mk.injEq] at h
    refine ⟨h.2.symm, ?_⟩
    intro j hj
    rw [← h.1, List.getElem?_set_ne (by omega)]
  · rw [if_neg hlt] at h
    exact Except.noConfusion h

theorem heteroLoop_below (encoded : List Nat) : ∀ (remaining pos : Nat)
    (blob : List (Option Nat)) (staticPos : Nat) (r : Nat × List (Option Nat) × Nat),
    heteroLoop encoded remaining pos blob staticPos = .ok r →
      r.2.2 = staticPos + remaining ∧ ∀ j, j < staticPos → r.2.1[j]? = blob[j]? := by
  intro remaining
  induction remaining with
  | zero =>
      intro pos blob staticPos r h
      simp only [heteroLoop, pure, Except.pure, Except.ok.injEq] at h
      rw [← h]
      exact ⟨rfl, fun _ _ => rfl⟩
  | succ n ih =>
      intro pos blob staticPos r h
      rw [heteroLoop] at h
      cases h1 : readBlobByte encoded pos with
      | error e => rw [h1] at h; exact Except.noConfusion h
      | ok a =>
          cases h2 : blobAppendByte blob staticPos a.1 with
          | error e =>
              rw [h1] at h
              simp only [bind, Except.bind, h2] at h
              exact Except.noConfusion h
          | ok b =>
              rw [h1] at h
              simp only [bind, Except.bind, h2] at h
              have hb := blobAppendByte_below _ _ _ _ _ h2
              have hr := ih _ _ _ _ h
              refine ⟨by rw [hr.1, hb.1]; omega, ?_⟩
              intro j hj
              rw [hr.2 j (by rw [hb.1]; omega), hb.2 j hj]

theorem homogLoop_below (data : Nat) : ∀ (remaining : Nat)
    (blob : List (Option Nat)) (staticPos : Nat) (r : List (Option Nat) × Nat),
    homogLoop data remaining blob staticPos = .ok r →
      r.2 = staticPos + remaining ∧ ∀ j, j < staticPos → r.1[j]? = blob[j]? := by
  intro remaining
  induction remaining with
  | zero =>
      intro blob staticPos r h
      simp only [homogLoop, pure, Except.pure, Except.ok.injEq] at h
      rw [← h]
      exact ⟨rfl, fun _ _ => rfl⟩
  | succ n ih =>
      intro blob staticPos r h
      rw [homogLoop] at h
      cases h2 : blobAppendByte blob staticPos data with
      | error e =>
          simp only [bind, Except.bind, h2] at h
          exact Except.noConfusion h
      | ok b =>
          simp only [bind, Except.bind, h2] at h
          have hb := blobAppendByte_below _ _ _ _ _ h2
          have hr := ih _ _ _ h
          refine ⟨by rw [hr.1, hb.1]; omega, ?_⟩
          intro j hj
          rw [hr.2 j (by rw [hb.1]; omega), hb.2 j hj]

theorem decodeLoop_below (encoded : List Nat) (blobSize : Nat) : ∀ (budget pos : Nat)
    (blob : List (Option Nat)) (staticPos : Nat) (r : List (Option Nat) × Nat),
    decodeLoop encoded blobSize budget pos blob staticPos = .ok r →
      staticPos ≤ r.2 ∧ ∀ j, j < staticPos → r.1[j]? = blob[j]? := by
  intro budget
  induction budget with
  | zero =>
      intro pos blob staticPos r h
      rw [decodeLoop] at h
      by_cases hlt : pos < blobSize
      · rw [if_pos hlt] at h; exact Except.noConfusion h
      · rw [if_neg hlt] at h
        simp only [Except.ok.injEq] at h
        rw [← h]
        exact ⟨Nat.le_refl _, fun _ _ => rfl⟩
  | succ n ih =>
      intro pos blob staticPos r h
      rw [decodeLoop] at h
      by_cases hlt : pos < blobSize
      · rw [if_pos hlt] at h
        cases h1 : readBlobByte encoded pos with
        | error e => rw [h1] at h; exact Except.noConfusion h
        | ok a =>
            rw [h1] at h
            simp only [bind, Except.bind] at h
            cases h2 : readBlobByte encoded a.2 with
            | error e => by_cases h0 : (a.1 == 0) = true <;> simp [h0, h2] at h
            | ok b =>
                by_cases h0 : (a.1 == 0) = true
                · simp only [h0, if_true, h2] at h
                  cases h3 : heteroLoop encoded b.1 b.2 blob staticPos with
                  | error e => simp only [h3] at h; exact Except.noConfusion h
                  | ok c =>
                      simp only [h3] at h
                      have hc := heteroLoop_below _ _ _ _ _ _ h3
                      have hr := ih _ _ _ _ h
                      refine ⟨by have := hr.1; rw [hc.1] at this; omega, ?_⟩
                      intro j hj
                      rw [hr.2 j (by rw [hc.1]; omega), hc.2 j hj]
                · simp only [h0, if_false, Bool.false_eq_true, h2] at h
                  cases h3 : homogLoop b.1 a.1 blob staticPos with
                  | error e => simp only [h3] at h; exact Except.noConfusion h
                  | ok c =>
                      simp only [h3] at h
                      have hc := homogLoop_below _ _ _ _ _ h3
                      have hr := ih _ _ _ _ h
                      refine ⟨by have := hr.1; rw [hc.1] at this; omega, ?_⟩
                      intro j hj
                      rw [hr.2 j (by rw [hc.1]; omega), hc.2 j hj]
      · rw [if_neg hlt] at h
        simp only [pure, Except.pure, Except.ok.injEq] at h
        rw [← h]
        exact ⟨Nat.le_refl _, fun _ _ => rfl⟩

/-- No path through the record part of `do_decoding` resets the static append position:
a run that returns leaves it at or above the value it found, and the cells of the
returned buffer below the value it found are the cells as allocated, never written. -/
theorem decodeRecords_below (encoded : List Nat) (blobSize pos staticPos : Nat)
    (blob : List (Option Nat)) (staticPos' : Nat)
    (h : decodeRecords encoded blobSize pos staticPos = .ok (blob, staticPos')) :
    staticPos ≤ staticPos' ∧
      ∀ j, j < staticPos → blob[j]? = (List.replicate blobSize none)[j]? :=
  decodeLoop_below encoded blobSize _ _ _ _ _ h

/-! ## The size loop of the decoder -/

/-- The first iteration of the size loop stores the byte inside `val`. -/
theorem storeByte_first (byte : Nat) : storeByte 0 (SIZEOF_SIZE_T * 0) byte = .ok (byte % 256) := by
  simp [storeByte, SIZEOF_SIZE_T]

/-- From the second iteration on, the store of the size loop is outside `val`: the
destination `(&val) + i` is `8 * i` bytes above the start of the 8-byte variable. -/
theorem storeByte_later (val i byte : Nat) (hi : 1 ≤ i) :
    storeByte val (SIZEOF_SIZE_T * i) byte = .error .outOfBoundsWrite := by
  unfold storeByte SIZEOF_SIZE_T
  rw [if_neg (by omega)]

/-- On the empty stream the size loop reads outside the stream in its first iteration. -/
theorem decode_nil (staticPos : Nat) : decode [] staticPos = .error .outOfBoundsRead := rfl

/-- On a stream of one byte the size loop reads outside the stream in its second
iteration. -/
theorem decode_singleton (b0 staticPos : Nat) :
    decode [b0] staticPos = .error .outOfBoundsRead := by
  simp [decode, do_decoding, readSizeLoop, readBlobByte, readByte, storeByte, SIZEOF_SIZE_T,
    bind, Except.bind, pure, Except.pure]

/-- On a stream of two bytes or more the size loop reads the second byte and stores it
at `(&val) + 1`, outside `val`: the run leaves defined behaviour there, whatever the
stream holds. -/
theorem decode_cons_cons (b0 b1 : Nat) (rest : List Nat) (staticPos : Nat) :
    decode (b0 :: b1 :: rest) staticPos = .error .outOfBoundsWrite := by
  simp [decode, do_decoding, readSizeLoop, readBlobByte, readByte, storeByte, SIZEOF_SIZE_T,
    bind, Except.bind, pure, Except.pure]

theorem decode_of_two_le (encoded : List Nat) (staticPos : Nat) (h : 2 ≤ encoded.length) :
    decode encoded staticPos = .error .outOfBoundsWrite := by
  match encoded, h with
  | b0 :: b1 :: rest, _ => exact decode_cons_cons b0 b1 rest staticPos

/-- No run of the decoder stays inside defined behaviour: it stops in the size loop, at
a read outside the stream (streams of fewer than two bytes) or at the store outside
`val`. -/
theorem decode_faults (encoded : List Nat) (staticPos : Nat) :
    decode encoded staticPos = .error .outOfBoundsRead ∨
      decode encoded staticPos = .error .outOfBoundsWrite := by
  match encoded with
  | [] => left; exact decode_nil staticPos
  | [b0] => left; exact decode_singleton b0 staticPos
  | b0 :: b1 :: rest => right; exact decode_cons_cons b0 b1 rest staticPos

/-- The output of the encoder has at least the eight size bytes. -/
theorem encode_length_ge (mem : Nat → Option Nat) (blob enc : List Nat)
    (h : encode mem blob = .ok enc) : 8 ≤ enc.length := by
  unfold encode do_encoding at h
  cases h1 : recordChunks blob blob.length with
  | error e => rw [h1] at h; exact Except.noConfusion h
  | ok recorded =>
      rw [h1] at h
      simp only [bind, Except.bind] at h
      cases h2 : breakUpLoop blob.length 0 recorded with
      | error e => rw [h2] at h; exact Except.noConfusion h
      | ok chunks =>
          rw [h2] at h
          simp only [] at h
          cases h3 : writeSizeBytes mem blob.length SIZEOF_SIZE_T 0 with
          | error e => rw [h3] at h; exact Except.noConfusion h
          | ok sizeBytes =>
              rw [h3] at h
              simp only [] at h
              have hlen := writeSizeBytes_length mem _ _ _ _ h3
              cases h4 : emitLoop blob blob.length chunks blob.length 0
                  (if chunks.isEmpty then none else some 0) with
              | error e => rw [h4] at h; exact Except.noConfusion h
              | ok records =>
                  rw [h4] at h
                  simp only [pure, Except.pure, Except.ok.injEq] at h
                  rw [← h, List.length_append, hlen]
                  unfold SIZEOF_SIZE_T
                  omega

/-- Whatever the encoder returned, the decoder applied to it leaves defined behaviour at
the second store of its size loop. -/
theorem decode_encode_faults (mem : Nat → Option Nat) (blob enc : List Nat) (staticPos : Nat)
    (h : encode mem blob = .ok enc) : decode enc staticPos = .error .outOfBoundsWrite :=
  decode_of_two_le enc staticPos (by have := encode_length_ge mem blob enc h; omega)

/-! ## The claims about the decoder -/

/-- C1 (round trip), at the blob `[5, 5, 5, 9]`: whatever the memory holds, decoding the
output of `encode` does not return the blob. The size loop of the decoder runs for
`i = 0, .., 8` and stores the byte of iteration `i` at `(&val) + i`; from `i = 1` on
that address is outside `val`, so no run of `decode` on a stream of two bytes or more
stays inside defined behaviour, and none returns the blob. -/
theorem round_trip_fails (mem : Nat → Option Nat) :
    ¬ ∃ enc buf staticPos, encode mem [5, 5, 5, 9] = .ok enc ∧
        decode enc 0 = .ok (buf, staticPos) ∧ buf = [some 5, some 5, some 5, some 9] := by
  rintro ⟨enc, buf, sp, _, hdec, _⟩
  rcases decode_faults enc 0 with h | h <;> rw [h] at hdec <;> exact Except.noConfusion hdec

/-- C10 (decoder follows the wire format). On every well-formed stream, the eight size
bytes of `N` followed by the wire bytes of records, the run of `decode` leaves defined
behaviour in the size loop: its second iteration stores at `(&val) + 1`, outside
`val`, so no payload is returned. The record part compares the read position in the
stream with `N`: entered with the size `N` at a read position `pos ≥ N`, as it is at
position 8 for every `N ≤ 8`, it processes no record and returns `N` cells none of
which is written. At the stream for the blob `[5, 5, 5, 9]` (size bytes of 4,
then `[3, 5]` and `[0, 1, 9]`): the first iteration of the size loop leaves `val = 4`,
the store of the second is outside `val`, and the record part entered with size 4 at
position 8, or at position 9 where nine iterations of the size loop would leave it,
returns four cells none of which is written. -/
theorem decode_wellFormed_streams (N : Nat) (records : List Record) (staticPos : Nat) :
    decode (sizeBytesOf N ++ wireBytes records) staticPos = .error .outOfBoundsWrite ∧
      (∀ pos, N ≤ pos → decodeRecords (sizeBytesOf N ++ wireBytes records) N pos staticPos
        = .ok (List.replicate N none, staticPos)) ∧
      sizeBytesOf 4 ++ wireBytes [Record.homog 3 5, Record.hetero [9]]
        = [4, 0, 0, 0, 0, 0, 0, 0, 3, 5, 0, 1, 9] ∧
      payloads [Record.homog 3 5, Record.hetero [9]] = [5, 5, 5, 9] ∧
      readSizeLoop [4, 0, 0, 0, 0, 0, 0, 0, 3, 5, 0, 1, 9] 1 0 0 0 = .ok (4, 1) ∧
      storeByte 4 (SIZEOF_SIZE_T * 1) 0 = .error .outOfBoundsWrite ∧
      decode [4, 0, 0, 0, 0, 0, 0, 0, 3, 5, 0, 1, 9] 0 = .error .outOfBoundsWrite ∧
      decodeRecords [4, 0, 0, 0, 0, 0, 0, 0, 3, 5, 0, 1, 9] 4 8 0
        = .ok ([none, none, none, none], 0) ∧
      decodeRecords [4, 0, 0, 0, 0, 0, 0, 0, 3, 5, 0, 1, 9] 4 9 0
        = .ok ([none, none, none, none], 0) := by
  refine ⟨?_, fun pos h => decodeRecords_stop _ _ _ _ h, by decide, by decide, by decide,
    by decide, by decide, by decide, by decide⟩
  exact decode_of_two_le _ _ (by simp [sizeBytesOf]; omega)

/-! ## The claims about the analyzer and the static write position -/

/-- C11 (no state shared between invocations): the append position of the decoder is a
function-local `static`, so it is not reset when `do_decoding` is entered again.
Whatever size and read position the size loop leaves, a run of the record part that
returns leaves the static position at or above the value it found, and the cells of the
returned buffer below the value it found are never written: what a call returns depends
on the calls before it. The stream `[10, 0, .., 0, 10, 7]` is the well-formed stream of
ten bytes `7` (size bytes of 10, record `[10, 7]`). The record part, entered for it in a
fresh process with size 10 and read position 8, returns the ten bytes and leaves the
static position at 10; entered a second time in the same process, it writes at index 10
of the new ten-byte buffer, outside of it. With the stream `[10, 0, .., 0, 2, 7]` both
runs return, and they return different buffers. A whole call of `decode` on either
stream does not reach the record part inside defined behaviour: it stops at the second
store of the size loop. -/
theorem decode_shares_static_position :
    (∀ (encoded : List Nat) (blobSize pos staticPos : Nat) (blob : List (Option Nat))
        (staticPos' : Nat),
        decodeRecords encoded blobSize pos staticPos = .ok (blob, staticPos') →
        staticPos ≤ staticPos' ∧
          ∀ j, j < staticPos → blob[j]? = (List.replicate blobSize none)[j]?) ∧
      sizeBytesOf 10 ++ wireBytes [Record.homog 10 7] = [10, 0, 0, 0, 0, 0, 0, 0, 10, 7] ∧
      decodeRecords [10, 0, 0, 0, 0, 0, 0, 0, 10, 7] 10 8 0
        = .ok (List.replicate 10 (some 7), 10) ∧
      decodeRecords [10, 0, 0, 0, 0, 0, 0, 0, 10, 7] 10 8 10 = .error .outOfBoundsWrite ∧
      decodeRecordsFirst [10, 0, 0, 0, 0, 0, 0, 0, 10, 7] 10
        = .ok (List.replicate 10 (some 7)) ∧
      decodeRecordsAfter [10, 0, 0, 0, 0, 0, 0, 0, 10, 7] 10 [10, 0, 0, 0, 0, 0, 0, 0, 10, 7] 10
        = .error .outOfBoundsWrite ∧
      decodeRecordsFirst [10, 0, 0, 0, 0, 0, 0, 0, 2, 7] 10
        = .ok [some 7, some 7, none, none, none, none, none, none, none, none] ∧
      decodeRecordsAfter [10, 0, 0, 0, 0, 0, 0, 0, 2, 7] 10 [10, 0, 0, 0, 0, 0, 0, 0, 2, 7] 10
        = .ok [none, none, some 7, some 7, none, none, none, none, none, none] ∧
      decode [10, 0, 0, 0, 0, 0, 0, 0, 10, 7] 0 = .error .outOfBoundsWrite ∧
      decode [10, 0, 0, 0, 0, 0, 0, 0, 2, 7] 0 = .error .outOfBoundsWrite := by
  refine ⟨fun encoded blobSize pos staticPos blob staticPos' h =>
    decodeRecords_below encoded blobSize pos staticPos blob staticPos' h, ?_⟩
  decide

/-- C14 (edge policy for tiny blobs): for a blob of one byte the trip count
`blobSize - 1` of the pair-scan loop is 0 and the run list is empty. For the empty blob
the same `size_t` subtraction wraps to `2^64 - 1`, the loop is entered, and its first
iteration reads `blob[0]` outside the blob. -/
theorem tiny_blob_scan (x : Nat) :
    subSize 1 1 = 0 ∧ recordChunks [x] 1 = .ok [] ∧
      subSize 0 1 = 18446744073709551615 ∧
      scanStep [] 0 0 ⟨false, npos, npos, []⟩ = .error .outOfBoundsRead ∧
      recordChunks [] 0 = .error .outOfBoundsRead := by
  refine ⟨by decide, rfl, by decide, rfl, recordChunks_empty⟩

/-! ## The pieces of a run, in closed form -/

theorem tilesAux_eq : ∀ (q first last : Nat),
    tilesAux q first last
      = (List.range q).map (fun j => (first + 255 * j, first + 255 * j + 254)) ++
          [(first + 255 * q, last)] := by
  intro q
  induction q with
  | zero => intro first last; simp [tilesAux]
  | succ q ih =>
      intro first last
      rw [tilesAux, ih, List.range_succ_eq_map, List.map_cons, List.map_map, List.cons_append]
      congr 1
      congr 1
      · apply List.map_congr_left
        intro j _
        simp only [Function.comp, Nat.succ_eq_add_one]
        rw [show first + 255 + 255 * j = first + 255 * (j + 1) by omega]
      · rw [show first + 255 + 255 * q = first + 255 * (q + 1) by omega]

theorem tilesAll_eq_flatMap (chunks : List Chunk) : tilesAll chunks = chunks.flatMap tiles := by
  induction chunks with
  | nil => rfl
  | cons c cs ih => rw [tilesAll, ih]; rfl

/-- C13 (splitting pass): on a list of runs `[first, last]` with `first ≤ last` (and
`last + 1` representable in `size_t`) the in-place loop, given enough iterations, ends
with the list in which every run is replaced, in place and in order, by its pieces
`tiles c`. The pieces of a run are `(last - first) / 255` runs of exactly 255 bytes,
each starting right after the one before, and one last run with the remaining 1 to 255
bytes; that is `ceil(L / 255)` runs for a run of `L` bytes, and the run itself when
`L ≤ 255`. -/
theorem split_pass (chunks : List Chunk) (budget : Nat)
    (hvalid : ∀ c ∈ chunks, c.1 ≤ c.2 ∧ c.2 + 1 < SIZE_RANGE)
    (hbudget : (tilesAll chunks).length ≤ budget) :
    breakUpLoop budget 0 chunks = .ok (chunks.flatMap tiles) ∧
      ∀ c ∈ chunks,
        tiles c = (List.range ((c.2 - c.1) / 255)).map
            (fun j => (c.1 + 255 * j, c.1 + 255 * j + 254)) ++
            [(c.1 + 255 * ((c.2 - c.1) / 255), c.2)] ∧
          (tiles c).length = (c.2 - c.1 + 1 + 254) / 255 ∧
          c.1 + 255 * ((c.2 - c.1) / 255) ≤ c.2 ∧
          c.2 < c.1 + 255 * ((c.2 - c.1) / 255) + 255 ∧
          (c.2 - c.1 + 1 ≤ 255 → tiles c = [c]) := by
  constructor
  · have h := breakUpLoop_eq budget [] chunks hvalid hbudget
    rw [← tilesAll_eq_flatMap]
    simpa using h
  · intro c hc
    have h1 := (hvalid c hc).1
    refine ⟨tilesAux_eq _ _ _, ?_, by omega, by omega, ?_⟩
    · unfold tiles
      rw [tilesAux_length]
      omega
    · intro h
      exact tiles_short c (by omega)

theorem split_pass_witness :
    (∀ c ∈ [((0 : Nat), (599 : Nat)), (700, 701)], c.1 ≤ c.2 ∧ c.2 + 1 < SIZE_RANGE) ∧
      (tilesAll [(0, 599), (700, 701)]).length ≤ 4 ∧
      breakUpLoop 4 0 [(0, 599), (700, 701)]
        = .ok [(0, 254), (255, 509), (510, 599), (700, 701)] :=
  ⟨by decide, by decide,
    (split_pass [(0, 599), (700, 701)] 4 (by decide) (by decide)).1.trans (by decide)⟩

/-! ## The recorded runs are the maximal regions of equal bytes -/

theorem runsFrom_maximal (blob : List Nat) : ∀ (suf pre : List Nat) (inside : Bool) (left : Nat),
    pre ++ suf = blob →
    (inside = true → left < pre.length ∧
      (∀ j, left ≤ j → j ≤ pre.length → blob[j]? = blob[left]?) ∧
      (left = 0 ∨ blob[left - 1]? ≠ blob[left]?) ∧ 2 ≤ suf.length) →
    (inside = false → pre.length = 0 ∨ blob[pre.length - 1]? ≠ blob[pre.length]?) →
    (∀ c ∈ runsFrom pre.length inside left suf,
        c.1 < c.2 ∧ (c.1 = 0 ∨ blob[c.1 - 1]? ≠ blob[c.1]?) ∧ blob[c.2 + 1]? ≠ blob[c.2]?) ∧
      (∀ p, (if inside then left else pre.length) ≤ p → p + 1 < blob.length →
        blob[p]? = blob[p + 1]? →
        ∃ c ∈ runsFrom pre.length inside left suf, c.1 ≤ p ∧ p + 1 ≤ c.2) := by
  intro suf
  induction suf with
  | nil =>
      intro pre inside left hblob _ _
      refine ⟨by simp [runsFrom], ?_⟩
      intro p hp1 hp2 _
      exfalso
      cases inside with
      | true => rename_i hin _; have := (hin rfl).2.2.2; simp at this
      | false =>
          rw [← hblob] at hp2
          simp at hp1 hp2
          omega
  | cons x tail ih =>
      intro pre inside left hblob hin hout
      cases tail with
      | nil =>
          refine ⟨by simp [runsFrom], ?_⟩
          intro p hp1 hp2 _
          exfalso
          cases inside with
          | true => have := (hin rfl).2.2.2; simp at this
          | false =>
              rw [← hblob] at hp2
              simp at hp1 hp2
              omega
      | cons y rest =>
          have hx : blob[pre.length]? = some x := by
            rw [← hblob, List.getElem?_append_right (by omega)]; simp
          have hy : blob[pre.length + 1]? = some y := by
            rw [← hblob, List.getElem?_append_right (by omega)]; simp
          have hlen : blob.length = pre.length + 2 + rest.length := by
            rw [← hblob]; simp; omega
          have hsplit : (pre ++ [x]) ++ (y :: rest) = blob := by rw [← hblob]; simp
          have hl1 : (pre ++ [x]).length = pre.length + 1 := by simp
          rw [runsFrom]
          cases inside with
          | true =>
              obtain ⟨hlt, hhom, hmax, _⟩ := hin rfl
              have hleft : blob[left]? = some x := by
                rw [← hhom pre.length (by omega) (le_refl _), hx]
              simp only [if_true]
              by_cases hxy : x = y
              · subst hxy
                cases rest with
                | nil =>
                    have hnone : blob[pre.length + 1 + 1]? = none :=
                      List.getElem?_eq_none (by rw [hlen]; simp)
                    simp only [List.isEmpty_nil, beq_self_eq_true, Bool.and_self, if_true,
                      runsFrom, List.mem_singleton]
                    refine ⟨?_, ?_⟩
                    · intro c hc
                      subst hc
                      refine ⟨by simp only; omega, hmax, ?_⟩
                      simp only
                      rw [hnone, hy]
                      exact fun h => Option.noConfusion h
                    · intro p hp1 hp2 _
                      exact ⟨_, rfl, hp1, by simp only [List.length_nil] at hlen; simp only; omega⟩
                | cons z zs =>
                    simp only [List.isEmpty_cons, Bool.false_and, beq_self_eq_true,
                      Bool.not_true, if_false, Bool.false_eq_true]
                    have := ih (pre ++ [x]) true left hsplit (by
                      intro _
                      rw [hl1]
                      refine ⟨by omega, ?_, hmax, by simp⟩
                      intro j hj1 hj2
                      by_cases hj : j ≤ pre.length
                      · exact hhom j hj1 hj
                      · have : j = pre.length + 1 := by omega
                        rw [this, hy, hleft]) (by intro h; exact absurd h (by decide))
                    rw [hl1] at this
                    simpa using this
              · have hne : (x == y) = false := by simpa using hxy
                simp only [hne, Bool.and_false, Bool.not_false, if_true, if_false,
                  Bool.false_eq_true]
                have hih := ih (pre ++ [x]) false left hsplit
                  (by intro h; exact absurd h (by decide))
                  (by
                    intro _
                    right
                    rw [hl1, Nat.add_sub_cancel, hx, hy]
                    exact fun h => hxy (Option.some.inj h))
                rw [hl1] at hih
                simp only [Bool.false_eq_true, if_false] at hih
                refine ⟨?_, ?_⟩
                · intro c hc
                  rcases List.mem_cons.mp hc with h | h
                  · subst h
                    refine ⟨hlt, hmax, ?_⟩
                    simp only
                    rw [hx, hy]
                    exact fun h => hxy (Option.some.inj h).symm
                  · exact hih.1 c h
                · intro p hp1 hp2 hp3
                  by_cases hp : p + 1 ≤ pre.length
                  · exact ⟨_, List.mem_cons_self _ _, hp1, hp⟩
                  · by_cases hp' : p = pre.length
                    · exfalso
                      rw [hp', hx, hy] at hp3
                      exact hxy (Option.some.inj hp3)
                    · obtain ⟨c, hc, h1, h2⟩ := hih.2 p (by omega) hp2 hp3
                      exact ⟨c, List.mem_cons_of_mem _ hc, h1, h2⟩
          | false =>
              have hpre := hout rfl
              simp only [Bool.false_eq_true, if_false]
              by_cases hxy : x = y
              · subst hxy
                cases rest with
                | nil =>
                    have hnone : blob[pre.length + 1 + 1]? = none :=
                      List.getElem?_eq_none (by rw [hlen]; simp)
                    simp only [List.isEmpty_nil, beq_self_eq_true, Bool.and_self, if_true,
                      runsFrom, List.mem_singleton]
                    refine ⟨?_, ?_⟩
                    · intro c hc
                      subst hc
                      refine ⟨by simp only; omega, ?_, ?_⟩
                      · simp only
                        rcases hpre with h | h
                        · left; exact h
                        · right; exact h
                      · simp only
                        rw [hnone, hy]
                        exact fun h => Option.noConfusion h
                    · intro p hp1 hp2 _
                      exact ⟨_, rfl, hp1, by simp only [List.length_nil] at hlen; simp only; omega⟩
                | cons z zs =>
                    simp only [List.isEmpty_cons, Bool.false_and, beq_self_eq_true,
                      if_false, if_true, Bool.false_eq_true]
                    have := ih (pre ++ [x]) true pre.length hsplit (by
                      intro _
                      rw [hl1]
                      refine ⟨by omega, ?_, hpre, by simp⟩
                      intro j hj1 hj2
                      by_cases hj : j = pre.length
                      · rw [hj]
                      · have : j = pre.length + 1 := by omega
                        rw [this, hy, hx]) (by intro h; exact absurd h (by decide))
                    rw [hl1] at this
                    simpa using this
              · have hne : (x == y) = false := by simpa using hxy
                simp only [hne, Bool.and_false, if_false, Bool.false_eq_true]
                have hih := ih (pre ++ [x]) false left hsplit
                  (by intro h; exact absurd h (by decide))
                  (by
                    intro _
                    right
                    rw [hl1, Nat.add_sub_cancel, hx, hy]
                    exact fun h => hxy (Option.some.inj h))
                rw [hl1] at hih
                simp only [Bool.false_eq_true, if_false] at hih
                refine ⟨hih.1, ?_⟩
                intro p hp1 hp2 hp3
                by_cases hp' : p = pre.length
                · exfalso
                  rw [hp', hx, hy] at hp3
                  exact hxy (Option.some.inj hp3)
                · exact hih.2 p (by omega) hp2 hp3

/-! ## What the pieces of the runs cover -/

theorem tilesAux_covers (last p : Nat) : ∀ (q first : Nat), first + 255 * q ≤ last →
    ((∃ c ∈ tilesAux q first last, c.1 ≤ p ∧ p ≤ c.2) ↔ first ≤ p ∧ p ≤ last) := by
  intro q
  induction q with
  | zero =>
      intro first _
      simp [tilesAux]
  | succ q ih =>
      intro first h
      have := ih (first + 255) (by omega)
      simp only [tilesAux, List.exists_mem_cons_iff] at this ⊢
      rw [this]
      omega

theorem tilesAll_covers (p : Nat) : ∀ (cs : List Chunk), (∀ c ∈ cs, c.1 ≤ c.2) →
    ((∃ c ∈ tilesAll cs, c.1 ≤ p ∧ p ≤ c.2) ↔ ∃ c ∈ cs, c.1 ≤ p ∧ p ≤ c.2) := by
  intro cs
  induction cs with
  | nil => intro _; simp [tilesAll]
  | cons c cs ih =>
      intro h
      have h1 := tilesAux_covers c.2 p ((c.2 - c.1) / 255) c.1
        (by have := h c (by simp); omega)
      have h2 := ih (fun d hd => h d (by simp [hd]))
      simp only [tilesAll, tiles, List.mem_append, List.exists_mem_cons_iff]
      constructor
      · rintro ⟨d, hd | hd, hp⟩
        · left; exact h1.mp ⟨d, hd, hp⟩
        · right; exact h2.mp ⟨d, hd, hp⟩
      · rintro (hp | hp)
        · obtain ⟨d, hd, hp'⟩ := h1.mpr hp
          exact ⟨d, Or.inl hd, hp'⟩
        · obtain ⟨d, hd, hp'⟩ := h2.mpr hp
          exact ⟨d, Or.inr hd, hp'⟩

theorem ChunksOK_mem_hom (blob : List Nat) : ∀ (cs : List Chunk) (lo : Nat),
    ChunksOK blob lo cs →
    ∀ c ∈ cs, lo ≤ c.1 ∧ ∀ j, c.1 ≤ j → j ≤ c.2 → blob[j]? = blob[c.1]? := by
  intro cs
  induction cs with
  | nil => intro lo _ c hc; simp at hc
  | cons d ds ih =>
      intro lo hok c hc
      obtain ⟨h1, h2, _, h4, h5⟩ := hok
      rcases List.mem_cons.mp hc with h | h
      · subst h; exact ⟨h1, h4⟩
      · have := ih _ h5 c h
        exact ⟨by omega, this.2⟩

theorem ChunksOK_pairwise (blob : List Nat) : ∀ (cs : List Chunk) (lo : Nat),
    ChunksOK blob lo cs → cs.Pairwise (fun a b => a.2 < b.1) := by
  intro cs
  induction cs with
  | nil => intro lo _; exact List.Pairwise.nil
  | cons d ds ih =>
      intro lo hok
      obtain ⟨_, _, _, _, h5⟩ := hok
      refine List.Pairwise.cons ?_ (ih _ h5)
      intro b hb
      have := (ChunksOK_mem_hom blob ds _ h5 b hb).1
      omega

/-- The runs recorded for a blob of at least two bytes: ordered, homogeneous, maximal,
and covering every pair of equal adjacent bytes. -/
theorem runsFrom_blob (blob : List Nat) :
    ChunksOK blob 0 (runsFrom 0 false npos blob) ∧
      (∀ c ∈ runsFrom 0 false npos blob,
        c.1 < c.2 ∧ (c.1 = 0 ∨ blob[c.1 - 1]? ≠ blob[c.1]?) ∧ blob[c.2 + 1]? ≠ blob[c.2]?) ∧
      (∀ p, p + 1 < blob.length → blob[p]? = blob[p + 1]? →
        ∃ c ∈ runsFrom 0 false npos blob, c.1 ≤ p ∧ p + 1 ≤ c.2) := by
  have hok := runsFrom_ok blob blob [] false npos (by simp) (by simp)
  have hmax := runsFrom_maximal blob blob [] false npos (by simp)
    (by intro h; exact absurd h (by decide)) (by intro _; left; rfl)
  simp only [List.length_nil, Bool.false_eq_true, if_false] at hok hmax
  exact ⟨hok, hmax.1, fun p hp1 hp2 => hmax.2 p (Nat.zero_le _) hp1 hp2⟩

theorem runs_cover_iff (blob : List Nat) (p : Nat) :
    (∃ c ∈ runsFrom 0 false npos blob, c.1 ≤ p ∧ p ≤ c.2) ↔ inRepeatedRegion blob p := by
  obtain ⟨hok, hmax, hcov⟩ := runsFrom_blob blob
  constructor
  · rintro ⟨c, hc, h1, h2⟩
    have hb := (ChunksOK_mem blob _ 0 hok c hc).2
    have hhom := (ChunksOK_mem_hom blob _ 0 hok c hc).2
    have hlt := (hmax c hc).1
    by_cases hp : p < c.2
    · left
      exact ⟨by omega, by rw [hhom p h1 h2, hhom (p + 1) (by omega) (by omega)]⟩
    · right
      refine ⟨by omega, by omega, ?_⟩
      rw [hhom p h1 h2, hhom (p - 1) (by omega) (by omega)]
  · rintro (⟨h1, h2⟩ | ⟨h0, h1, h2⟩)
    · obtain ⟨c, hc, k1, k2⟩ := hcov p h1 h2
      exact ⟨c, hc, k1, by omega⟩
    · obtain ⟨c, hc, k1, k2⟩ := hcov (p - 1) (by omega)
        (by rw [show p - 1 + 1 = p by omega]; exact h2)
      exact ⟨c, hc, by omega, by omega⟩

/-- C12 (chunk analyzer contract): for a blob of at least two bytes the scan returns a
run list `recorded` and the splitting pass returns `final` such that: the runs of
`final` are ordered and pairwise disjoint; every one is within bounds, at most 255 bytes
long and made of one repeated byte; a position is in a run of `final` exactly when its
byte equals the byte before or after it; every run of `recorded` has at least two bytes
and is maximal on both sides, so two touching runs never have the same byte value. -/
theorem chunk_analyzer_contract (blob : List Nat) (hN : 2 ≤ blob.length)
    (hsz : blob.length < SIZE_RANGE) :
    ∃ recorded final,
      recordChunks blob blob.length = .ok recorded ∧
      breakUpLoop blob.length 0 recorded = .ok final ∧
      final.Pairwise (fun a b => a.2 < b.1) ∧
      (∀ c ∈ final, c.1 ≤ c.2 ∧ c.2 < blob.length ∧ c.2 - c.1 + 1 ≤ 255 ∧
        ∀ j, c.1 ≤ j → j ≤ c.2 → blob[j]? = blob[c.1]?) ∧
      (∀ p, (∃ c ∈ final, c.1 ≤ p ∧ p ≤ c.2) ↔ inRepeatedRegion blob p) ∧
      (∀ c ∈ recorded,
        c.1 < c.2 ∧ (c.1 = 0 ∨ blob[c.1 - 1]? ≠ blob[c.1]?) ∧ blob[c.2 + 1]? ≠ blob[c.2]?) ∧
      (∀ c ∈ recorded, ∀ d ∈ recorded, d.1 = c.2 + 1 → blob[c.2]? ≠ blob[d.1]?) := by
  have hne : blob ≠ [] := by
    intro h; rw [h] at hN; simp at hN
  obtain ⟨hok, hmax, _⟩ := runsFrom_blob blob
  obtain ⟨t1, t2, t3⟩ := tilesAll_ok blob _ 0 (by omega) hok
  have hvalid : ∀ c ∈ runsFrom 0 false npos blob, c.1 ≤ c.2 ∧ c.2 + 1 < SIZE_RANGE := by
    intro c hc
    have := ChunksOK_mem blob _ 0 hok c hc
    exact ⟨this.1, by omega⟩
  have hsplit := breakUpLoop_eq blob.length [] (runsFrom 0 false npos blob) hvalid (by omega)
  simp only [List.length_nil, List.nil_append] at hsplit
  refine ⟨runsFrom 0 false npos blob, tilesAll (runsFrom 0 false npos blob),
    recordChunks_eq blob hne hsz, hsplit, ChunksOK_pairwise blob _ 0 t1, ?_, ?_, hmax, ?_⟩
  · intro c hc
    have h1 := ChunksOK_mem blob _ 0 t1 c hc
    have h2 := (ChunksOK_mem_hom blob _ 0 t1 c hc).2
    have h3 := t2 c hc
    exact ⟨h1.1, h1.2, by omega, h2⟩
  · intro p
    rw [tilesAll_covers p _ (fun c hc => (hvalid c hc).1)]
    exact runs_cover_iff blob p
  · intro c hc d _ hd
    rw [hd]
    exact fun h => (hmax c hc).2.2 h.symm

theorem chunk_analyzer_contract_witness :
    2 ≤ [1, 5, 5, 2, 2, 2, 3, 4, 4].length ∧ [1, 5, 5, 2, 2, 2, 3, 4, 4].length < SIZE_RANGE ∧
      recordChunks [1, 5, 5, 2, 2, 2, 3, 4, 4] 9 = .ok [(1, 2), (3, 5), (7, 8)] ∧
      ∃ recorded final,
        recordChunks [1, 5, 5, 2, 2, 2, 3, 4, 4] [1, 5, 5, 2, 2, 2, 3, 4, 4].length
          = .ok recorded ∧
        breakUpLoop [1, 5, 5, 2, 2, 2, 3, 4, 4].length 0 recorded = .ok final ∧
        final.Pairwise (fun a b => a.2 < b.1) ∧
        (∀ c ∈ final, c.1 ≤ c.2 ∧ c.2 < [1, 5, 5, 2, 2, 2, 3, 4, 4].length ∧
          c.2 - c.1 + 1 ≤ 255 ∧
          ∀ j, c.1 ≤ j → j ≤ c.2 →
            [1, 5, 5, 2, 2, 2, 3, 4, 4][j]? = [1, 5, 5, 2, 2, 2, 3, 4, 4][c.1]?) ∧
        (∀ p, (∃ c ∈ final, c.1 ≤ p ∧ p ≤ c.2) ↔
          inRepeatedRegion [1, 5, 5, 2, 2, 2, 3, 4, 4] p) ∧
        (∀ c ∈ recorded,
          c.1 < c.2 ∧
          (c.1 = 0 ∨ [1, 5, 5, 2, 2, 2, 3, 4, 4][c.1 - 1]? ≠ [1, 5, 5, 2, 2, 2, 3, 4, 4][c.1]?) ∧
          [1, 5, 5, 2, 2, 2, 3, 4, 4][c.2 + 1]? ≠ [1, 5, 5, 2, 2, 2, 3, 4, 4][c.2]?) ∧
        (∀ c ∈ recorded, ∀ d ∈ recorded, d.1 = c.2 + 1 →
          [1, 5, 5, 2, 2, 2, 3, 4, 4][c.2]? ≠ [1, 5, 5, 2, 2, 2, 3, 4, 4][d.1]?) :=
  ⟨by decide, by decide, by decide,
    chunk_analyzer_contract [1, 5, 5, 2, 2, 2, 3, 4, 4] (by decide) (by decide)⟩

/-! ## The record loop as iterations of its body -/

/-- The loop function `emitLoop` runs `emitStep` as its body. -/
theorem emitLoop_succ (blob : List Nat) (blobSize : Nat) (chunks : List Chunk)
    (budget pos : Nat) (cur : Option Nat) :
    emitLoop blob blobSize chunks (budget + 1) pos cur =
      if pos < blobSize then do
        let (bytes, pos', cur') ← emitStep blob blobSize chunks pos cur
        let rest ← emitLoop blob blobSize chunks budget pos' cur'
        pure (bytes ++ rest)
      else pure [] := by
  rw [emitLoop]
  by_cases hlt : pos < blobSize
  · rw [if_pos hlt, if_pos hlt]
    unfold emitStep
    cases cur with
    | none =>
        simp only [bind, Except.bind, pure, Except.pure]
        have hnz : (npos == 0) = false := by decide
        simp only [hnz, Bool.false_eq_true, if_false]
        cases writeLiteral blob pos (min (min npos (blobSize - pos)) UINT8_MAX) 0 with
        | error e => rfl
        | ok lit =>
            simp only
            cases emitLoop blob blobSize chunks budget
              (pos + min (min npos (blobSize - pos)) UINT8_MAX) none <;> rfl
    | some k =>
        cases hk : chunks[k]? with
        | none => simp only [hk, bind, Except.bind]
        | some c =>
            simp only [hk, bind, Except.bind, pure, Except.pure]
            by_cases hd : (subSize c.1 pos == 0) = true
            · simp only [hd, if_true]
              cases readByte blob pos with
              | error e => rfl
              | ok v =>
                  simp only
                  cases emitLoop blob blobSize chunks budget
                    (pos + (subSize c.2 c.1 + 1) % SIZE_RANGE)
                    (if (k + 1 == chunks.length) = true then none else some (k + 1)) <;> rfl
            · simp only [hd, if_false, Bool.false_eq_true]
              cases writeLiteral blob pos
                (min (min (subSize c.1 pos) (blobSize - pos)) UINT8_MAX) 0 with
              | error e => rfl
              | ok lit =>
                  simp only
                  cases emitLoop blob blobSize chunks budget
                    (pos + min (min (subSize c.1 pos) (blobSize - pos)) UINT8_MAX)
                    (some k) <;> rfl
  · rw [if_neg hlt, if_neg hlt]

theorem emitStep_nil (blob : List Nat) (chunks : List Chunk) (pos : Nat)
    (hlt : pos < blob.length) :
    emitStep blob blob.length chunks pos none
      = .ok (0 :: min (blob.length - pos) 255 ::
          (blob.drop pos).take (min (blob.length - pos) 255),
          pos + min (blob.length - pos) 255, none) := by
  have hmin : min (min npos (blob.length - pos)) UINT8_MAX = min (blob.length - pos) 255 := by
    unfold npos UINT8_MAX SIZE_RANGE; omega
  have hmod : min (blob.length - pos) 255 % 256 = min (blob.length - pos) 255 := by omega
  have hnz : (npos == 0) = false := by decide
  have hw := writeLiteral_eq blob pos (min (blob.length - pos) 255) 0 (by omega)
  rw [Nat.add_zero] at hw
  unfold emitStep
  simp only [bind, Except.bind, pure, Except.pure, hnz, Bool.false_eq_true, if_false, hmin,
    hw, hmod]

theorem emitStep_at (blob : List Nat) (done cs : List Chunk) (c : Chunk) (pos v : Nat)
    (hv : blob[pos]? = some v) (hc1 : c.1 = pos) (hc2 : c.1 ≤ c.2)
    (hsz : c.2 + 1 < SIZE_RANGE) :
    emitStep blob blob.length (done ++ c :: cs) pos (some done.length)
      = .ok ([(c.2 - c.1 + 1) % 256, v], c.2 + 1,
          if cs.isEmpty then none else some (done.length + 1)) := by
  obtain ⟨hlt, hv'⟩ := List.getElem?_eq_some.mp hv
  have hk : (done ++ c :: cs)[done.length]? = some c := by
    rw [List.getElem?_append_right (le_refl _)]; simp
  have hd : subSize c.1 pos = 0 := by
    rw [subSize_eq _ _ (by omega) (by omega)]; omega
  have hnext : pos + (c.2 - c.1 + 1) = c.2 + 1 := by omega
  have hcur : (done.length + 1 == (done ++ c :: cs).length) = cs.isEmpty := by
    cases cs <;> simp
  unfold emitStep
  simp only [hk, bind, Except.bind, pure, Except.pure, hd, beq_self_eq_true, if_true,
    chunkLen_eq c hc2 hsz, readByte_eq blob pos hlt, hv', hnext, hcur]

theorem emitStep_before (blob : List Nat) (done cs : List Chunk) (c : Chunk) (pos : Nat)
    (hsz : blob.length < SIZE_RANGE) (hc1 : pos < c.1) (hc2 : c.1 < blob.length) :
    emitStep blob blob.length (done ++ c :: cs) pos (some done.length)
      = .ok (0 :: min (c.1 - pos) 255 :: (blob.drop pos).take (min (c.1 - pos) 255),
          pos + min (c.1 - pos) 255, some done.length) := by
  have hk : (done ++ c :: cs)[done.length]? = some c := by
    rw [List.getElem?_append_right (le_refl _)]; simp
  have hd : subSize c.1 pos = c.1 - pos := subSize_eq _ _ (by omega) (by omega)
  have hmin : min (min (c.1 - pos) (blob.length - pos)) UINT8_MAX = min (c.1 - pos) 255 := by
    unfold UINT8_MAX; omega
  have hmod : min (c.1 - pos) 255 % 256 = min (c.1 - pos) 255 := by omega
  have hnz : (c.1 - pos == 0) = false := by
    simp only [beq_eq_false_iff_ne, ne_eq]; omega
  have hw := writeLiteral_eq blob pos (min (c.1 - pos) 255) 0 (by omega)
  rw [Nat.add_zero] at hw
  unfold emitStep
  simp only [hk, bind, Except.bind, pure, Except.pure, hd, hnz, Bool.false_eq_true, if_false,
    hmin, hw, hmod]

/-- One iteration entered in a state that satisfies the loop invariant: it ends without
fault, moves `pos` forward by the count or the length it writes (at least 1), keeps
`pos` within the blob, and keeps the invariant. -/
theorem emitStep_inv (blob : List Nat) (chunks : List Chunk) (pos : Nat) (cur : Option Nat)
    (hsz : blob.length < SIZE_RANGE) (hinv : EmitInv blob chunks pos cur)
    (hlt : pos < blob.length) :
    ∃ bytes pos' cur', emitStep blob blob.length chunks pos cur = .ok (bytes, pos', cur') ∧
      pos < pos' ∧ pos' ≤ blob.length ∧ EmitInv blob chunks pos' cur' ∧
      ((∃ v, bytes = [pos' - pos, v]) ∨
        (∃ lit, bytes = 0 :: (pos' - pos) :: lit ∧ lit.length = pos' - pos)) := by
  obtain ⟨done, todo, hch, hcur, hdone, hok, hshort, hle⟩ := hinv
  subst hch
  cases todo with
  | nil =>
      simp only [List.isEmpty_nil, if_true] at hcur
      subst hcur
      refine ⟨_, _, _, emitStep_nil blob _ pos hlt, by omega, by omega, ?_, ?_⟩
      · exact ⟨done, [], rfl, rfl, fun c hc => by have := hdone c hc; omega, trivial,
          hshort, by omega⟩
      · right
        refine ⟨(blob.drop pos).take (min (blob.length - pos) 255), ?_, ?_⟩
        · rw [show pos + min (blob.length - pos) 255 - pos = min (blob.length - pos) 255
            by omega]
        · rw [List.length_take, List.length_drop]; omega
  | cons c cs =>
      simp only [List.isEmpty_cons, Bool.false_eq_true, if_false] at hcur
      subst hcur
      obtain ⟨hc1, hc2, hc3, hc4, hc5⟩ := hok
      have hcs : c.2 < c.1 + 255 := hshort c (by simp)
      by_cases hat : c.1 = pos
      · obtain ⟨v, hv⟩ : ∃ v, blob[pos]? = some v := ⟨blob[pos], List.getElem?_eq_getElem hlt⟩
        refine ⟨_, _, _, emitStep_at blob done cs c pos v hv hat hc2 (by omega), by omega,
          by omega, ?_, ?_⟩
        · refine ⟨done ++ [c], cs, by simp, by simp, ?_, hc5,
            fun d hd => hshort d (by simp [hd]), by omega⟩
          intro d hd
          rcases List.mem_append.mp hd with h | h
          · have := hdone d h; omega
          · simp only [List.mem_singleton] at h
            subst h; omega
        · left
          exact ⟨v, by rw [Nat.mod_eq_of_lt (by omega),
            show c.2 + 1 - pos = c.2 - c.1 + 1 by omega]⟩
      · refine ⟨_, _, _, emitStep_before blob done cs c pos hsz (by omega) (by omega),
          by omega, by omega, ?_, ?_⟩
        · exact ⟨done, c :: cs, rfl, by simp, fun d hd => by have := hdone d hd; omega,
            ⟨by omega, hc2, hc3, hc4, hc5⟩, hshort, by omega⟩
        · right
          refine ⟨(blob.drop pos).take (min (c.1 - pos) 255), ?_, ?_⟩
          · rw [show pos + min (c.1 - pos) 255 - pos = min (c.1 - pos) 255 by omega]
          · rw [List.length_take, List.length_drop]; omega

theorem EmitInv_start (blob : List Nat) (chunks : List Chunk) (hok : ChunksOK blob 0 chunks)
    (hshort : ChunksShort chunks) :
    EmitInv blob chunks 0 (if chunks.isEmpty then none else some 0) :=
  ⟨[], chunks, rfl, rfl, fun c hc => by simp at hc, hok, hshort, Nat.zero_le _⟩

theorem EmitReach_inv (blob : List Nat) (chunks : List Chunk)
    (hsz : blob.length < SIZE_RANGE) (hok : ChunksOK blob 0 chunks)
    (hshort : ChunksShort chunks) (pos : Nat) (cur : Option Nat)
    (h : EmitReach blob blob.length chunks pos cur) : EmitInv blob chunks pos cur := by
  induction h with
  | start => exact EmitInv_start blob chunks hok hshort
  | step _ hlt hstep ih =>
      obtain ⟨bytes, pos', cur', h1, _, _, h4, _⟩ := emitStep_inv blob chunks _ _ hsz ih hlt
      rw [h1] at hstep
      simp only [Except.ok.injEq, Prod.mk.injEq] at hstep
      rw [← hstep.2.1, ← hstep.2.2]
      exact h4

theorem emitIterations_inv (blob : List Nat) (chunks : List Chunk)
    (hsz : blob.length < SIZE_RANGE) (budget : Nat) : ∀ (pos : Nat) (cur : Option Nat),
    EmitInv blob chunks pos cur → blob.length - pos ≤ budget →
    ∃ n, n ≤ blob.length - pos ∧
      emitIterations blob blob.length chunks budget pos cur = .ok (n, blob.length) := by
  induction budget with
  | zero =>
      intro pos cur hinv hb
      have hle := hinv.choose_spec.choose_spec.2.2.2.2.2
      refine ⟨0, Nat.zero_le _, ?_⟩
      rw [emitIterations, if_neg (by omega)]
      congr 2
      omega
  | succ budget ih =>
      intro pos cur hinv hb
      have hle := hinv.choose_spec.choose_spec.2.2.2.2.2
      by_cases hlt : pos < blob.length
      · obtain ⟨bytes, pos', cur', h1, h2, h3, h4, _⟩ :=
          emitStep_inv blob chunks pos cur hsz hinv hlt
        obtain ⟨n, hn, hrun⟩ := ih pos' cur' h4 (by omega)
        refine ⟨n + 1, by omega, ?_⟩
        rw [emitIterations, if_pos hlt, h1]
        simp only [bind, Except.bind, hrun, pure, Except.pure]
      · refine ⟨0, Nat.zero_le _, ?_⟩
        rw [emitIterations, if_neg hlt]
        simp only [pure, Except.pure]
        congr 2
        omega

/-! ## The claims about the record loop -/

/-- What the analyzer (scan, then splitting pass) returns when it returns: the blob is
not empty and the run list is the list of the pieces of the recorded runs, which is
ordered, homogeneous and has no run longer than 255 bytes. -/
theorem analyzer_result (blob : List Nat) (recorded chunks : List Chunk)
    (hsz : blob.length < SIZE_RANGE)
    (h1 : recordChunks blob blob.length = .ok recorded)
    (h2 : breakUpLoop blob.length 0 recorded = .ok chunks) :
    blob ≠ [] ∧ recorded = runsFrom 0 false npos blob ∧ chunks = tilesAll recorded ∧
      ChunksOK blob 0 chunks ∧ ChunksShort chunks := by
  have hne : blob ≠ [] := by
    intro h
    subst h
    rw [show ([] : List Nat).length = 0 from rfl, recordChunks_empty] at h1
    exact Except.noConfusion h1
  rw [recordChunks_eq blob hne hsz] at h1
  have hrec : recorded = runsFrom 0 false npos blob := (Except.ok.inj h1).symm
  subst hrec
  obtain ⟨hok, _, _⟩ := runsFrom_blob blob
  obtain ⟨t1, t2, t3⟩ := tilesAll_ok blob _ 0 (by omega) hok
  have hsplit := breakUpLoop_eq blob.length [] (runsFrom 0 false npos blob)
    (fun c hc => by
      have := ChunksOK_mem blob _ 0 hok c hc
      exact ⟨this.1, by omega⟩) (by omega)
  simp only [List.length_nil, List.nil_append] at hsplit
  rw [hsplit] at h2
  have hch : chunks = tilesAll (runsFrom 0 false npos blob) := (Except.ok.inj h2).symm
  subst hch
  exact ⟨hne, rfl, rfl, t1, t2⟩

theorem readByte_ok_iff (buf : List Nat) (i : Nat) :
    (∃ b, readByte buf i = .ok b) ↔ i < buf.length := by
  constructor
  · rintro ⟨b, h⟩
    by_contra hge
    unfold readByte at h
    rw [List.getElem?_eq_none (by omega)] at h
    exact Except.noConfusion h
  · intro h
    exact ⟨buf[i], readByte_eq buf i h⟩

/-- C15 (encoder termination): with the run list the analyzer returned for the blob,
every state in which the record loop tests its condition has `pos ≤ N`; an iteration
entered with `pos < N` ends without fault and moves `pos` forward, by the count it
writes in a homogeneous record or by the length it writes in a heterogeneous record,
to a value that is still at most `N`; and the loop ends after at most `N` iterations
with `pos = N`. -/
theorem emission_terminates (blob : List Nat) (recorded chunks : List Chunk)
    (hsz : blob.length < SIZE_RANGE)
    (h1 : recordChunks blob blob.length = .ok recorded)
    (h2 : breakUpLoop blob.length 0 recorded = .ok chunks) :
    (∀ pos cur, EmitReach blob blob.length chunks pos cur →
      pos ≤ blob.length ∧
      (pos < blob.length →
        ∃ bytes pos' cur', emitStep blob blob.length chunks pos cur = .ok (bytes, pos', cur') ∧
          pos < pos' ∧ pos' ≤ blob.length ∧
          ((∃ v, bytes = [pos' - pos, v]) ∨
            (∃ lit, bytes = 0 :: (pos' - pos) :: lit ∧ lit.length = pos' - pos)))) ∧
      ∃ n, n ≤ blob.length ∧
        emitIterations blob blob.length chunks blob.length 0
          (if chunks.isEmpty then none else some 0) = .ok (n, blob.length) := by
  obtain ⟨_, _, _, hok, hshort⟩ := analyzer_result blob recorded chunks hsz h1 h2
  constructor
  · intro pos cur hreach
    have hinv := EmitReach_inv blob chunks hsz hok hshort pos cur hreach
    refine ⟨hinv.choose_spec.choose_spec.2.2.2.2.2, ?_⟩
    intro hlt
    obtain ⟨bytes, pos', cur', k1, k2, k3, _, k5⟩ := emitStep_inv blob chunks pos cur hsz hinv hlt
    exact ⟨bytes, pos', cur', k1, k2, k3, k5⟩
  · obtain ⟨n, hn, hrun⟩ := emitIterations_inv blob chunks hsz blob.length 0 _
      (EmitInv_start blob chunks hok hshort) (by omega)
    exact ⟨n, by omega, hrun⟩

theorem emission_terminates_witness :
    [1, 5, 5, 2, 2, 2, 3, 4, 4].length < SIZE_RANGE ∧
      recordChunks [1, 5, 5, 2, 2, 2, 3, 4, 4] [1, 5, 5, 2, 2, 2, 3, 4, 4].length
        = .ok [(1, 2), (3, 5), (7, 8)] ∧
      breakUpLoop [1, 5, 5, 2, 2, 2, 3, 4, 4].length 0 [(1, 2), (3, 5), (7, 8)]
        = .ok [(1, 2), (3, 5), (7, 8)] ∧
      emitIterations [1, 5, 5, 2, 2, 2, 3, 4, 4] 9 [(1, 2), (3, 5), (7, 8)] 9 0 (some 0)
        = .ok (5, 9) ∧
      ∃ n, n ≤ [1, 5, 5, 2, 2, 2, 3, 4, 4].length ∧
        emitIterations [1, 5, 5, 2, 2, 2, 3, 4, 4] [1, 5, 5, 2, 2, 2, 3, 4, 4].length
          [(1, 2), (3, 5), (7, 8)] [1, 5, 5, 2, 2, 2, 3, 4, 4].length 0
          (if [((1 : Nat), (2 : Nat)), (3, 5), (7, 8)].isEmpty then none else some 0)
          = .ok (n, [1, 5, 5, 2, 2, 2, 3, 4, 4].length) :=
  ⟨by decide, by decide, by decide, by decide,
    (emission_terminates [1, 5, 5, 2, 2, 2, 3, 4, 4] [(1, 2), (3, 5), (7, 8)]
      [(1, 2), (3, 5), (7, 8)] (by decide) (by decide) (by decide)).2⟩

/-- C17 (encoder index safety): for a blob of `N ≥ 1` bytes the scan bound `N - 1` does
not wrap, so the scan reads `blob[i]` and `blob[i + 1]` only for `i + 1 < N`, and the
analyzer returns. In every state in which the record loop tests its condition, a
non-null cursor points at a run of the list whose start is at least `pos` (the `size_t`
subtraction `first - pos` is the true difference), the cursor is null exactly when every
run ends before `pos`, and an iteration entered with `pos < N` ends without reading
outside the blob. A read `blob[i]` of the model succeeds exactly when `i < N`. -/
theorem encoder_index_safety (blob : List Nat) (hN : 1 ≤ blob.length)
    (hsz : blob.length < SIZE_RANGE) :
    subSize blob.length 1 = blob.length - 1 ∧
      (∀ i, (∃ b, readByte blob i = .ok b) ↔ i < blob.length) ∧
      ∃ recorded chunks,
        recordChunks blob blob.length = .ok recorded ∧
        breakUpLoop blob.length 0 recorded = .ok chunks ∧
        ∀ pos cur, EmitReach blob blob.length chunks pos cur →
          (∀ k, cur = some k →
            ∃ c, chunks[k]? = some c ∧ pos ≤ c.1 ∧ subSize c.1 pos = c.1 - pos) ∧
          (cur = none ↔ ∀ c ∈ chunks, c.2 < pos) ∧
          (pos < blob.length →
            ∃ step, emitStep blob blob.length chunks pos cur = .ok step) := by
  have hne : blob ≠ [] := by
    intro h; rw [h] at hN; simp at hN
  obtain ⟨hok, _, _⟩ := runsFrom_blob blob
  obtain ⟨t1, t2, t3⟩ := tilesAll_ok blob _ 0 (by omega) hok
  have hsplit := breakUpLoop_eq blob.length [] (runsFrom 0 false npos blob)
    (fun c hc => by
      have := ChunksOK_mem blob _ 0 hok c hc
      exact ⟨this.1, by omega⟩) (by omega)
  simp only [List.length_nil, List.nil_append] at hsplit
  refine ⟨subSize_eq _ _ hN hsz, readByte_ok_iff blob, _, _, recordChunks_eq blob hne hsz,
    hsplit, ?_⟩
  intro pos cur hreach
  have hinv := EmitReach_inv blob _ hsz t1 t2 pos cur hreach
  refine ⟨?_, ?_, ?_⟩
  · intro k hk
    obtain ⟨done, todo, hch, hcur, hdone, hok', _, hle⟩ := hinv
    cases todo with
    | nil => rw [hk] at hcur; simp at hcur
    | cons c cs =>
        rw [hk] at hcur
        simp only [List.isEmpty_cons, Bool.false_eq_true, if_false, Option.some.injEq] at hcur
        obtain ⟨hc1, hc2, hc3, _, _⟩ := hok'
        refine ⟨c, ?_, hc1, subSize_eq _ _ hc1 (by omega)⟩
        rw [hch, hcur, List.getElem?_append_right (le_refl _)]
        simp
  · obtain ⟨done, todo, hch, hcur, hdone, hok', _, hle⟩ := hinv
    cases todo with
    | nil =>
        simp only [List.isEmpty_nil, if_true] at hcur
        rw [hch, List.append_nil]
        exact ⟨fun _ => hdone, fun _ => hcur⟩
    | cons c cs =>
        simp only [List.isEmpty_cons, Bool.false_eq_true, if_false] at hcur
        obtain ⟨hc1, hc2, _, _, _⟩ := hok'
        constructor
        · intro h; rw [h] at hcur; exact Option.noConfusion hcur
        · intro h
          have := h c (by rw [hch]; simp)
          omega
  · intro hlt
    obtain ⟨bytes, pos', cur', k1, _⟩ := emitStep_inv blob _ pos cur hsz hinv hlt
    exact ⟨_, k1⟩

theorem encoder_index_safety_witness :
    1 ≤ [5, 5, 9].length ∧ [5, 5, 9].length < SIZE_RANGE ∧
      (subSize [5, 5, 9].length 1 = [5, 5, 9].length - 1 ∧
      (∀ i, (∃ b, readByte [5, 5, 9] i = .ok b) ↔ i < [5, 5, 9].length) ∧
      ∃ recorded chunks,
        recordChunks [5, 5, 9] [5, 5, 9].length = .ok recorded ∧
        breakUpLoop [5, 5, 9].length 0 recorded = .ok chunks ∧
        ∀ pos cur, EmitReach [5, 5, 9] [5, 5, 9].length chunks pos cur →
          (∀ k, cur = some k →
            ∃ c, chunks[k]? = some c ∧ pos ≤ c.1 ∧ subSize c.1 pos = c.1 - pos) ∧
          (cur = none ↔ ∀ c ∈ chunks, c.2 < pos) ∧
          (pos < [5, 5, 9].length →
            ∃ step, emitStep [5, 5, 9] [5, 5, 9].length chunks pos cur = .ok step)) :=
  ⟨by decide, by decide, encoder_index_safety [5, 5, 9] (by decide) (by decide)⟩

/-! ## Heterogeneous records lie between the runs -/

theorem noAdjacentEqual_of_getElem? : ∀ (l : List Nat),
    (∀ i, i + 1 < l.length → l[i]? ≠ l[i + 1]?) → noAdjacentEqual l = true := by
  intro l
  induction l with
  | nil => intro _; rfl
  | cons x tail ih =>
      intro h
      cases tail with
      | nil => rfl
      | cons y rest =>
          have h0 := h 0 (by simp)
          simp only [List.getElem?_cons_zero, List.getElem?_cons_succ, ne_eq,
            Option.some.injEq] at h0
          simp only [noAdjacentEqual, Bool.and_eq_true, bne_iff_ne, ne_eq]
          refine ⟨h0, ih ?_⟩
          intro i hi
          have := h (i + 1) (by simp only [List.length_cons] at hi ⊢; omega)
          simpa using this

theorem noAdjacentEqual_take_drop (blob : List Nat) (pos len : Nat)
    (h : ∀ p, pos ≤ p → p + 1 < pos + len → p + 1 < blob.length → blob[p]? ≠ blob[p + 1]?) :
    noAdjacentEqual ((blob.drop pos).take len) = true := by
  apply noAdjacentEqual_of_getElem?
  intro i hi
  rw [List.length_take, List.length_drop] at hi
  rw [List.getElem?_take_of_lt (by omega), List.getElem?_take_of_lt (by omega),
    List.getElem?_drop, List.getElem?_drop]
  exact h (pos + i) (by omega) (by omega) (by omega)

theorem emitLoop_literals (blob : List Nat) (chunks : List Chunk)
    (hsz : blob.length < SIZE_RANGE) (budget : Nat) :
    ∀ (pos : Nat) (done todo : List Chunk), chunks = done ++ todo →
      ChunksOK blob pos todo → ChunksShort todo → pos ≤ blob.length →
      blob.length - pos ≤ budget →
      (∀ p, pos ≤ p → p + 1 < blob.length → blob[p]? = blob[p + 1]? →
        ∃ c ∈ todo, c.1 ≤ p ∧ p ≤ c.2) →
      ∃ recs : List Record,
        emitLoop blob blob.length chunks budget pos
            (if todo.isEmpty then none else some done.length) = .ok (wireBytes recs) ∧
          (∀ r ∈ recs, r.WellFormed) ∧
          (∀ l, Record.hetero l ∈ recs → noAdjacentEqual l = true) := by
  induction budget with
  | zero =>
      intro pos done todo _ _ _ hpos hb _
      exact ⟨[], emitLoop_done blob chunks 0 pos _ (by omega), by simp, by simp⟩
  | succ budget ih =>
      intro pos done todo hch hok hshort hpos hb hpairs
      by_cases hend : blob.length ≤ pos
      · exact ⟨[], emitLoop_done blob chunks _ pos _ hend, by simp, by simp⟩
      · have hlt : pos < blob.length := by omega
        cases todo with
        | nil =>
            obtain ⟨recs, h1, h2, h3⟩ := ih (pos + min (blob.length - pos) 255) done [] hch
              trivial hshort (by omega) (by omega)
              (fun p hp1 hp2 hp3 => hpairs p (by omega) hp2 hp3)
            simp only [List.isEmpty_nil, if_true] at h1 ⊢
            refine ⟨Record.hetero ((blob.drop pos).take (min (blob.length - pos) 255)) :: recs,
              ?_, ?_, ?_⟩
            · rw [emitLoop_hetero_none blob chunks budget pos _ hlt h1]
              simp [wireBytes, Record.wire]
            · intro r hr
              rcases List.mem_cons.mp hr with h | h
              · subst h
                simp only [Record.WellFormed, List.length_take, List.length_drop]
                omega
              · exact h2 r h
            · intro l hl
              rcases List.mem_cons.mp hl with h | h
              · rw [Record.hetero.injEq] at h
                subst h
                apply noAdjacentEqual_take_drop
                intro p hp1 _ hp3 heq
                obtain ⟨c, hc, _⟩ := hpairs p hp1 hp3 heq
                simp at hc
              · exact h3 l h
        | cons c cs =>
            obtain ⟨hc1, hc2, hc3, hc4, hc5⟩ := hok
            have hk : chunks[done.length]? = some c := by
              rw [hch, List.getElem?_append_right (le_refl _)]; simp
            have hcs : c.2 < c.1 + 255 := hshort c (by simp)
            simp only [List.isEmpty_cons, Bool.false_eq_true, if_false]
            by_cases hat : c.1 = pos
            · have hcur : (if done.length + 1 == chunks.length then none
                  else some (done.length + 1))
                  = (if cs.isEmpty then none else some (done ++ [c]).length) := by
                rw [hch]
                cases cs <;> simp
              obtain ⟨recs, h1, h2, h3⟩ := ih (c.2 + 1) (done ++ [c]) cs (by simp [hch]) hc5
                (fun d hd => hshort d (by simp [hd])) (by omega) (by omega)
                (by
                  intro p hp1 hp2 hp3
                  obtain ⟨d, hd, k1, k2⟩ := hpairs p (by omega) hp2 hp3
                  rcases List.mem_cons.mp hd with h | h
                  · subst h; omega
                  · exact ⟨d, h, k1, k2⟩)
              obtain ⟨v, hv⟩ : ∃ v, blob[pos]? = some v :=
                ⟨blob[pos], List.getElem?_eq_getElem hlt⟩
              rw [← hcur] at h1
              refine ⟨Record.homog (c.2 - c.1 + 1) v :: recs, ?_, ?_, ?_⟩
              · rw [emitLoop_homog blob chunks budget pos done.length v c _ hv hk hat hc2
                  (by omega) h1]
                simp only [wireBytes, Record.wire, List.cons_append, List.nil_append]
                rw [Nat.mod_eq_of_lt (by omega)]
              · intro r hr
                rcases List.mem_cons.mp hr with h | h
                · subst h
                  simp only [Record.WellFormed]
                  omega
                · exact h2 r h
              · intro l hl
                rcases List.mem_cons.mp hl with h | h
                · exact Record.noConfusion h
                · exact h3 l h
            · have hbefore : pos < c.1 := by omega
              obtain ⟨recs, h1, h2, h3⟩ := ih (pos + min (c.1 - pos) 255) done (c :: cs) hch
                ⟨by omega, hc2, hc3, hc4, hc5⟩ hshort (by omega) (by omega)
                (fun p hp1 hp2 hp3 => hpairs p (by omega) hp2 hp3)
              simp only [List.isEmpty_cons, Bool.false_eq_true, if_false] at h1
              refine ⟨Record.hetero ((blob.drop pos).take (min (c.1 - pos) 255)) :: recs,
                ?_, ?_, ?_⟩
              · rw [emitLoop_hetero_some blob chunks budget pos done.length c _ hlt hsz hk
                  hbefore (by omega) h1]
                simp [wireBytes, Record.wire]
                omega
              · intro r hr
                rcases List.mem_cons.mp hr with h | h
                · subst h
                  simp only [Record.WellFormed, List.length_take, List.length_drop]
                  omega
                · exact h2 r h
              · intro l hl
                rcases List.mem_cons.mp hl with h | h
                · rw [Record.hetero.injEq] at h
                  subst h
                  apply noAdjacentEqual_take_drop
                  intro p hp1 hp2 hp3 heq
                  obtain ⟨d, hd, k1, _⟩ := hpairs p hp1 hp3 heq
                  have hlo : c.1 ≤ d.1 := by
                    rcases List.mem_cons.mp hd with h | h
                    · rw [h]
                    · have := (ChunksOK_mem_hom blob cs _ hc5 d h).1
                      omega
                  omega
                · exact h3 l h

/-- C16 (heterogeneous records hold only non-repeating data): for every blob, what
`encode` writes after the eight size bytes reads back as records of the wire format, and
in every heterogeneous record among them no two adjacent literal bytes are equal; and
for a non-empty blob `encode` does return once the eight size bytes could be read. -/
theorem hetero_records_nonrepeating (mem : Nat → Option Nat) (blob : List Nat)
    (hsz : blob.length < SIZE_RANGE) :
    (∀ out, encode mem blob = .ok out →
      ∃ recs, parseRecords out.length (out.drop 8) = some recs ∧ wireBytes recs = out.drop 8 ∧
        ∀ l, Record.hetero l ∈ recs → noAdjacentEqual l = true) ∧
    (blob ≠ [] → ∀ sizeBytes, writeSizeBytes mem blob.length SIZEOF_SIZE_T 0 = .ok sizeBytes →
      ∃ out, encode mem blob = .ok out) := by
  by_cases hne : blob = []
  · subst hne
    refine ⟨?_, fun h => absurd rfl h⟩
    intro out h
    rw [encode_empty] at h
    exact Except.noConfusion h
  · obtain ⟨hok, hmax, hcov⟩ := runsFrom_blob blob
    obtain ⟨t1, t2, _⟩ := tilesAll_ok blob _ 0 (by omega) hok
    obtain ⟨recs, h1, hwf, hlit⟩ := emitLoop_literals blob
      (tilesAll (runsFrom 0 false npos blob)) hsz blob.length 0 [] _ (by simp) t1 t2
      (by omega) (by omega)
      (by
        intro p _ hp2 hp3
        obtain ⟨c, hc, k1, k2⟩ := hcov p hp2 hp3
        exact (tilesAll_covers p _
          (fun d hd => (ChunksOK_mem blob _ 0 hok d hd).1)).mpr ⟨c, hc, k1, by omega⟩)
    simp only [List.length_nil] at h1
    have henc : encode mem blob = (writeSizeBytes mem blob.length SIZEOF_SIZE_T 0).map
        (fun sizeBytes => sizeBytes ++ wireBytes recs) := by
      rw [encode_eq mem blob hne hsz, h1]
      exact map_sizeBytes_eq _ _
    refine ⟨?_, ?_⟩
    · intro out h
      rw [henc] at h
      have hdrop := (drop_sizeBytes mem blob.length _ out h).2
      have hlen : (wireBytes recs).length ≤ out.length := by
        rw [← hdrop, List.length_drop]; omega
      refine ⟨recs, ?_, hdrop.symm, hlit⟩
      rw [hdrop]
      apply parseRecords_wireBytes recs _ hwf
      have := wireBytes_length_ge recs
      omega
    · intro _ s hs
      exact ⟨s ++ wireBytes recs, by rw [henc, hs]; rfl⟩

theorem hetero_records_nonrepeating_witness :
    [1, 2, 3, 3, 4, 5, 5, 5, 6].length < SIZE_RANGE ∧
      encode zeroMemory [1, 2, 3, 3, 4, 5, 5, 5, 6]
        = .ok ([0, 0, 0, 0, 0, 0, 0, 0] ++ [0, 2, 1, 2] ++ [2, 3] ++ [0, 1, 4] ++ [3, 5] ++
            [0, 1, 6]) ∧
      ((∀ out, encode zeroMemory [1, 2, 3, 3, 4, 5, 5, 5, 6] = .ok out →
        ∃ recs, parseRecords out.length (out.drop 8) = some recs ∧
          wireBytes recs = out.drop 8 ∧
          ∀ l, Record.hetero l ∈ recs → noAdjacentEqual l = true) ∧
      ([1, 2, 3, 3, 4, 5, 5, 5, 6] ≠ [] → ∀ sizeBytes,
        writeSizeBytes zeroMemory [1, 2, 3, 3, 4, 5, 5, 5, 6].length SIZEOF_SIZE_T 0
          = .ok sizeBytes →
        ∃ out, encode zeroMemory [1, 2, 3, 3, 4, 5, 5, 5, 6] = .ok out)) :=
  ⟨by decide, by decide,
    hetero_records_nonrepeating zeroMemory [1, 2, 3, 3, 4, 5, 5, 5, 6] (by decide)⟩

/-! ## The length of the output -/

theorem tilesAux_tight (last : Nat) (rest : List Chunk) (hrest : ChunksTight (last + 1) rest) :
    ∀ (q first start : Nat), (first = start ∨ 1 ≤ q ∨ first < last) →
      ChunksTight start (tilesAux q first last ++ rest) := by
  intro q
  induction q with
  | zero =>
      intro first start h
      refine ⟨?_, hrest⟩
      rcases h with h | h | h
      · right; exact h
      · omega
      · left; exact h
  | succ q ih =>
      intro first start _
      refine ⟨Or.inl (by simp only; omega), ?_⟩
      exact ih (first + 255) (first + 254 + 1) (Or.inl rfl)

theorem tilesAll_tight : ∀ (cs : List Chunk), (∀ c ∈ cs, c.1 < c.2) →
    ∀ start, ChunksTight start (tilesAll cs) := by
  intro cs
  induction cs with
  | nil => intro _ _; trivial
  | cons c cs ih =>
      intro h start
      exact tilesAux_tight c.2 (tilesAll cs) (ih (fun d hd => h d (by simp [hd])) _) _ c.1
        start (Or.inr (Or.inr (h c (by simp))))

theorem emitLoop_bound (blob : List Nat) (chunks : List Chunk)
    (hsz : blob.length < SIZE_RANGE) (budget : Nat) :
    ∀ (pos : Nat) (done todo : List Chunk), chunks = done ++ todo →
      ChunksOK blob pos todo → ChunksShort todo → ChunksTight pos todo →
      pos ≤ blob.length → blob.length - pos ≤ budget →
      ∃ out : List Nat,
        emitLoop blob blob.length chunks budget pos
            (if todo.isEmpty then none else some done.length) = .ok out ∧
          out.length ≤ 2 * (blob.length - pos) + 1 ∧
          (∀ c cs, todo = c :: cs → c.1 = pos → c.1 < c.2 →
            out.length ≤ 2 * (blob.length - pos)) := by
  induction budget with
  | zero =>
      intro pos done todo _ _ _ _ hpos hb
      exact ⟨[], emitLoop_done blob chunks 0 pos _ (by omega), by simp, by simp⟩
  | succ budget ih =>
      intro pos done todo hch hok hshort htight hpos hb
      by_cases hend : blob.length ≤ pos
      · exact ⟨[], emitLoop_done blob chunks _ pos _ hend, by simp, by simp⟩
      · have hlt : pos < blob.length := by omega
        cases todo with
        | nil =>
            simp only [List.isEmpty_nil, if_true]
            by_cases hfin : blob.length - pos ≤ 255
            · have hmin : min (blob.length - pos) 255 = blob.length - pos := by omega
              have hrest := emitLoop_done blob chunks budget
                (pos + min (blob.length - pos) 255) none (by omega)
              refine ⟨_, emitLoop_hetero_none blob chunks budget pos _ hlt hrest, ?_, ?_⟩
              · simp only [List.length_cons, List.length_append, List.length_take,
                  List.length_drop, List.length_nil]
                omega
              · intro c cs h; exact List.noConfusion h
            · have hmin : min (blob.length - pos) 255 = 255 := by omega
              obtain ⟨out, h1, h2, _⟩ := ih (pos + min (blob.length - pos) 255) done [] hch
                trivial hshort trivial (by omega) (by omega)
              simp only [List.isEmpty_nil, if_true] at h1
              refine ⟨_, emitLoop_hetero_none blob chunks budget pos _ hlt h1, ?_, ?_⟩
              · simp only [List.length_cons, List.length_append, List.length_take,
                  List.length_drop]
                omega
              · intro c cs h; exact List.noConfusion h
        | cons c cs =>
            obtain ⟨hc1, hc2, hc3, hc4, hc5⟩ := hok
            obtain ⟨ht1, ht2⟩ := htight
            have hk : chunks[done.length]? = some c := by
              rw [hch, List.getElem?_append_right (le_refl _)]; simp
            have hcs : c.2 < c.1 + 255 := hshort c (by simp)
            simp only [List.isEmpty_cons, Bool.false_eq_true, if_false]
            by_cases hat : c.1 = pos
            · have hcur : (if done.length + 1 == chunks.length then none
                  else some (done.length + 1))
                  = (if cs.isEmpty then none else some (done ++ [c]).length) := by
                rw [hch]
                cases cs <;> simp
              obtain ⟨out, h1, h2, _⟩ := ih (c.2 + 1) (done ++ [c]) cs (by simp [hch]) hc5
                (fun d hd => hshort d (by simp [hd])) ht2 (by omega) (by omega)
              obtain ⟨v, hv⟩ : ∃ v, blob[pos]? = some v :=
                ⟨blob[pos], List.getElem?_eq_getElem hlt⟩
              rw [← hcur] at h1
              refine ⟨_, emitLoop_homog blob chunks budget pos done.length v c _ hv hk hat hc2
                (by omega) h1, ?_, ?_⟩
              · simp only [List.length_cons]
                omega
              · intro c' cs' heq _ hlong
                have : c' = c := (List.cons.inj heq).1.symm
                subst this
                simp only [List.length_cons]
                omega
            · have hbefore : pos < c.1 := by omega
              have hlong : c.1 < c.2 := by
                rcases ht1 with h | h
                · exact h
                · omega
              obtain ⟨out, h1, h2, h3⟩ := ih (pos + min (c.1 - pos) 255) done (c :: cs) hch
                ⟨by omega, hc2, hc3, hc4, hc5⟩ hshort ⟨Or.inl hlong, ht2⟩ (by omega) (by omega)
              simp only [List.isEmpty_cons, Bool.false_eq_true, if_false] at h1
              refine ⟨_, emitLoop_hetero_some blob chunks budget pos done.length c _ hlt hsz hk
                hbefore (by omega) h1, ?_, ?_⟩
              · simp only [List.length_cons, List.length_append, List.length_take,
                  List.length_drop]
                by_cases hreach : c.1 - pos ≤ 255
                · have := h3 c cs rfl (by omega) hlong
                  omega
                · omega
              · intro c' cs' heq hpos' _
                have : c' = c := (List.cons.inj heq).1.symm
                subst this
                omega

/-- For a non-empty blob of `N` bytes the output has the eight size bytes and at most
`2 * N + 1` record bytes. -/
theorem encode_length_bound (mem : Nat → Option Nat) (blob : List Nat) (hne : blob ≠ [])
    (hsz : blob.length < SIZE_RANGE) :
    (∀ out, encode mem blob = .ok out → out.length ≤ 8 + 2 * blob.length + 1) ∧
      (∀ sizeBytes, writeSizeBytes mem blob.length SIZEOF_SIZE_T 0 = .ok sizeBytes →
        ∃ out, encode mem blob = .ok out) := by
  obtain ⟨hok, hmax, _⟩ := runsFrom_blob blob
  obtain ⟨t1, t2, _⟩ := tilesAll_ok blob _ 0 (by omega) hok
  obtain ⟨records, h1, h2, _⟩ := emitLoop_bound blob (tilesAll (runsFrom 0 false npos blob))
    hsz blob.length 0 [] _ (by simp) t1 t2
    (tilesAll_tight _ (fun c hc => (hmax c hc).1) 0) (by omega) (by omega)
  simp only [List.length_nil] at h1
  have henc : encode mem blob = (writeSizeBytes mem blob.length SIZEOF_SIZE_T 0).map
      (fun sizeBytes => sizeBytes ++ records) := by
    rw [encode_eq mem blob hne hsz, h1]
    exact map_sizeBytes_eq _ _
  constructor
  · intro out h
    rw [henc] at h
    obtain ⟨s, hs, rfl⟩ := map_ok_inv _ _ _ h
    have hlen : s.length = 8 := writeSizeBytes_length mem _ _ _ _ hs
    rw [List.length_append, hlen]
    omega
  · intro s hs
    exact ⟨s ++ records, by rw [henc, hs]; rfl⟩

/-- C18 (worst-case expansion bound), at the empty blob: the claim gives the output
exactly 8 bytes there, and the encoder returns no output at all, because the scan loop,
whose bound `blobSize - 1` wraps for `blobSize = 0`, reads `blob[0]` outside the blob.
(For every non-empty blob the bound `8 + 2 * N + 1` holds: `encode_length_bound`.) -/
theorem expansion_bound_empty_blob (mem : Nat → Option Nat) :
    encode mem [] = .error .outOfBoundsRead ∧
      ¬ ∃ out, encode mem [] = .ok out ∧ out.length = 8 := by
  refine ⟨encode_empty mem, ?_⟩
  rintro ⟨out, h, _⟩
  rw [encode_empty] at h
  exact Except.noConfusion h

/-- With `blobSize = 0` the record loop executes no iteration, whatever the run list. -/
theorem emitIterations_empty (chunks : List Chunk) (budget : Nat) (cur : Option Nat) :
    emitIterations [] 0 chunks budget 0 cur = .ok (0, 0) := by
  cases budget <;> rfl

end RLE
